import Mathlib

/-!
Shallow embedding of the `avltree` package of github.com/johan-bolmsjo/gods
(src/avltree/avltree.go, generic v2 version) together with the pieces of the
`math` helper package it uses.

Modelling decisions:
* Go heap nodes are modelled by an inductive tree whose nodes carry a unique
  allocation id (`Nat`); pointer equality in the source (`iter.curr == curr`
  in `Tree.Remove`) becomes id equality, and a pointer held by an iterator
  becomes the id of the node, dereferenced in the current tree.
* In-place pointer mutation becomes functional update: each Go assignment to
  a field of a node is a `setLink`/`setBalance` rebuild of that node, with the
  same sequencing as the source.
* The iterator registry (an intrusive doubly linked list in the source) is
  modelled as the list of all iterators ever created for the tree, each with a
  `linked` flag (`listNode.IsLinked()`); tree operations act uniformly on
  every linked iterator, exactly as the source's registry traversals do, and
  the registry order is never observable.
* `release` callbacks of `Clear` are modelled by returning the list of
  released associations in call order.
-/

namespace GodsAvl

/-- `direction` from the source: selects left or right node links. -/
inductive direction where
  | left
  | right
deriving DecidableEq, Repr

/-- `direction.other` from the source (xor with 1: invert direction). -/
def direction.other : direction → direction
  | .left => .right
  | .right => .left

/-- `direction.balance` from the source. -/
def direction.balance : direction → Int
  | .left => -1
  | .right => 1

/-- `direction.inverseBalance` from the source. -/
def direction.inverseBalance : direction → Int
  | .left => 1
  | .right => -1

/-- `directionOfBool` from the source. -/
def directionOfBool (b : Bool) : direction :=
  if b then .right else .left

/-- `math.AbsSigned` from the source math package. -/
def AbsSigned (val : Int) : Int :=
  if val < 0 then -val else val

/-- `math.MaxInteger` from the source math package. -/
def MaxInteger (lhs rhs : Int) : Int :=
  if lhs > rhs then lhs else rhs

/-- A tree node (`node[K, V]` in the source): left/right links, balance
factor, key and value, plus the allocation id standing in for the node's
heap address. `nil` is the nil pointer. -/
inductive node (K V : Type) where
  | nil
  | mk (link0 link1 : node K V) (balance : Int) (id : Nat) (key : K) (value : V)
deriving Repr

namespace node

variable {K V : Type}

/-- `n.link[dir]` of the source (reading a link of the nil pointer is
unreachable in the source; it is mapped to `nil`). -/
def link : node K V → direction → node K V
  | .nil, _ => .nil
  | .mk l _ _ _ _ _, .left => l
  | .mk _ r _ _ _ _, .right => r

/-- Assignment `n.link[dir] = x` of the source, as a functional update. -/
def setLink : node K V → direction → node K V → node K V
  | .nil, _, _ => .nil
  | .mk _ r b i k v, .left, x => .mk x r b i k v
  | .mk l _ b i k v, .right, x => .mk l x b i k v

/-- The balance factor field (0 for the nil pointer; never read there in the
source). -/
def balance : node K V → Int
  | .nil => 0
  | .mk _ _ b _ _ _ => b

/-- Assignment `n.balance = x` of the source. -/
def setBalance : node K V → Int → node K V
  | .nil, _ => .nil
  | .mk l r _ i k v, b => .mk l r b i k v

/-- The allocation id (heap address stand-in) of a node; `none` for nil. -/
def idOf : node K V → Option Nat
  | .nil => none
  | .mk _ _ _ i _ _ => some i

/-- Whether the node is the nil pointer. -/
def isNil : node K V → Bool
  | .nil => true
  | .mk .. => false

/-- Two way single rotation (`singleRotation` in the source). -/
def singleRotation (root : node K V) (dir : direction) : node K V :=
  let odir := dir.other
  let save := root.link odir
  let root := root.setLink odir (save.link dir)
  let save := save.setLink dir root
  save

/-- Two way double rotation (`doubleRotation` in the source). The in-place
pointer assignments of the source become sequenced functional updates. -/
def doubleRotation (root : node K V) (dir : direction) : node K V :=
  let odir := dir.other
  let n1 := root.link odir
  let save := n1.link dir
  let n1 := n1.setLink dir (save.link odir)
  let save := save.setLink odir n1
  let root := root.setLink odir save
  let save := root.link odir
  let root := root.setLink odir (save.link dir)
  let save := save.setLink dir root
  save

/-- Adjust balance before double rotation (`adjustBalance` in the source). -/
def adjustBalance (root : node K V) (dir : direction) (bal : Int) : node K V :=
  let n1 := root.link dir
  let n2 := n1.link dir.other
  let rootBal := if n2.balance = 0 then (0 : Int)
    else if n2.balance = bal then -bal else 0
  let n1Bal := if n2.balance = 0 then (0 : Int)
    else if n2.balance = bal then 0 else bal
  let n2 := n2.setBalance 0
  let n1 := (n1.setBalance n1Bal).setLink dir.other n2
  let root := (root.setBalance rootBal).setLink dir n1
  root

/-- Rebalance after insertion (`insertBalance` in the source). -/
def insertBalance (root : node K V) (dir : direction) : node K V :=
  let n := root.link dir
  let bal := dir.balance
  if n.balance = bal then
    let root := (root.setBalance 0).setLink dir (n.setBalance 0)
    root.singleRotation dir.other
  else
    -- n.balance == -bal
    let root := root.adjustBalance dir bal
    root.doubleRotation dir.other

/-- Rebalance after deletion (`removeBalance` in the source). The boolean is
the source's `done` flag (stop retracing). -/
def removeBalance (root : node K V) (dir : direction) : node K V × Bool :=
  let n := root.link dir.other
  let bal := dir.balance
  if n.balance = -bal then
    let root := (root.setBalance 0).setLink dir.other (n.setBalance 0)
    (root.singleRotation dir, false)
  else if n.balance = bal then
    let root := root.adjustBalance dir.other (-bal)
    (root.doubleRotation dir, false)
  else
    -- n.balance == 0
    let root := (root.setBalance (-bal)).setLink dir.other (n.setBalance bal)
    (root.singleRotation dir, true)

end node

variable {K V : Type}

/-- Core of `Tree.Add`: the source's top-down insertion with saved rebalance
point, rendered as the equivalent recursion that passes the "subtree height
grew" flag up the search path. Behaviour matches the source exactly: on the
search path below the deepest ancestor with non-zero balance every balance
factor gains `dir.balance` for the step direction `dir` taken there (these are
the nodes for which `grew` stays `true`: their factor was 0 and becomes ±1);
at that deepest ancestor the factor either becomes 0 (stop) or overflows to
±2, triggering the single `insertBalance` of the source; ancestors above are
untouched. Returns (new subtree, height grew, a new node was inserted).
An existing association is overwritten in place (key and value), as in the
source's update branch, with no rebalancing. -/
def addNode (cmp : K → K → Int) (newId : Nat) (key : K) (value : V) :
    node K V → node K V × Bool × Bool
  | .nil => (.mk .nil .nil 0 newId key value, true, true)
  | .mk l r b i k v =>
    let cmpv := cmp k key
    if cmpv = 0 then
      -- Update association
      (.mk l r b i key value, false, false)
    else
      let dir := directionOfBool (decide (cmpv < 0))
      let res := match dir with
        | .left => addNode cmp newId key value l
        | .right => addNode cmp newId key value r
      let t := (node.mk l r b i k v).setLink dir res.1
      if res.2.1 then
        let t := t.setBalance (t.balance + dir.balance)
        if t.balance = 0 then (t, false, res.2.2)
        else if AbsSigned t.balance > 1 then (t.insertBalance dir, false, res.2.2)
        else (t, true, res.2.2)
      else (t, false, res.2.2)

/-- The in-order heir descent of `Tree.Remove`: splice out the leftmost node
of a subtree, retracing balance factors along the descent path exactly as the
source's bottom-up walk does (the walk direction at every level of this
descent is `directionLeft`). Returns (new subtree, height shrank, spliced
node's id, key, value). Only called on non-nil subtrees; the `nil` branch is
unreachable. -/
def removeLeftmost [Inhabited K] [Inhabited V] :
    node K V → node K V × Bool × Nat × K × V
  | .nil => (.nil, false, 0, default, default)
  | .mk l r b i k v =>
    match l with
    | .nil => (r, true, i, k, v)
    | .mk .. =>
      let res := removeLeftmost l
      let t := node.mk res.1 r b i k v
      if res.2.1 then
        let t := t.setBalance (t.balance + direction.left.inverseBalance)
        if AbsSigned t.balance = 1 then (t, false, res.2.2)
        else if AbsSigned t.balance > 1 then
          let rb := t.removeBalance .left
          (rb.1, !rb.2, res.2.2)
        else (t, true, res.2.2)
      else (t, false, res.2.2)

/-- Core of `Tree.Remove`: the source's path-stack search and bottom-up
retrace, rendered as the equivalent recursion passing the "subtree height
shrank" flag up the search path (`done` in the source = stop retracing =
`shrank` is false from there on). Returns `none` when the key is absent
(the source returns with no state change), otherwise (new subtree, height
shrank, physically removed node's id, the removed association's key — which
after the source's key/value swap is exactly the key stored in the physically
removed node). -/
def removeNode [Inhabited K] [Inhabited V] (cmp : K → K → Int) (key : K) :
    node K V → Option (node K V × Bool × Nat × K) :=
  fun t =>
  match t with
  | .nil => none
  | .mk l r b i k v =>
    let cmpv := cmp k key
    if cmpv = 0 then
      -- Remove this node
      match l, r with
      | .nil, _ => some (r, true, i, k)
      | .mk .., .nil => some (l, true, i, k)
      | .mk .., .mk .. =>
        -- Two children: swap association with the in-order heir and splice
        -- the heir out; retrace this level with walk direction right.
        let res := removeLeftmost r
        let t := node.mk l res.1 b i res.2.2.2.1 res.2.2.2.2
        let hid := res.2.2.1
        if res.2.1 then
          let t := t.setBalance (t.balance + direction.right.inverseBalance)
          if AbsSigned t.balance = 1 then some (t, false, hid, k)
          else if AbsSigned t.balance > 1 then
            let rb := t.removeBalance .right
            some (rb.1, !rb.2, hid, k)
          else some (t, true, hid, k)
        else some (t, false, hid, k)
    else
      let dir := directionOfBool (decide (cmpv < 0))
      let res := match dir with
        | .left => removeNode cmp key l
        | .right => removeNode cmp key r
      match res with
      | none => none
      | some sub =>
        let t := (node.mk l r b i k v).setLink dir sub.1
        if sub.2.1 then
          let t := t.setBalance (t.balance + dir.inverseBalance)
          if AbsSigned t.balance = 1 then some (t, false, sub.2.2)
          else if AbsSigned t.balance > 1 then
            let rb := t.removeBalance dir
            some (rb.1, !rb.2, sub.2.2)
          else some (t, true, sub.2.2)
        else some (t, false, sub.2.2)

/-- Find the subtree whose root node has the given allocation id. This is the
model's pointer-dereference device: an iterator's stored node pointer is an
id, resolved in the current tree. Returns `none` for a dangling id. -/
def node.findById : node K V → Nat → Option (node K V)
  | .nil, _ => none
  | .mk l r b i k v, id =>
    if i = id then some (.mk l r b i k v)
    else
      match node.findById l id with
      | some n => some n
      | none => node.findById r id

/-- Number of nodes of a subtree (model device, used for termination and
to state length invariants). -/
def node.size : node K V → Nat
  | .nil => 0
  | .mk l r _ _ _ _ => l.size + r.size + 1

/-- Length of the leftmost spine (model device for the termination measure of
the destruction-by-rotation loop of `Tree.Clear`). -/
def node.leftSpine : node K V → Nat
  | .nil => 0
  | .mk l _ _ _ _ _ => l.leftSpine + 1

/-- `Tree.Find`: the search loop, with `Option` standing for the
(value, found) pair (the source returns the zero value of V and false when no
association was found). -/
def findNode (cmp : K → K → Int) (key : K) : node K V → Option V
  | .nil => none
  | .mk l r _ _ k v =>
    let cmpv := cmp k key
    if cmpv = 0 then some v
    else
      match directionOfBool (decide (cmpv < 0)) with
      | .left => findNode cmp key l
      | .right => findNode cmp key r

/-- `Tree.FindEqualOrLesser`: the search loop with its `lesser` best-match
accumulator (the accumulator holds the association of the source's saved
`lesser` node; starts as `none`). -/
def findLeNode (cmp : K → K → Int) (key : K) :
    node K V → Option (K × V) → Option (K × V)
  | .nil, lesser => lesser
  | .mk l r _ _ k v, lesser =>
    let cmpv := cmp k key
    if cmpv = 0 then some (k, v)
    else
      let lesser := if cmpv < 0 then some (k, v) else lesser
      match directionOfBool (decide (cmpv < 0)) with
      | .left => findLeNode cmp key l lesser
      | .right => findLeNode cmp key r lesser

/-- `Tree.FindEqualOrGreater`: the search loop with its `greater` best-match
accumulator. -/
def findGeNode (cmp : K → K → Int) (key : K) :
    node K V → Option (K × V) → Option (K × V)
  | .nil, greater => greater
  | .mk l r _ _ k v, greater =>
    let cmpv := cmp k key
    if cmpv = 0 then some (k, v)
    else
      let greater := if cmpv > 0 then some (k, v) else greater
      match directionOfBool (decide (cmpv < 0)) with
      | .left => findGeNode cmp key l greater
      | .right => findGeNode cmp key r greater

/-- Sorted-order violation check of `Tree.validateNode` for one child link:
false when the link is nil; otherwise the source flags a violation when
`dir == directionOfBool(cmp < 0)` for `cmp = compareKeys(child.key, node.key)`. -/
def childViolation (cmp : K → K → Int) (dir : direction) (parentKey : K) :
    node K V → Bool
  | .nil => false
  | .mk _ _ _ _ ck _ =>
    decide (directionOfBool (decide (cmp ck parentKey < 0)) = dir)

/-- `Tree.validateNode`: returns (balanced, sorted, max depth) for the
subtree; the source's accumulation into the `rvBalanced`/`rvSorted` out
parameters (which only ever sets them to false) is rendered as a conjunction
over the subtree. The `nil` case returns the source's `depthLink[dir] = depth`
default for an absent link. -/
def validateNode (cmp : K → K → Int) : node K V → Int → Bool × Bool × Int
  | .nil, depth => (true, true, depth)
  | .mk l r _ _ k _, depth =>
    let depth := depth + 1
    let violL : Bool := childViolation cmp direction.left k l
    let violR : Bool := childViolation cmp direction.right k r
    let resL := validateNode cmp l depth
    let resR := validateNode cmp r depth
    (resL.1 && resR.1 && !(decide (AbsSigned (resL.2.2 - resR.2.2) > 1)),
     resL.2.1 && resR.2.1 && !violL && !violR,
     MaxInteger resL.2.2 resR.2.2)

/-- `Tree.Validate`. -/
def validate (cmp : K → K → Int) (t : node K V) : Bool × Bool :=
  match t with
  | .nil => (true, true)
  | .mk .. =>
    let res := validateNode cmp t 0
    (res.1, res.2.1)

/-- Destruction-by-rotation loop of `Tree.Clear`, returning the list of
released associations in `release`-callback call order (the callback is
invoked by `nodePool.put` once per removed node). -/
def clearLoop : node K V → List (K × V)
  | .nil => []
  | .mk .nil r _ _ k v => (k, v) :: clearLoop r
  | .mk (.mk ll lr lb li lk lv) r b i k v =>
    -- Rotate right: save = curr.link[L]; curr.link[L] = save.link[R];
    -- save.link[R] = curr; curr = save
    clearLoop (.mk ll (.mk lr r b i k v) lb li lk lv)
termination_by t => (t.size, t.leftSpine)
decreasing_by
  · simp [node.size]
    apply Prod.Lex.left
    omega
  · simp only [node.size, node.leftSpine]
    have h : node.size ll + (node.size lr + node.size r + 1) + 1 =
        node.size ll + node.size lr + 1 + node.size r + 1 := by omega
    rw [h]
    apply Prod.Lex.right
    omega

-- * Iterator *

/-- `Iterator[K, V]` of the source: the current node and the entries of the
traversal path stack are node pointers, modelled as allocation ids (the
path list's head is the source's top of stack `path[top-1]`); `linked`
is `listNode.IsLinked()` (membership in the tree's iterator registry);
`update` is the dirty flag. -/
structure Iter where
  curr : Option Nat
  path : List Nat
  dir : direction
  update : Bool
  linked : Bool
deriving Repr, DecidableEq

/-- `Iterator.Close`: unlink from the registry and clear the node
references. -/
def Iter.close (it : Iter) : Iter :=
  { it with linked := false, curr := none, path := [] }

/-- Shared descent loop of `buildPathStart` and the first branch of
`advance`: from a non-nil node, repeatedly push the node and follow `dir`
links until none remains; returns the final node's id and the path. -/
def buildPathDescend (dir : direction) : node K V → List Nat → Option Nat × List Nat
  | .nil, path => (none, path)
  | .mk l r _ i _ _, path =>
    match dir with
    | .left =>
      match l with
      | .nil => (some i, path)
      | .mk .. => buildPathDescend .left l (i :: path)
    | .right =>
      match r with
      | .nil => (some i, path)
      | .mk .. => buildPathDescend .right r (i :: path)

/-- `Iterator.buildPathStart`: build path to the first or last association
depending on iterator direction; reports success (root was non-nil). -/
def buildPathStart (root : node K V) (it : Iter) : Iter × Bool :=
  match root with
  | .nil => ({ it with curr := none, path := [] }, false)
  | .mk .. =>
    let res := buildPathDescend it.dir.other root []
    ({ it with curr := res.1, path := res.2 }, true)

/-- Search descent of `Iterator.buildPathCurr`: push nodes while the compare
result is non-zero (the source assumes the key is in the tree; the `nil`
branch would be a nil dereference there and is unreachable). -/
def buildPathCurrDescend (cmp : K → K → Int) (key : K) :
    node K V → List Nat → Option Nat × List Nat
  | .nil, path => (none, path)
  | .mk l r _ i k _, path =>
    let cmpv := cmp k key
    if cmpv = 0 then (some i, path)
    else
      match directionOfBool (decide (cmpv < 0)) with
      | .left => buildPathCurrDescend cmp key l (i :: path)
      | .right => buildPathCurrDescend cmp key r (i :: path)

/-- `Iterator.buildPathCurr`: rebuild the path to the current node by
re-descending from the root using the retained current key (`iter.curr.key`,
read through the id). -/
def buildPathCurr (cmp : K → K → Int) (root : node K V) (it : Iter) : Iter :=
  match it.curr.bind root.findById with
  | some (.mk _ _ _ _ key _) =>
    let res := buildPathCurrDescend cmp key root []
    { it with curr := res.1, path := res.2 }
  | _ => { it with curr := none, path := [] }

/-- Search descent of `Iterator.buildPathNext`: descend comparing against
`key`, recording as `best` the latest node whose step direction differed from
the iterator direction together with the path above it (this is what the
source's record-then-wind-back-to-`match` produces: after winding back, the
stack holds exactly the ancestors pushed before the match node). -/
def buildPathNextDescend (cmp : K → K → Int) (idir : direction) (key : K) :
    node K V → List Nat → Option (Nat × List Nat) → Option (Nat × List Nat)
  | .nil, _, best => best
  | .mk l r _ i k _, path, best =>
    let dir := directionOfBool (decide (cmp k key < 0))
    let best := if dir ≠ idir then some (i, path) else best
    match dir with
    | .left => buildPathNextDescend cmp idir key l (i :: path) best
    | .right => buildPathNextDescend cmp idir key r (i :: path) best

/-- `Iterator.buildPathNext`: build the path to the node next to the current
node in the iterator's direction and report whether it fell over the edge.
The key is the one read from the removed node (`iter.curr.key` in the source;
passed explicitly here because the node is no longer in the tree). -/
def buildPathNext (cmp : K → K → Int) (key : K) (root : node K V) (it : Iter) :
    Iter × Bool :=
  match buildPathNextDescend cmp it.dir key root [] none with
  | some (i, path) => ({ it with curr := some i, path := path }, true)
  | none => ({ it with curr := none, path := [] }, false)

/-- Pop loop of `Iterator.advance` (the "move to the next branch" case):
pop ancestors until one is reached that was not entered via the traversal
direction; `last` is the id of the node visited just before the pop. -/
def advancePop (root : node K V) (dir : direction) :
    List Nat → Nat → Option Nat × List Nat
  | [], _ => (none, [])
  | p :: rest, last =>
    match root.findById p with
    | none => (none, rest)
    | some n =>
      if (n.link dir).idOf ≠ some last then (some p, rest)
      else advancePop root dir rest p

/-- Step of `Iterator.advance` on the current node's child in the traversal
direction (last argument): `nil` = pop ancestors, otherwise descend the
branch. -/
def advanceStep (root : node K V) (it : Iter) (i : Nat) :
    node K V → Iter × Bool
  | .nil =>
    let res := advancePop root it.dir it.path i
    ({ it with curr := res.1, path := res.2 }, res.1.isSome)
  | .mk cl cr cb ci ck cv =>
    let res := buildPathDescend it.dir.other (.mk cl cr cb ci ck cv)
      (i :: it.path)
    ({ it with curr := res.1, path := res.2 }, res.1.isSome)

/-- Body of `Iterator.advance` once the current node has been resolved (the
resolved node is the last argument; a dangling id resolves to `nil` below,
which in the source would be a nil dereference). -/
def advanceAt (root : node K V) (it : Iter) : node K V → Iter × Bool
  | .nil => ({ it with curr := none }, false)
  | .mk l r b i k v => advanceStep root it i ((node.mk l r b i k v).link it.dir)

/-- Resolution step of `Iterator.advance`: the current node pointer, read
through the id. -/
def advanceResolve (root : node K V) (it : Iter) :
    Option (node K V) → Iter × Bool
  | some n => advanceAt root it n
  | none => ({ it with curr := none }, false)

/-- `Iterator.advance`: move the iterator in its direction; reports whether it
fell over the edge (`false` = fell off). -/
def advance (root : node K V) (it : Iter) : Iter × Bool :=
  advanceResolve root it (it.curr.bind root.findById)

/-- Body of `Iterator.Next` once the current node has been resolved (a
dangling id resolves to `nil`, which in the source would be a nil
dereference). -/
def iterNextAt [Inhabited K] [Inhabited V] (root : node K V) (it : Iter) :
    node K V → Iter × (K × V × Bool)
  | .nil => (it.close, (default, default, false))
  | .mk _ _ _ _ k v =>
    let res := advance root it
    let it := if res.2 then res.1 else res.1.close
    (it, (k, v, true))

/-- Resolution step of `Iterator.Next`: the current node pointer, read
through the id; a cleared pointer (or dangling id) means the source would
dereference nil — rendered as closing with a not-found result. -/
def iterNextResolve [Inhabited K] [Inhabited V] (root : node K V)
    (it : Iter) : Option (node K V) → Iter × (K × V × Bool)
  | some n => iterNextAt root it n
  | none => (it.close, (default, default, false))

/-- Per-iterator part of `Iterator.Next` (the zero values of K and V together
with `false` model the source's `zeroAssoc` not-found result). -/
def iterNextIter [Inhabited K] [Inhabited V] (cmp : K → K → Int)
    (root : node K V) (it : Iter) : Iter × (K × V × Bool) :=
  if !it.linked then (it, (default, default, false))
  else
    let it := if it.update then
        { buildPathCurr cmp root it with update := false }
      else it
    iterNextResolve root it (it.curr.bind root.findById)

-- * Tree (system state and public operations) *

/-- `Tree[K, V]` of the source together with its iterator registry: `iters`
holds every iterator ever created for the tree (the user's handle is the list
index); an iterator is registered exactly when its `linked` flag is set.
`nextId` is the allocation counter standing in for heap addresses. The
comparator, a stored field of the Go struct, is passed to each operation
instead (it is fixed per tree in any execution). -/
structure TreeSys (K V : Type) where
  root : node K V
  length : Int
  nextId : Nat
  iters : List Iter
deriving Repr

/-- `New`: a fresh empty tree. -/
def newTree : TreeSys K V :=
  { root := .nil, length := 0, nextId := 0, iters := [] }

/-- `Tree.Add`: empty-tree fast path (no iterator marking), update of an
existing association (the source returns before the iterator marking and the
length increment), or insertion followed by marking every registered iterator
for path update. -/
def addOp (cmp : K → K → Int) (sys : TreeSys K V) (key : K) (value : V) :
    TreeSys K V :=
  match sys.root with
  | .nil =>
    { sys with root := .mk .nil .nil 0 sys.nextId key value,
               nextId := sys.nextId + 1, length := sys.length + 1 }
  | .mk .. =>
    let res := addNode cmp sys.nextId key value sys.root
    if res.2.2 then
      { sys with root := res.1, nextId := sys.nextId + 1,
                 length := sys.length + 1,
                 iters := sys.iters.map (fun it =>
                   if it.linked then { it with update := true } else it) }
    else
      { sys with root := res.1 }

/-- `Tree.Remove`: remove the association (no-op when absent), then update
every registered iterator: mark it for path update, except an iterator
positioned on the (physically) removed node, whose path is rebuilt now —
towards the next node in its direction — or which is closed when it fell over
the edge. -/
def removeOp [Inhabited K] [Inhabited V] (cmp : K → K → Int)
    (sys : TreeSys K V) (key : K) : TreeSys K V :=
  match removeNode cmp key sys.root with
  | none => sys
  | some (root', _, rid, rkey) =>
    { sys with root := root', length := sys.length - 1,
               iters := sys.iters.map (fun it =>
                 if !it.linked then it
                 else if it.curr = some rid then
                   let res := buildPathNext cmp rkey root' { it with update := false }
                   if res.2 then res.1 else res.1.close
                 else { it with update := true }) }

/-- `Tree.Clear`: destruction by rotation, release of every association, and
closing of every registered iterator. The second component is the sequence of
`release` calls. -/
def clearOp (sys : TreeSys K V) : TreeSys K V × List (K × V) :=
  (({ sys with root := .nil, length := 0,
               iters := sys.iters.map (fun it =>
                 if it.linked then it.close else it) }),
   clearLoop sys.root)

/-- `Tree.Length`. -/
def lengthOp (sys : TreeSys K V) : Int :=
  sys.length

/-- `Tree.iterator`: create an iterator in the given direction, registering it
only when a valid start position exists. Returns the new state and the
iterator's handle (its index). -/
def newIterOp (sys : TreeSys K V) (dir : direction) : TreeSys K V × Nat :=
  let it : Iter := { curr := none, path := [], dir := dir,
                     update := false, linked := false }
  let res := buildPathStart sys.root it
  let it := if res.2 then { res.1 with linked := true } else res.1
  ({ sys with iters := sys.iters ++ [it] }, sys.iters.length)

/-- `Tree.NewIterator`: advances from low to high key values. -/
def newIteratorOp (sys : TreeSys K V) : TreeSys K V × Nat :=
  newIterOp sys .right

/-- `Tree.NewReverseIterator`: advances from high to low key values. -/
def newReverseIteratorOp (sys : TreeSys K V) : TreeSys K V × Nat :=
  newIterOp sys .left

/-- `Iterator.Next` at the system level (handle = index; an out-of-range
handle has no counterpart in the source and reports not-found). -/
def iterNextOp [Inhabited K] [Inhabited V] (cmp : K → K → Int)
    (sys : TreeSys K V) (h : Nat) : TreeSys K V × (K × V × Bool) :=
  match sys.iters[h]? with
  | none => (sys, (default, default, false))
  | some it =>
    let res := iterNextIter cmp sys.root it
    ({ sys with iters := sys.iters.set h res.1 }, res.2)

/-- `Iterator.Close` at the system level. -/
def iterCloseOp (sys : TreeSys K V) (h : Nat) : TreeSys K V :=
  match sys.iters[h]? with
  | none => sys
  | some it => { sys with iters := sys.iters.set h it.close }

-- * Proof layer: comparator laws, invariants, abstraction to sorted lists *

/-- `math.CompareOrdered` from the source math package, at `Int`. -/
def CompareOrdered (lhs rhs : Int) : Int :=
  if lhs < rhs then -1 else if lhs = rhs then 0 else 1

/-- A total-order comparator in the sense of the source's `math.Comparator`
contract: zero exactly on equal keys, antisymmetric in sign, and transitive
on the strict part. -/
structure LawfulCmp (cmp : K → K → Int) : Prop where
  eq_iff : ∀ a b, cmp a b = 0 ↔ a = b
  neg : ∀ a b, cmp b a = -cmp a b
  lt_trans : ∀ a b c, cmp a b < 0 → cmp b c < 0 → cmp a c < 0

theorem lawful_CompareOrdered : LawfulCmp CompareOrdered := by
  constructor
  · intro a b
    simp only [CompareOrdered]
    split <;> rename_i h₁
    · constructor <;> intro h₂ <;> omega
    · split <;> rename_i h₂
      · simp [h₂]
      · constructor <;> intro h₃ <;> omega
  · intro a b
    simp only [CompareOrdered]
    split <;> rename_i h₁ <;> split <;> rename_i h₂ <;> omega
  · intro a b c
    simp only [CompareOrdered]
    split <;> rename_i h₁ <;> split <;> rename_i h₂ <;>
      split <;> rename_i h₃ <;> omega

namespace LawfulCmp

variable {cmp : K → K → Int}

theorem refl (hc : LawfulCmp cmp) (a : K) : cmp a a = 0 :=
  (hc.eq_iff a a).mpr rfl

theorem gt_iff_lt (hc : LawfulCmp cmp) (a b : K) :
    0 < cmp a b ↔ cmp b a < 0 := by
  rw [hc.neg]; omega

theorem lt_irrefl (hc : LawfulCmp cmp) (a : K) : ¬cmp a a < 0 := by
  have := hc.refl a; omega

end LawfulCmp

/-- Height of a subtree: 0 for nil, 1 + max of children otherwise. -/
def node.height : node K V → Nat
  | .nil => 0
  | .mk l r _ _ _ _ => 1 + max l.height r.height

/-- The AVL balance invariant of the data model: every balance factor equals
the right subtree height minus the left subtree height and lies in
{-1, 0, 1}. -/
def balOk : node K V → Bool
  | .nil => true
  | .mk l r b _ _ _ =>
    balOk l && balOk r && decide (b = (r.height : Int) - (l.height : Int)) &&
      decide (-1 ≤ b ∧ b ≤ 1)

/-- The optional strict lower bound `lo` lies below `k`. -/
def loLt (cmp : K → K → Int) (lo : Option K) (k : K) : Bool :=
  match lo with
  | none => true
  | some a => decide (cmp a k < 0)

/-- The key `k` lies below the optional strict upper bound `hi`. -/
def ltHi (cmp : K → K → Int) (k : K) (hi : Option K) : Bool :=
  match hi with
  | none => true
  | some a => decide (cmp k a < 0)

/-- The binary-search-tree invariant under the comparator, with optional
strict bounds. -/
def bst (cmp : K → K → Int) : node K V → Option K → Option K → Bool
  | .nil, _, _ => true
  | .mk l r _ _ k _, lo, hi =>
    loLt cmp lo k && ltHi cmp k hi && bst cmp l lo (some k) && bst cmp r (some k) hi

/-- In-order association list of a subtree. -/
def inorder : node K V → List (K × V)
  | .nil => []
  | .mk l r _ _ k v => inorder l ++ (k, v) :: inorder r

/-- Number of nodes carrying a given allocation id (0 or 1 in any reachable
tree). -/
def countId (j : Nat) : node K V → Nat
  | .nil => 0
  | .mk l r _ i _ _ => countId j l + countId j r + (if i = j then 1 else 0)

/-- Overwrite the association for `key` in place, leaving links, balance
factors and ids untouched. This captures the spec sentence that `Add` on an
existing key "overwrites the value and returns without altering structure";
it follows the same search the source's update branch performs. -/
def overwriteNode (cmp : K → K → Int) (key : K) (value : V) : node K V → node K V
  | .nil => .nil
  | .mk l r b i k v =>
    if cmp k key = 0 then .mk l r b i key value
    else
      match directionOfBool (decide (cmp k key < 0)) with
      | .left => .mk (overwriteNode cmp key value l) r b i k v
      | .right => .mk l (overwriteNode cmp key value r) b i k v

/-- Insert (or replace) an association in a sorted association list. -/
def insertA (cmp : K → K → Int) (key : K) (value : V) :
    List (K × V) → List (K × V)
  | [] => [(key, value)]
  | (k, v) :: rest =>
    if cmp key k < 0 then (key, value) :: (k, v) :: rest
    else if cmp key k = 0 then (key, value) :: rest
    else (k, v) :: insertA cmp key value rest

/-- Erase the association matching `key` from a sorted association list. -/
def eraseA (cmp : K → K → Int) (key : K) : List (K × V) → List (K × V)
  | [] => []
  | (k, v) :: rest =>
    if cmp k key = 0 then rest else (k, v) :: eraseA cmp key rest

/-- Look up the association matching `key` in an association list. -/
def lookupA (cmp : K → K → Int) (key : K) : List (K × V) → Option V
  | [] => none
  | (k, v) :: rest => if cmp k key = 0 then some v else lookupA cmp key rest

/-- Adjacent-pairs sortedness of an association list (strictly ascending
keys). -/
def sortedA (cmp : K → K → Int) : List (K × V) → Bool
  | [] => true
  | _ :: [] => true
  | (k, _) :: (k₂, v₂) :: rest =>
    decide (cmp k k₂ < 0) && sortedA cmp ((k₂, v₂) :: rest)

@[simp] theorem loLt_none (cmp : K → K → Int) (k : K) : loLt cmp none k = true := rfl

@[simp] theorem loLt_some (cmp : K → K → Int) (a k : K) :
    loLt cmp (some a) k = decide (cmp a k < 0) := rfl

@[simp] theorem ltHi_none (cmp : K → K → Int) (k : K) : ltHi cmp k none = true := rfl

@[simp] theorem ltHi_some (cmp : K → K → Int) (k a : K) :
    ltHi cmp k (some a) = decide (cmp k a < 0) := rfl

/-- Strictly ascending keys (pairwise, under the comparator). -/
def ordA (cmp : K → K → Int) (l : List (K × V)) : Prop :=
  l.Pairwise fun p q => cmp p.1 q.1 < 0

/-- All keys of an association list lie strictly inside the optional
bounds. -/
def boundedA (cmp : K → K → Int) (lo hi : Option K) (l : List (K × V)) : Prop :=
  ∀ p ∈ l, loLt cmp lo p.1 = true ∧ ltHi cmp p.1 hi = true

theorem ltHi_trans {cmp : K → K → Int} (hc : LawfulCmp cmp) {a k : K}
    {hi : Option K} (h₁ : cmp a k < 0) (h₂ : ltHi cmp k hi = true) :
    ltHi cmp a hi = true := by
  cases hi with
  | none => rfl
  | some b =>
    simp only [ltHi_some, decide_eq_true_eq] at *
    exact hc.lt_trans _ _ _ h₁ h₂

theorem loLt_trans {cmp : K → K → Int} (hc : LawfulCmp cmp) {a k : K}
    {lo : Option K} (h₁ : cmp k a < 0) (h₂ : loLt cmp lo k = true) :
    loLt cmp lo a = true := by
  cases lo with
  | none => rfl
  | some b =>
    simp only [loLt_some, decide_eq_true_eq] at *
    exact hc.lt_trans _ _ _ h₂ h₁

/-- The in-order list of a search tree is sorted and bounded, and
conversely. -/
theorem bst_iff_inorder {cmp : K → K → Int} (hc : LawfulCmp cmp) :
    ∀ (t : node K V) (lo hi : Option K),
      bst cmp t lo hi = true ↔
        (ordA cmp (inorder t) ∧ boundedA cmp lo hi (inorder t))
  | .nil, lo, hi => by
    simp [bst, inorder, ordA, boundedA]
  | .mk l r b i k v, lo, hi => by
    have ihl := bst_iff_inorder hc l lo (some k)
    have ihr := bst_iff_inorder hc r (some k) hi
    simp only [bst, Bool.and_eq_true, inorder, ordA, boundedA, ihl, ihr,
      List.pairwise_append, List.pairwise_cons, List.mem_append, List.mem_cons]
    constructor
    · rintro ⟨⟨⟨hlok, hkhi⟩, ⟨hordl, hbl⟩⟩, hordr, hbr⟩
      have hlk : ∀ p ∈ inorder l, cmp p.1 k < 0 := by
        intro p hp
        have := (hbl p hp).2
        simpa using this
      have hkr : ∀ p ∈ inorder r, cmp k p.1 < 0 := by
        intro p hp
        have := (hbr p hp).1
        simpa using this
      refine ⟨⟨hordl, ⟨hkr, hordr⟩, ?_⟩, ?_⟩
      · intro a ha q hq
        rcases hq with hq | hq
        · subst hq; exact hlk a ha
        · exact hc.lt_trans _ _ _ (hlk a ha) (hkr q hq)
      · intro p hp
        rcases hp with hp | hp | hp
        · exact ⟨(hbl p hp).1, ltHi_trans hc (hlk p hp) hkhi⟩
        · subst hp; exact ⟨hlok, hkhi⟩
        · exact ⟨loLt_trans hc (hkr p hp) hlok, (hbr p hp).2⟩
    · rintro ⟨⟨hordl, ⟨hkr, hordr⟩, hcross⟩, hb⟩
      have hbk := hb (k, v) (Or.inr (Or.inl rfl))
      refine ⟨⟨⟨hbk.1, hbk.2⟩, hordl, ?_⟩, hordr, ?_⟩
      · intro p hp
        refine ⟨(hb p (Or.inl hp)).1, ?_⟩
        have := hcross p hp (k, v) (Or.inl rfl)
        simpa using this
      · intro p hp
        refine ⟨?_, (hb p (Or.inr (Or.inr hp))).2⟩
        have := hkr p hp
        simpa using this

theorem bst_ord {cmp : K → K → Int} (hc : LawfulCmp cmp) {t : node K V}
    {lo hi : Option K} (h : bst cmp t lo hi = true) : ordA cmp (inorder t) :=
  ((bst_iff_inorder hc t lo hi).mp h).1

theorem bst_bounded {cmp : K → K → Int} (hc : LawfulCmp cmp) {t : node K V}
    {lo hi : Option K} (h : bst cmp t lo hi = true) :
    boundedA cmp lo hi (inorder t) :=
  ((bst_iff_inorder hc t lo hi).mp h).2

-- * Basic reduction lemmas *

@[simp] theorem direction.other_left : direction.left.other = direction.right := rfl

@[simp] theorem direction.other_right : direction.right.other = direction.left := rfl

@[simp] theorem direction.balance_left : direction.left.balance = -1 := rfl

@[simp] theorem direction.balance_right : direction.right.balance = 1 := rfl

@[simp] theorem direction.inverseBalance_left :
    direction.left.inverseBalance = 1 := rfl

@[simp] theorem direction.inverseBalance_right :
    direction.right.inverseBalance = -1 := rfl

@[simp] theorem node.link_mk_left (l r : node K V) (b : Int) (i : Nat) (k : K)
    (v : V) : (node.mk l r b i k v).link .left = l := rfl

@[simp] theorem node.link_mk_right (l r : node K V) (b : Int) (i : Nat) (k : K)
    (v : V) : (node.mk l r b i k v).link .right = r := rfl

@[simp] theorem node.setLink_mk_left (l r x : node K V) (b : Int) (i : Nat)
    (k : K) (v : V) : (node.mk l r b i k v).setLink .left x = .mk x r b i k v := rfl

@[simp] theorem node.setLink_mk_right (l r x : node K V) (b : Int) (i : Nat)
    (k : K) (v : V) : (node.mk l r b i k v).setLink .right x = .mk l x b i k v := rfl

@[simp] theorem node.balance_nil : (node.nil : node K V).balance = 0 := rfl

@[simp] theorem node.balance_mk (l r : node K V) (b : Int) (i : Nat) (k : K)
    (v : V) : (node.mk l r b i k v).balance = b := rfl

@[simp] theorem node.setBalance_mk (l r : node K V) (b b' : Int) (i : Nat)
    (k : K) (v : V) : (node.mk l r b i k v).setBalance b' = .mk l r b' i k v := rfl

@[simp] theorem node.idOf_nil : (node.nil : node K V).idOf = none := rfl

@[simp] theorem node.idOf_mk (l r : node K V) (b : Int) (i : Nat) (k : K)
    (v : V) : (node.mk l r b i k v).idOf = some i := rfl

@[simp] theorem node.height_nil : (node.nil : node K V).height = 0 := rfl

@[simp] theorem node.height_mk (l r : node K V) (b : Int) (i : Nat) (k : K)
    (v : V) : (node.mk l r b i k v).height = 1 + max l.height r.height := rfl

@[simp] theorem balOk_nil : balOk (node.nil : node K V) = true := rfl

theorem balOk_mk {l r : node K V} {b : Int} {i : Nat} {k : K} {v : V} :
    balOk (node.mk l r b i k v) = true ↔
      (balOk l = true ∧ balOk r = true ∧
       b = (r.height : Int) - (l.height : Int) ∧ -1 ≤ b ∧ b ≤ 1) := by
  simp [balOk, and_assoc]

@[simp] theorem bst_nil (cmp : K → K → Int) (lo hi : Option K) :
    bst cmp (node.nil : node K V) lo hi = true := rfl

theorem bst_mk {cmp : K → K → Int} {l r : node K V} {b : Int} {i : Nat}
    {k : K} {v : V} {lo hi : Option K} :
    bst cmp (node.mk l r b i k v) lo hi = true ↔
      (loLt cmp lo k = true ∧ ltHi cmp k hi = true ∧
       bst cmp l lo (some k) = true ∧ bst cmp r (some k) hi = true) := by
  simp [bst, and_assoc]

@[simp] theorem inorder_nil : inorder (node.nil : node K V) = [] := rfl

@[simp] theorem inorder_mk (l r : node K V) (b : Int) (i : Nat) (k : K)
    (v : V) :
    inorder (node.mk l r b i k v) = inorder l ++ (k, v) :: inorder r := rfl

@[simp] theorem countId_nil (j : Nat) : countId j (node.nil : node K V) = 0 := rfl

@[simp] theorem countId_mk (j : Nat) (l r : node K V) (b : Int) (i : Nat)
    (k : K) (v : V) :
    countId j (node.mk l r b i k v) =
      countId j l + countId j r + (if i = j then 1 else 0) := rfl

theorem balance_ne_zero_ne_nil {t : node K V} (h : t.balance ≠ 0) :
    ∃ l r b i k v, t = node.mk l r b i k v := by
  cases t with
  | nil => simp [node.balance] at h
  | mk l r b i k v => exact ⟨l, r, b, i, k, v, rfl⟩

-- * Lemmas on sorted association lists *

theorem lookupA_eq_none {cmp : K → K → Int} {key : K} :
    ∀ {A : List (K × V)}, (∀ p ∈ A, cmp p.1 key ≠ 0) →
      lookupA cmp key A = none
  | [], _ => rfl
  | (k, v) :: rest, h => by
    simp only [lookupA]
    rw [if_neg (h (k, v) (List.mem_cons_self _ _)), lookupA_eq_none]
    intro p hp
    exact h p (List.mem_cons_of_mem _ hp)

theorem lookupA_append {cmp : K → K → Int} {key : K} :
    ∀ (A B : List (K × V)),
      lookupA cmp key (A ++ B) =
        match lookupA cmp key A with
        | some v => some v
        | none => lookupA cmp key B
  | [], B => rfl
  | (k, v) :: rest, B => by
    simp only [List.cons_append, lookupA]
    split <;> simp [lookupA_append rest B]

theorem insertA_append_lt {cmp : K → K → Int} {key k : K} {val v : V}
    (h : cmp key k < 0) :
    ∀ (A B : List (K × V)),
      insertA cmp key val (A ++ (k, v) :: B) =
        insertA cmp key val A ++ (k, v) :: B
  | [], B => by simp [insertA, h]
  | (a, w) :: rest, B => by
    simp only [List.cons_append, insertA]
    split
    · simp
    · split
      · simp
      · simp [insertA_append_lt h rest B]

theorem insertA_append_eq {cmp : K → K → Int} {key k : K} {val v : V}
    (h : cmp key k = 0) :
    ∀ (A B : List (K × V)), (∀ p ∈ A, 0 < cmp key p.1) →
      insertA cmp key val (A ++ (k, v) :: B) = A ++ (key, val) :: B
  | [], B, _ => by simp [insertA, h]
  | (a, w) :: rest, B, hA => by
    have ha : 0 < cmp key a := hA (a, w) (List.mem_cons_self _ _)
    simp only [List.cons_append, insertA, List.append_eq,
      if_neg (by omega : ¬cmp key a < 0), if_neg (by omega : ¬cmp key a = 0)]
    rw [insertA_append_eq h rest B (fun p hp => hA p (List.mem_cons_of_mem _ hp))]

theorem insertA_append_gt {cmp : K → K → Int} {key k : K} {val v : V}
    (h : 0 < cmp key k) :
    ∀ (A B : List (K × V)), (∀ p ∈ A, 0 < cmp key p.1) →
      insertA cmp key val (A ++ (k, v) :: B) =
        A ++ (k, v) :: insertA cmp key val B
  | [], B, _ => by
    simp [insertA, if_neg (by omega : ¬cmp key k < 0),
      if_neg (by omega : ¬cmp key k = 0)]
  | (a, w) :: rest, B, hA => by
    have ha : 0 < cmp key a := hA (a, w) (List.mem_cons_self _ _)
    simp only [List.cons_append, insertA, List.append_eq,
      if_neg (by omega : ¬cmp key a < 0), if_neg (by omega : ¬cmp key a = 0)]
    rw [insertA_append_gt h rest B (fun p hp => hA p (List.mem_cons_of_mem _ hp))]

theorem eraseA_append_skip {cmp : K → K → Int} {key : K} :
    ∀ (A B : List (K × V)), (∀ p ∈ A, cmp p.1 key ≠ 0) →
      eraseA cmp key (A ++ B) = A ++ eraseA cmp key B
  | [], B, _ => rfl
  | (a, w) :: rest, B, hA => by
    simp only [List.cons_append, eraseA, List.append_eq,
      if_neg (hA (a, w) (List.mem_cons_self _ _))]
    rw [eraseA_append_skip rest B (fun p hp => hA p (List.mem_cons_of_mem _ hp))]

theorem eraseA_of_no_match {cmp : K → K → Int} {key : K} :
    ∀ (B : List (K × V)), (∀ p ∈ B, cmp p.1 key ≠ 0) →
      eraseA cmp key B = B
  | [], _ => rfl
  | (a, w) :: rest, hB => by
    simp only [eraseA, if_neg (hB (a, w) (List.mem_cons_self _ _))]
    rw [eraseA_of_no_match rest (fun p hp => hB p (List.mem_cons_of_mem _ hp))]

theorem eraseA_append_of_ne_right {cmp : K → K → Int} {key : K} :
    ∀ (A B : List (K × V)), (∀ p ∈ B, cmp p.1 key ≠ 0) →
      eraseA cmp key (A ++ B) = eraseA cmp key A ++ B
  | [], B, hB => by
    simp only [List.nil_append, eraseA]
    exact eraseA_of_no_match B hB
  | (a, w) :: rest, B, hB => by
    simp only [List.cons_append, eraseA, List.append_eq]
    split
    · rfl
    · rw [eraseA_append_of_ne_right rest B hB]
      simp

theorem eraseA_sublist (cmp : K → K → Int) (key : K) :
    ∀ (A : List (K × V)), List.Sublist (eraseA cmp key A) A
  | [] => List.Sublist.refl []
  | (a, w) :: rest => by
    simp only [eraseA]
    split
    · exact List.sublist_cons_self _ _
    · exact (eraseA_sublist cmp key rest).cons₂ _

theorem mem_insertA {cmp : K → K → Int} {key : K} {val : V} :
    ∀ (A : List (K × V)) (p : K × V), p ∈ insertA cmp key val A →
      p = (key, val) ∨ p ∈ A
  | [], p, h => by simpa [insertA] using h
  | (a, w) :: rest, p, h => by
    simp only [insertA] at h
    split at h
    · rcases List.mem_cons.mp h with h | h
      · exact Or.inl h
      · exact Or.inr h
    · split at h
      · rcases List.mem_cons.mp h with h | h
        · exact Or.inl h
        · exact Or.inr (List.mem_cons_of_mem _ h)
      · rcases List.mem_cons.mp h with h | h
        · exact Or.inr (h ▸ List.mem_cons_self _ _)
        · rcases mem_insertA rest p h with h' | h'
          · exact Or.inl h'
          · exact Or.inr (List.mem_cons_of_mem _ h')

theorem ordA_insertA {cmp : K → K → Int} (hc : LawfulCmp cmp) {key : K}
    {val : V} : ∀ (A : List (K × V)), ordA cmp A →
      ordA cmp (insertA cmp key val A)
  | [], _ => by simp [insertA, ordA]
  | (a, w) :: rest, h => by
    simp only [ordA, List.pairwise_cons] at h
    simp only [insertA]
    split <;> rename_i h₁
    · refine List.Pairwise.cons ?_ (List.Pairwise.cons h.1 h.2)
      intro q hq
      rcases List.mem_cons.mp hq with hq | hq
      · subst hq; exact h₁
      · exact hc.lt_trans _ _ _ h₁ (h.1 q hq)
    · split <;> rename_i h₂
      · have : key = a := (hc.eq_iff key a).mp h₂
        subst this
        exact List.Pairwise.cons h.1 h.2
      · refine List.Pairwise.cons ?_ (ordA_insertA hc rest h.2)
        intro q hq
        rcases mem_insertA rest q hq with h' | h'
        · subst h'
          have := (hc.gt_iff_lt key a).mp (by omega)
          simpa using this
        · exact h.1 q h'

theorem boundedA_insertA {cmp : K → K → Int} {key : K} {val : V}
    {lo hi : Option K} {A : List (K × V)} (hA : boundedA cmp lo hi A)
    (hlo : loLt cmp lo key = true) (hhi : ltHi cmp key hi = true) :
    boundedA cmp lo hi (insertA cmp key val A) := by
  intro p hp
  rcases mem_insertA A p hp with h | h
  · subst h; exact ⟨hlo, hhi⟩
  · exact hA p h

theorem ordA_eraseA {cmp : K → K → Int} {key : K} {A : List (K × V)}
    (h : ordA cmp A) : ordA cmp (eraseA cmp key A) :=
  List.Pairwise.sublist (eraseA_sublist cmp key A) h

theorem boundedA_eraseA {cmp : K → K → Int} {key : K} {lo hi : Option K}
    {A : List (K × V)} (hA : boundedA cmp lo hi A) :
    boundedA cmp lo hi (eraseA cmp key A) := by
  intro p hp
  exact hA p ((eraseA_sublist cmp key A).subset hp)

-- * Correctness of the rebalancing rotations *

theorem height_pos_ne_nil {t : node K V} (h : 0 < t.height) :
    ∃ l r b i k v, t = node.mk l r b i k v := by
  cases t with
  | nil => simp at h
  | mk l r b i k v => exact ⟨l, r, b, i, k, v, rfl⟩

/-- Correctness of `insertBalance` as invoked from `Add` when the right
subtree has become two levels taller than the left: the result is balanced,
has the height the subtree had before the insertion made it grow, and keeps
the same associations and ids. -/
theorem insertBalance_right {l r' : node K V} {i : Nat} {k : K} {v : V}
    (hbl : balOk l = true) (hbr : balOk r' = true)
    (hh : (r'.height : Int) = (l.height : Int) + 2)
    (hnz : r'.balance ≠ 0) :
    balOk ((node.mk l r' 2 i k v).insertBalance .right) = true ∧
    ((node.mk l r' 2 i k v).insertBalance .right).height = r'.height ∧
    inorder ((node.mk l r' 2 i k v).insertBalance .right) =
      inorder l ++ (k, v) :: inorder r' ∧
    ∀ j, countId j ((node.mk l r' 2 i k v).insertBalance .right) =
      countId j l + countId j r' + (if i = j then 1 else 0) := by
  obtain ⟨rl, rr, rb, ri, rk, rv, rfl⟩ := balance_ne_zero_ne_nil hnz
  rw [balOk_mk] at hbr
  obtain ⟨hbrl, hbrr, hrb, hrb1, hrb2⟩ := hbr
  simp only [node.balance_mk] at hnz
  simp only [node.height_mk] at hh
  rcases (by omega : rb = 1 ∨ rb = -1) with h1 | h1
  · -- right-right: single rotation
    subst h1
    simp only [node.insertBalance, node.link_mk_right, node.balance_mk,
      direction.balance_right, if_pos rfl, if_true, node.setBalance_mk,
      node.setLink_mk_right, direction.other_right, node.singleRotation,
      direction.other_left, node.link_mk_left, node.setLink_mk_left]
    refine ⟨?_, ?_, ?_, ?_⟩
    · rw [balOk_mk, balOk_mk]
      simp only [node.height_mk]
      refine ⟨⟨hbl, hbrl, ?_, ?_, ?_⟩, hbrr, ?_, ?_, ?_⟩ <;> omega
    · simp only [node.height_mk]
      omega
    · simp [List.append_assoc]
    · intro j
      simp only [countId_mk]
      omega
  · -- right-left: double rotation
    subst h1
    have hrl : 0 < rl.height := by omega
    obtain ⟨rll, rlr, rlb, rli, rlk, rlv, rfl⟩ := height_pos_ne_nil hrl
    rw [balOk_mk] at hbrl
    obtain ⟨hbrll, hbrlr, hrlb, hrlb1, hrlb2⟩ := hbrl
    simp only [node.height_mk] at hh hrb ⊢
    simp only [node.insertBalance, node.link_mk_right, node.balance_mk,
      direction.balance_right,
      if_neg (by omega : ¬(-1 : Int) = 1), node.adjustBalance,
      direction.other_right, node.link_mk_left, node.setBalance_mk,
      node.setLink_mk_left, node.setLink_mk_right, node.doubleRotation,
      direction.other_left]
    rcases (by omega : rlb = 0 ∨ rlb = 1 ∨ rlb = -1) with h2 | h2 | h2 <;>
      subst h2 <;>
      simp only [if_pos rfl, if_true, if_neg (by omega : ¬(0 : Int) = 1),
        if_neg (by omega : ¬(-1 : Int) = 0), if_neg (by omega : ¬(-1 : Int) = 1),
        if_neg (by omega : ¬(1 : Int) = 0), node.setBalance_mk,
        node.setLink_mk_left, node.setLink_mk_right, node.link_mk_left,
        node.link_mk_right] <;>
      refine ⟨?_, ?_, ?_, ?_⟩
    all_goals first
      | (intro j; simp only [countId_mk]; omega)
      | (simp [List.append_assoc]; done)
      | omega
      | (simp only [node.height_mk]; omega)
      | (rw [balOk_mk, balOk_mk, balOk_mk]
         simp only [node.height_mk]
         refine ⟨⟨hbl, hbrll, ?_, ?_, ?_⟩, ⟨hbrlr, hbrr, ?_, ?_, ?_⟩, ?_, ?_, ?_⟩ <;>
           omega)

/-- Correctness of `insertBalance` as invoked from `Add` when the left
subtree has become two levels taller than the right. -/
theorem insertBalance_left {l' r : node K V} {i : Nat} {k : K} {v : V}
    (hbl : balOk l' = true) (hbr : balOk r = true)
    (hh : (l'.height : Int) = (r.height : Int) + 2)
    (hnz : l'.balance ≠ 0) :
    balOk ((node.mk l' r (-2) i k v).insertBalance .left) = true ∧
    ((node.mk l' r (-2) i k v).insertBalance .left).height = l'.height ∧
    inorder ((node.mk l' r (-2) i k v).insertBalance .left) =
      inorder l' ++ (k, v) :: inorder r ∧
    ∀ j, countId j ((node.mk l' r (-2) i k v).insertBalance .left) =
      countId j l' + countId j r + (if i = j then 1 else 0) := by
  obtain ⟨ll, lr, lb, li, lk, lv, rfl⟩ := balance_ne_zero_ne_nil hnz
  rw [balOk_mk] at hbl
  obtain ⟨hbll, hblr, hlb, hlb1, hlb2⟩ := hbl
  simp only [node.balance_mk] at hnz
  simp only [node.height_mk] at hh
  rcases (by omega : lb = -1 ∨ lb = 1) with h1 | h1
  · -- left-left: single rotation
    subst h1
    simp only [node.insertBalance, node.link_mk_left, node.balance_mk,
      direction.balance_left, if_pos rfl, if_true, node.setBalance_mk,
      node.setLink_mk_left, direction.other_left, node.singleRotation,
      direction.other_right, node.link_mk_right, node.setLink_mk_right]
    refine ⟨?_, ?_, ?_, ?_⟩
    · rw [balOk_mk, balOk_mk]
      simp only [node.height_mk]
      refine ⟨hbll, ⟨hblr, hbr, ?_, ?_, ?_⟩, ?_, ?_, ?_⟩ <;> omega
    · simp only [node.height_mk]
      omega
    · simp [List.append_assoc]
    · intro j
      simp only [countId_mk]
      omega
  · -- left-right: double rotation
    subst h1
    have hlr : 0 < lr.height := by omega
    obtain ⟨lrl, lrr, lrb, lri, lrk, lrv, rfl⟩ := height_pos_ne_nil hlr
    rw [balOk_mk] at hblr
    obtain ⟨hblrl, hblrr, hlrb, hlrb1, hlrb2⟩ := hblr
    simp only [node.height_mk] at hh hlb ⊢
    simp only [node.insertBalance, node.link_mk_left, node.balance_mk,
      direction.balance_left,
      if_neg (by omega : ¬(1 : Int) = -1), node.adjustBalance,
      direction.other_left, node.link_mk_right, node.setBalance_mk,
      node.setLink_mk_left, node.setLink_mk_right, node.doubleRotation,
      direction.other_right]
    rcases (by omega : lrb = 0 ∨ lrb = 1 ∨ lrb = -1) with h2 | h2 | h2 <;>
      subst h2 <;>
      simp only [if_pos rfl, if_true, if_neg (by omega : ¬(0 : Int) = -1),
        if_neg (by omega : ¬(1 : Int) = 0), if_neg (by omega : ¬(1 : Int) = -1),
        if_neg (by omega : ¬(-1 : Int) = 0), node.setBalance_mk,
        node.setLink_mk_left, node.setLink_mk_right, node.link_mk_left,
        node.link_mk_right] <;>
      refine ⟨?_, ?_, ?_, ?_⟩
    all_goals first
      | (intro j; simp only [countId_mk]; omega)
      | (simp [List.append_assoc]; done)
      | omega
      | (simp only [node.height_mk]; omega)
      | (rw [balOk_mk, balOk_mk, balOk_mk]
         simp only [node.height_mk]
         refine ⟨⟨hbll, hblrl, ?_, ?_, ?_⟩, ⟨hblrr, hbr, ?_, ?_, ?_⟩, ?_, ?_, ?_⟩ <;>
           omega)

/-- Correctness of `removeBalance` as invoked from `Remove` when the left
subtree has shrunk two levels below the right: the result is balanced, keeps
the same associations and ids, and its height shrank by one exactly when the
`done` flag is false. -/
theorem removeBalance_left {l' r : node K V} {i : Nat} {k : K} {v : V}
    (hbl : balOk l' = true) (hbr : balOk r = true)
    (hh : (r.height : Int) = (l'.height : Int) + 2) :
    balOk ((node.mk l' r 2 i k v).removeBalance .left).1 = true ∧
    (((node.mk l' r 2 i k v).removeBalance .left).2 = false →
      ((node.mk l' r 2 i k v).removeBalance .left).1.height = r.height) ∧
    (((node.mk l' r 2 i k v).removeBalance .left).2 = true →
      ((node.mk l' r 2 i k v).removeBalance .left).1.height = 1 + r.height) ∧
    inorder ((node.mk l' r 2 i k v).removeBalance .left).1 =
      inorder l' ++ (k, v) :: inorder r ∧
    ∀ j, countId j ((node.mk l' r 2 i k v).removeBalance .left).1 =
      countId j l' + countId j r + (if i = j then 1 else 0) := by
  obtain ⟨rl, rr, rb, ri, rk, rv, rfl⟩ :=
    height_pos_ne_nil (t := r) (by omega)
  rw [balOk_mk] at hbr
  obtain ⟨hbrl, hbrr, hrb, hrb1, hrb2⟩ := hbr
  simp only [node.height_mk] at hh
  rcases (by omega : rb = 1 ∨ rb = 0 ∨ rb = -1) with h1 | h1 | h1
  · -- right subtree right-heavy: single rotation, height shrinks
    subst h1
    simp only [node.removeBalance, neg_neg, direction.other_left, node.link_mk_right,
      node.balance_mk, direction.balance_left, if_pos rfl, if_true,
      node.setBalance_mk, node.setLink_mk_right, node.singleRotation,
      node.link_mk_left, node.setLink_mk_left]
    refine ⟨?_, ?_, ?_, ?_, ?_⟩
    · rw [balOk_mk, balOk_mk]
      simp only [node.height_mk]
      refine ⟨⟨hbl, hbrl, ?_, ?_, ?_⟩, hbrr, ?_, ?_, ?_⟩ <;> omega
    · intro _
      simp only [node.height_mk]
      omega
    · intro h
      simp at h
    · simp [List.append_assoc]
    · intro j
      simp only [countId_mk]
      omega
  · -- right subtree even: single rotation, height unchanged (done)
    subst h1
    simp only [node.removeBalance, neg_neg, direction.other_left, node.link_mk_right,
      node.balance_mk, direction.balance_left,
      if_neg (by omega : ¬(0 : Int) = 1), if_neg (by omega : ¬(0 : Int) = -1),
      node.setBalance_mk, node.setLink_mk_right, node.singleRotation,
      node.link_mk_left, node.setLink_mk_left]
    refine ⟨?_, ?_, ?_, ?_, ?_⟩
    · rw [balOk_mk, balOk_mk]
      simp only [node.height_mk]
      refine ⟨⟨hbl, hbrl, ?_, ?_, ?_⟩, hbrr, ?_, ?_, ?_⟩ <;> omega
    · intro h
      simp at h
    · intro _
      simp only [node.height_mk]
      omega
    · simp [List.append_assoc]
    · intro j
      simp only [countId_mk]
      omega
  · -- right subtree left-heavy: double rotation
    subst h1
    have hrl : 0 < rl.height := by omega
    obtain ⟨rll, rlr, rlb, rli, rlk, rlv, rfl⟩ := height_pos_ne_nil hrl
    rw [balOk_mk] at hbrl
    obtain ⟨hbrll, hbrlr, hrlb, hrlb1, hrlb2⟩ := hbrl
    simp only [node.height_mk] at hh hrb ⊢
    simp only [node.removeBalance, neg_neg, direction.other_left, node.link_mk_right,
      node.balance_mk, direction.balance_left,
      if_neg (by omega : ¬(-1 : Int) = 1), if_pos rfl, if_true,
      node.adjustBalance, direction.other_right, node.link_mk_left,
      node.setBalance_mk, node.setLink_mk_left, node.setLink_mk_right,
      node.doubleRotation]
    rcases (by omega : rlb = 0 ∨ rlb = 1 ∨ rlb = -1) with h2 | h2 | h2 <;>
      subst h2 <;>
      simp only [if_pos rfl, if_true, if_neg (by omega : ¬(0 : Int) = 1),
        if_neg (by omega : ¬(-1 : Int) = 0), if_neg (by omega : ¬(-1 : Int) = 1),
        if_neg (by omega : ¬(1 : Int) = 0), node.setBalance_mk,
        node.setLink_mk_left, node.setLink_mk_right, node.link_mk_left,
        node.link_mk_right] <;>
      refine ⟨?_, ?_, ?_, ?_, ?_⟩
    all_goals first
      | (intro j; simp only [countId_mk]; omega)
      | (simp [List.append_assoc]; done)
      | (intro h; simp at h; done)
      | (intro _; simp only [node.height_mk]; omega)
      | omega
      | (rw [balOk_mk, balOk_mk, balOk_mk]
         simp only [node.height_mk]
         refine ⟨⟨hbl, hbrll, ?_, ?_, ?_⟩, ⟨hbrlr, hbrr, ?_, ?_, ?_⟩, ?_, ?_, ?_⟩ <;>
           omega)

/-- Correctness of `removeBalance` as invoked from `Remove` when the right
subtree has shrunk two levels below the left. -/
theorem removeBalance_right {l r' : node K V} {i : Nat} {k : K} {v : V}
    (hbl : balOk l = true) (hbr : balOk r' = true)
    (hh : (l.height : Int) = (r'.height : Int) + 2) :
    balOk ((node.mk l r' (-2) i k v).removeBalance .right).1 = true ∧
    (((node.mk l r' (-2) i k v).removeBalance .right).2 = false →
      ((node.mk l r' (-2) i k v).removeBalance .right).1.height = l.height) ∧
    (((node.mk l r' (-2) i k v).removeBalance .right).2 = true →
      ((node.mk l r' (-2) i k v).removeBalance .right).1.height = 1 + l.height) ∧
    inorder ((node.mk l r' (-2) i k v).removeBalance .right).1 =
      inorder l ++ (k, v) :: inorder r' ∧
    ∀ j, countId j ((node.mk l r' (-2) i k v).removeBalance .right).1 =
      countId j l + countId j r' + (if i = j then 1 else 0) := by
  obtain ⟨ll, lr, lb, li, lk, lv, rfl⟩ :=
    height_pos_ne_nil (t := l) (by omega)
  rw [balOk_mk] at hbl
  obtain ⟨hbll, hblr, hlb, hlb1, hlb2⟩ := hbl
  simp only [node.height_mk] at hh
  rcases (by omega : lb = -1 ∨ lb = 0 ∨ lb = 1) with h1 | h1 | h1
  · -- left subtree left-heavy: single rotation, height shrinks
    subst h1
    simp only [node.removeBalance, neg_neg, direction.other_right, node.link_mk_left,
      node.balance_mk, direction.balance_right, if_pos rfl, if_true,
      node.setBalance_mk, node.setLink_mk_left, node.singleRotation,
      node.link_mk_right, node.setLink_mk_right]
    refine ⟨?_, ?_, ?_, ?_, ?_⟩
    · rw [balOk_mk, balOk_mk]
      simp only [node.height_mk]
      refine ⟨hbll, ⟨hblr, hbr, ?_, ?_, ?_⟩, ?_, ?_, ?_⟩ <;> omega
    · intro _
      simp only [node.height_mk]
      omega
    · intro h
      simp at h
    · simp [List.append_assoc]
    · intro j
      simp only [countId_mk]
      omega
  · -- left subtree even: single rotation, height unchanged (done)
    subst h1
    simp only [node.removeBalance, neg_neg, direction.other_right, node.link_mk_left,
      node.balance_mk, direction.balance_right,
      if_neg (by omega : ¬(0 : Int) = -1), if_neg (by omega : ¬(0 : Int) = 1),
      node.setBalance_mk, node.setLink_mk_left, node.singleRotation,
      node.link_mk_right, node.setLink_mk_right]
    refine ⟨?_, ?_, ?_, ?_, ?_⟩
    · rw [balOk_mk, balOk_mk]
      simp only [node.height_mk]
      refine ⟨hbll, ⟨hblr, hbr, ?_, ?_, ?_⟩, ?_, ?_, ?_⟩ <;> omega
    · intro h
      simp at h
    · intro _
      simp only [node.height_mk]
      omega
    · simp [List.append_assoc]
    · intro j
      simp only [countId_mk]
      omega
  · -- left subtree right-heavy: double rotation
    subst h1
    have hlr : 0 < lr.height := by omega
    obtain ⟨lrl, lrr, lrb, lri, lrk, lrv, rfl⟩ := height_pos_ne_nil hlr
    rw [balOk_mk] at hblr
    obtain ⟨hblrl, hblrr, hlrb, hlrb1, hlrb2⟩ := hblr
    simp only [node.height_mk] at hh hlb ⊢
    simp only [node.removeBalance, neg_neg, direction.other_right, node.link_mk_left,
      node.balance_mk, direction.balance_right,
      if_neg (by omega : ¬(1 : Int) = -1), if_pos rfl, if_true,
      node.adjustBalance, direction.other_left, node.link_mk_right,
      node.setBalance_mk, node.setLink_mk_left, node.setLink_mk_right,
      node.doubleRotation]
    rcases (by omega : lrb = 0 ∨ lrb = 1 ∨ lrb = -1) with h2 | h2 | h2 <;>
      subst h2 <;>
      simp only [if_pos rfl, if_true, if_neg (by omega : ¬(0 : Int) = -1),
        if_neg (by omega : ¬(1 : Int) = 0), if_neg (by omega : ¬(1 : Int) = -1),
        if_neg (by omega : ¬(-1 : Int) = 0), node.setBalance_mk,
        node.setLink_mk_left, node.setLink_mk_right, node.link_mk_left,
        node.link_mk_right] <;>
      refine ⟨?_, ?_, ?_, ?_, ?_⟩
    all_goals first
      | (intro j; simp only [countId_mk]; omega)
      | (simp [List.append_assoc]; done)
      | (intro h; simp at h; done)
      | (intro _; simp only [node.height_mk]; omega)
      | omega
      | (rw [balOk_mk, balOk_mk, balOk_mk]
         simp only [node.height_mk]
         refine ⟨⟨hbll, hblrl, ?_, ?_, ?_⟩, ⟨hblrr, hbr, ?_, ?_, ?_⟩, ?_, ?_, ?_⟩ <;>
           omega)

/-- Main induction for `Add`: on a balanced search tree, `addNode` preserves
the balance invariant, reports height growth correctly (with the extra fact,
needed at rebalance points, that a grown non-trivial subtree has a non-zero
root balance factor), realises `insertA` on the in-order association list,
adds exactly one node carrying the fresh id when a new key is inserted, and
reduces to the in-place `overwriteNode` when the key is present. -/
theorem addNode_ok {cmp : K → K → Int} (hc : LawfulCmp cmp)
    (nid : Nat) (key : K) (val : V) (t : node K V) :
    ∀ (lo hi : Option K),
      balOk t = true → bst cmp t lo hi = true →
      loLt cmp lo key = true → ltHi cmp key hi = true →
      (balOk (addNode cmp nid key val t).1 = true ∧
       ((addNode cmp nid key val t).2.1 = true →
          (addNode cmp nid key val t).1.height = t.height + 1 ∧
          ((addNode cmp nid key val t).1.balance ≠ 0 ∨ t = .nil)) ∧
       ((addNode cmp nid key val t).2.1 = false →
          (addNode cmp nid key val t).1.height = t.height) ∧
       inorder (addNode cmp nid key val t).1 = insertA cmp key val (inorder t) ∧
       (∀ j, countId j (addNode cmp nid key val t).1 =
          countId j t + (if (addNode cmp nid key val t).2.2 = true ∧ nid = j then 1 else 0)) ∧
       ((addNode cmp nid key val t).2.2 = false →
          (addNode cmp nid key val t).1 = overwriteNode cmp key val t ∧
          (addNode cmp nid key val t).2.1 = false) ∧
       ((addNode cmp nid key val t).2.2 = true ↔ findNode cmp key t = none)) := by
  induction t with
  | nil =>
    intro lo hi hb hs hklo hkhi
    simp [addNode, insertA, findNode, balOk]
  | mk l r b i k v ihl ihr =>
    intro lo hi hb hs hklo hkhi
    rw [balOk_mk] at hb
    obtain ⟨hbl, hbr, hbeq, hb1, hb2⟩ := hb
    rw [bst_mk] at hs
    obtain ⟨hlok, hkhi', hsl, hsr⟩ := hs
    by_cases hcv : cmp k key = 0
    · -- update in place
      have hk : k = key := (hc.eq_iff k key).mp hcv
      subst hk
      have hgtl : ∀ p ∈ inorder l, 0 < cmp k p.1 := by
        intro p hp
        have := (bst_bounded hc hsl p hp).2
        simp only [ltHi_some, decide_eq_true_eq] at this
        exact (hc.gt_iff_lt k p.1).mpr this
      simp only [addNode, if_pos hcv]
      refine ⟨?_, ?_, ?_, ?_, ?_, ?_, ?_⟩
      · rw [balOk_mk]
        exact ⟨hbl, hbr, hbeq, hb1, hb2⟩
      · simp
      · simp
      · simp only [inorder_mk]
        rw [insertA_append_eq hcv (inorder l) (inorder r) hgtl]
      · intro j
        simp
      · intro _
        simp [overwriteNode, hcv]
      · simp [findNode, hcv]
    · by_cases hlt : cmp k key < 0
      · -- descend right
        have hkey_gt : 0 < cmp key k := (hc.gt_iff_lt key k).mpr hlt
        obtain ⟨ihB, ihG, ihNG, ihI, ihC, ihU, ihF⟩ :=
          ihr (some k) hi hbr hsr (by simp [hlt]) hkhi
        have hgtl : ∀ p ∈ inorder l, 0 < cmp key p.1 := by
          intro p hp
          have h2 := (bst_bounded hc hsl p hp).2
          simp only [ltHi_some, decide_eq_true_eq] at h2
          exact (hc.gt_iff_lt key p.1).mpr (hc.lt_trans _ _ _ h2 hlt)
        have hins : insertA cmp key val (inorder (node.mk l r b i k v)) =
            inorder l ++ (k, v) :: insertA cmp key val (inorder r) := by
          simp only [inorder_mk]
          exact insertA_append_gt hkey_gt (inorder l) (inorder r) hgtl
        have hfind : findNode cmp key (node.mk l r b i k v) =
            findNode cmp key r := by
          simp [findNode, hcv, hlt, directionOfBool]
        have hover : overwriteNode cmp key val (node.mk l r b i k v) =
            node.mk l (overwriteNode cmp key val r) b i k v := by
          simp [overwriteNode, hcv, hlt, directionOfBool]
        simp only [addNode, if_neg hcv, directionOfBool, hlt, decide_True,
          if_true, node.setLink_mk_right, node.balance_mk,
          direction.balance_right, node.setBalance_mk]
        rcases hR : addNode cmp nid key val r with ⟨r', grew, ins⟩
        rw [hR] at ihB ihG ihNG ihI ihC ihU ihF
        simp only at ihB ihG ihNG ihI ihC ihU ihF
        cases grew with
        | false =>
          obtain ihNG' := ihNG rfl
          simp only [Bool.false_eq_true, if_false, if_neg (Bool.false_ne_true)]
          refine ⟨?_, ?_, ?_, ?_, ?_, ?_, ?_⟩
          · rw [balOk_mk]
            exact ⟨hbl, ihB, by omega, hb1, hb2⟩
          · simp
          · intro _
            simp only [node.height_mk, ihNG']
          · rw [hins, inorder_mk, ihI]
          · intro j
            simp only [countId_mk, ihC j]
            split_ifs <;> omega
          · intro hins0
            obtain ⟨hov, _⟩ := ihU hins0
            rw [hover, hov]
            exact ⟨rfl, trivial⟩
          · rw [hfind]
            exact ihF
        | true =>
          obtain ⟨ihH, ihZ⟩ := ihG rfl
          rcases (by omega : b = -1 ∨ b = 0 ∨ b = 1) with hb' | hb' | hb'
          · -- balance becomes 0: height unchanged, growth stops
            rw [if_pos (by omega : b + 1 = 0)]
            refine ⟨?_, ?_, ?_, ?_, ?_, ?_, ?_⟩
            · show balOk (node.mk l r' (b + 1) i k v) = true
              rw [balOk_mk]
              refine ⟨hbl, ihB, by omega, by omega, by omega⟩
            · intro h
              exact absurd h Bool.false_ne_true
            · intro _
              show (node.mk l r' (b + 1) i k v).height = _
              simp only [node.height_mk]
              omega
            · show inorder (node.mk l r' (b + 1) i k v) = _
              rw [hins, inorder_mk, ihI]
            · intro j
              show countId j (node.mk l r' (b + 1) i k v) = _
              simp only [countId_mk, ihC j]
              split_ifs <;> omega
            · intro hins0
              obtain ⟨_, hgrew0⟩ := ihU hins0
              simp at hgrew0
            · rw [hfind]
              exact ihF
          · -- balance becomes 1: subtree grew
            rw [if_neg (by omega : ¬b + 1 = 0),
              if_neg (by simp only [AbsSigned]; split <;> omega :
                ¬AbsSigned (b + 1) > 1)]
            refine ⟨?_, ?_, ?_, ?_, ?_, ?_, ?_⟩
            · show balOk (node.mk l r' (b + 1) i k v) = true
              rw [balOk_mk]
              refine ⟨hbl, ihB, by omega, by omega, by omega⟩
            · intro _
              constructor
              · show (node.mk l r' (b + 1) i k v).height = _
                simp only [node.height_mk]
                omega
              · left
                show b + 1 ≠ 0
                omega
            · intro h
              simp at h
            · show inorder (node.mk l r' (b + 1) i k v) = _
              rw [hins, inorder_mk, ihI]
            · intro j
              show countId j (node.mk l r' (b + 1) i k v) = _
              simp only [countId_mk, ihC j]
              split_ifs <;> omega
            · intro hins0
              obtain ⟨_, hgrew0⟩ := ihU hins0
              simp at hgrew0
            · rw [hfind]
              exact ihF
          · -- balance would become 2: rebalance
            have hrnil : r ≠ node.nil := by
              intro h
              subst h
              simp only [node.height_nil] at hbeq
              omega
            have hnz : r'.balance ≠ 0 := by
              rcases ihZ with h | h
              · exact h
              · exact absurd h hrnil
            have hhh : (r'.height : Int) = (l.height : Int) + 2 := by
              omega
            obtain ⟨IB1, IB2, IB3, IB4⟩ :=
              insertBalance_right (i := i) (k := k) (v := v) hbl ihB hhh hnz
            rw [if_neg (by omega : ¬b + 1 = 0),
              if_pos (by simp only [AbsSigned]; split <;> omega :
                AbsSigned (b + 1) > 1)]
            rw [(by omega : b + 1 = 2)]
            refine ⟨IB1, ?_, ?_, ?_, ?_, ?_, ?_⟩
            · intro h
              exact absurd h Bool.false_ne_true
            · intro _
              show ((node.mk l r' 2 i k v).insertBalance .right).height = _
              rw [IB2]
              simp only [node.height_mk]
              omega
            · show inorder ((node.mk l r' 2 i k v).insertBalance .right) = _
              rw [hins, IB3, ihI]
            · intro j
              show countId j ((node.mk l r' 2 i k v).insertBalance .right) = _
              rw [IB4 j]
              simp only [countId_mk, ihC j]
              split_ifs <;> omega
            · intro hins0
              obtain ⟨_, hgrew0⟩ := ihU hins0
              simp at hgrew0
            · rw [hfind]
              exact ihF
      · -- descend left
        have hgt : 0 < cmp k key := by
          rcases lt_trichotomy (cmp k key) 0 with h | h | h
          · exact absurd h hlt
          · exact absurd h hcv
          · exact h
        have hkey_lt : cmp key k < 0 := (hc.gt_iff_lt k key).mp hgt
        obtain ⟨ihB, ihG, ihNG, ihI, ihC, ihU, ihF⟩ :=
          ihl lo (some k) hbl hsl hklo (by simp [hkey_lt])
        have hins : insertA cmp key val (inorder (node.mk l r b i k v)) =
            insertA cmp key val (inorder l) ++ (k, v) :: inorder r := by
          simp only [inorder_mk]
          exact insertA_append_lt hkey_lt (inorder l) (inorder r)
        have hfind : findNode cmp key (node.mk l r b i k v) =
            findNode cmp key l := by
          simp [findNode, hcv, hlt, directionOfBool]
        have hover : overwriteNode cmp key val (node.mk l r b i k v) =
            node.mk (overwriteNode cmp key val l) r b i k v := by
          simp [overwriteNode, hcv, hlt, directionOfBool]
        simp only [addNode, if_neg hcv, directionOfBool, hlt, decide_False,
          Bool.false_eq_true, if_false, node.setLink_mk_left, node.balance_mk,
          direction.balance_left, node.setBalance_mk]
        rcases hR : addNode cmp nid key val l with ⟨l', grew, ins⟩
        rw [hR] at ihB ihG ihNG ihI ihC ihU ihF
        simp only at ihB ihG ihNG ihI ihC ihU ihF
        cases grew with
        | false =>
          obtain ihNG' := ihNG rfl
          simp only [Bool.false_eq_true, if_false, if_neg (Bool.false_ne_true)]
          refine ⟨?_, ?_, ?_, ?_, ?_, ?_, ?_⟩
          · rw [balOk_mk]
            exact ⟨ihB, hbr, by omega, hb1, hb2⟩
          · simp
          · intro _
            simp only [node.height_mk, ihNG']
          · rw [hins, inorder_mk, ihI]
          · intro j
            simp only [countId_mk, ihC j]
            split_ifs <;> omega
          · intro hins0
            obtain ⟨hov, _⟩ := ihU hins0
            rw [hover, hov]
            exact ⟨rfl, trivial⟩
          · rw [hfind]
            exact ihF
        | true =>
          obtain ⟨ihH, ihZ⟩ := ihG rfl
          rcases (by omega : b = 1 ∨ b = 0 ∨ b = -1) with hb' | hb' | hb'
          · -- balance becomes 0: height unchanged, growth stops
            rw [if_pos (by omega : b + -1 = 0)]
            refine ⟨?_, ?_, ?_, ?_, ?_, ?_, ?_⟩
            · show balOk (node.mk l' r (b + -1) i k v) = true
              rw [balOk_mk]
              refine ⟨ihB, hbr, by omega, by omega, by omega⟩
            · intro h
              exact absurd h Bool.false_ne_true
            · intro _
              show (node.mk l' r (b + -1) i k v).height = _
              simp only [node.height_mk]
              omega
            · show inorder (node.mk l' r (b + -1) i k v) = _
              rw [hins, inorder_mk, ihI]
            · intro j
              show countId j (node.mk l' r (b + -1) i k v) = _
              simp only [countId_mk, ihC j]
              split_ifs <;> omega
            · intro hins0
              obtain ⟨_, hgrew0⟩ := ihU hins0
              simp at hgrew0
            · rw [hfind]
              exact ihF
          · -- balance becomes -1: subtree grew
            rw [if_neg (by omega : ¬b + -1 = 0),
              if_neg (by simp only [AbsSigned]; split <;> omega :
                ¬AbsSigned (b + -1) > 1)]
            refine ⟨?_, ?_, ?_, ?_, ?_, ?_, ?_⟩
            · show balOk (node.mk l' r (b + -1) i k v) = true
              rw [balOk_mk]
              refine ⟨ihB, hbr, by omega, by omega, by omega⟩
            · intro _
              constructor
              · show (node.mk l' r (b + -1) i k v).height = _
                simp only [node.height_mk]
                omega
              · left
                show b + -1 ≠ 0
                omega
            · intro h
              simp at h
            · show inorder (node.mk l' r (b + -1) i k v) = _
              rw [hins, inorder_mk, ihI]
            · intro j
              show countId j (node.mk l' r (b + -1) i k v) = _
              simp only [countId_mk, ihC j]
              split_ifs <;> omega
            · intro hins0
              obtain ⟨_, hgrew0⟩ := ihU hins0
              simp at hgrew0
            · rw [hfind]
              exact ihF
          · -- balance would become -2: rebalance
            have hlnil : l ≠ node.nil := by
              intro h
              subst h
              simp only [node.height_nil] at hbeq
              omega
            have hnz : l'.balance ≠ 0 := by
              rcases ihZ with h | h
              · exact h
              · exact absurd h hlnil
            have hhh : (l'.height : Int) = (r.height : Int) + 2 := by
              omega
            obtain ⟨IB1, IB2, IB3, IB4⟩ :=
              insertBalance_left (i := i) (k := k) (v := v) ihB hbr hhh hnz
            rw [if_neg (by omega : ¬b + -1 = 0),
              if_pos (by simp only [AbsSigned]; split <;> omega :
                AbsSigned (b + -1) > 1)]
            rw [(by omega : b + -1 = -2)]
            refine ⟨IB1, ?_, ?_, ?_, ?_, ?_, ?_⟩
            · intro h
              exact absurd h Bool.false_ne_true
            · intro _
              show ((node.mk l' r (-2) i k v).insertBalance .left).height = _
              rw [IB2]
              simp only [node.height_mk]
              omega
            · show inorder ((node.mk l' r (-2) i k v).insertBalance .left) = _
              rw [hins, IB3, ihI]
            · intro j
              show countId j ((node.mk l' r (-2) i k v).insertBalance .left) = _
              rw [IB4 j]
              simp only [countId_mk, ihC j]
              split_ifs <;> omega
            · intro hins0
              obtain ⟨_, hgrew0⟩ := ihU hins0
              simp at hgrew0
            · rw [hfind]
              exact ihF

/-- The removal search fails exactly when the find search fails: both descend
the tree by the same comparisons. -/
theorem removeNode_none_iff [Inhabited K] [Inhabited V] {cmp : K → K → Int}
    (key : K) : ∀ (t : node K V),
      (removeNode cmp key t = none ↔ findNode cmp key t = none)
  | .nil => by simp [removeNode, findNode]
  | .mk l r b i k v => by
    by_cases hcv : cmp k key = 0
    · constructor
      · intro h
        simp only [removeNode, if_pos hcv] at h
        cases l with
        | nil => simp at h
        | mk ll lr lb li lk lv =>
          cases r with
          | nil => simp at h
          | mk rl rr rb ri rk rv =>
            simp only at h
            split at h <;> [skip; simp at h]
            split at h <;> [simp at h; skip]
            split at h <;> simp at h
      · intro h
        simp only [findNode, if_pos hcv] at h
        simp at h
    · by_cases hlt : cmp k key < 0
      · have ih : removeNode cmp key r = none ↔ findNode cmp key r = none :=
          removeNode_none_iff key r
        simp only [removeNode, findNode, if_neg hcv, directionOfBool, hlt,
          decide_True, if_true] at *
        cases hr : removeNode cmp key r with
        | none => simp [hr, ih.mp hr]
        | some res =>
          rw [hr] at ih
          simp only [hr]
          constructor
          · intro h
            exfalso
            revert h
            split <;> (try split) <;> (try split) <;> simp
          · intro h
            have h2 := ih.mpr h
            simp at h2
      · have ih : removeNode cmp key l = none ↔ findNode cmp key l = none :=
          removeNode_none_iff key l
        simp only [removeNode, findNode, if_neg hcv, directionOfBool, hlt,
          decide_False, Bool.false_eq_true, if_false] at *
        cases hl : removeNode cmp key l with
        | none => simp [hl, ih.mp hl]
        | some res =>
          rw [hl] at ih
          simp only [hl]
          constructor
          · intro h
            exfalso
            revert h
            split <;> (try split) <;> (try split) <;> simp
          · intro h
            have h2 := ih.mpr h
            simp at h2

/-- Main induction for the heir descent of `Remove`: splicing out the
leftmost node of a balanced subtree preserves balance, shrinks the height by
one exactly when the flag says so, removes exactly the head of the in-order
list, and removes exactly one node id. -/
theorem removeLeftmost_ok [Inhabited K] [Inhabited V] : ∀ (t : node K V),
    t ≠ .nil → balOk t = true →
    (balOk (removeLeftmost t).1 = true ∧
     ((removeLeftmost t).2.1 = true →
        (removeLeftmost t).1.height + 1 = t.height) ∧
     ((removeLeftmost t).2.1 = false →
        (removeLeftmost t).1.height = t.height) ∧
     inorder t = ((removeLeftmost t).2.2.2.1, (removeLeftmost t).2.2.2.2) ::
       inorder (removeLeftmost t).1 ∧
     (∀ j, countId j t =
        countId j (removeLeftmost t).1 +
          (if (removeLeftmost t).2.2.1 = j then 1 else 0)))
  | .nil, hne, _ => absurd rfl hne
  | .mk l r b i k v, _, hb => by
    rw [balOk_mk] at hb
    obtain ⟨hbl, hbr, hbeq, hb1, hb2⟩ := hb
    cases l with
    | nil =>
      simp only [removeLeftmost]
      refine ⟨hbr, ?_, ?_, ?_, ?_⟩
      · intro _
        simp only [node.height_mk, node.height_nil]
        omega
      · intro h
        simp at h
      · simp
      · intro j
        simp only [countId_mk, countId_nil]
        omega
    | mk ll lr lb li lk lv =>
      obtain ⟨ihB, ihS, ihNS, ihI, ihC⟩ :=
        removeLeftmost_ok (node.mk ll lr lb li lk lv) (by simp) hbl
      rw [removeLeftmost.eq_3]
      rcases hR : removeLeftmost (node.mk ll lr lb li lk lv) with
        ⟨l', shrank, sid, sk, sv⟩
      rw [hR] at ihB ihS ihNS ihI ihC
      simp only at ihB ihS ihNS ihI ihC
      simp only [node.balance_mk, direction.inverseBalance_left,
        node.setBalance_mk]
      have hbeq' : b = (r.height : Int) -
          ((node.mk ll lr lb li lk lv).height : Int) := hbeq
      simp only [node.height_mk] at hbeq'
      cases shrank with
      | false =>
        obtain ihNS' := ihNS rfl
        simp only [node.height_mk] at ihNS'
        simp only [Bool.false_eq_true, if_false, if_neg (Bool.false_ne_true)]
        refine ⟨?_, ?_, ?_, ?_, ?_⟩
        · rw [balOk_mk]
          exact ⟨ihB, hbr, by omega, hb1, hb2⟩
        · intro h
          simp at h
        · intro _
          simp only [node.height_mk]
          omega
        · rw [inorder_mk, ihI, inorder_mk]
          simp
        · intro j
          simp only [countId_mk, ihC j]
          split_ifs <;> omega
      | true =>
        obtain ihS' := ihS rfl
        simp only [node.height_mk] at ihS'
        rw [if_pos (rfl : (true : Bool) = true)]
        rcases (by omega : b = -1 ∨ b = 0 ∨ b = 1) with hb' | hb' | hb'
        · -- balance becomes 0: subtree shrank, keep retracing
          rw [if_neg (by simp only [AbsSigned]; split <;> omega :
                ¬AbsSigned (b + 1) = 1),
            if_neg (by simp only [AbsSigned]; split <;> omega :
                ¬AbsSigned (b + 1) > 1)]
          refine ⟨?_, ?_, ?_, ?_, ?_⟩
          · show balOk (node.mk l' r (b + 1) i k v) = true
            rw [balOk_mk]
            refine ⟨ihB, hbr, by omega, by omega, by omega⟩
          · intro _
            show (node.mk l' r (b + 1) i k v).height + 1 = _
            simp only [node.height_mk]
            omega
          · intro h
            simp at h
          · show inorder (node.mk (node.mk ll lr lb li lk lv) r b i k v) =
              (sk, sv) :: inorder (node.mk l' r (b + 1) i k v)
            rw [inorder_mk, ihI, inorder_mk]
            simp
          · intro j
            show countId j (node.mk (node.mk ll lr lb li lk lv) r b i k v) =
              countId j (node.mk l' r (b + 1) i k v) + _
            simp only [countId_mk, ihC j]
            split_ifs <;> omega
        · -- balance becomes 1: height unchanged, retracing stops
          rw [if_pos (by simp only [AbsSigned]; split <;> omega :
                AbsSigned (b + 1) = 1)]
          refine ⟨?_, ?_, ?_, ?_, ?_⟩
          · show balOk (node.mk l' r (b + 1) i k v) = true
            rw [balOk_mk]
            refine ⟨ihB, hbr, by omega, by omega, by omega⟩
          · intro h
            simp at h
          · intro _
            show (node.mk l' r (b + 1) i k v).height = _
            simp only [node.height_mk]
            omega
          · show inorder (node.mk (node.mk ll lr lb li lk lv) r b i k v) =
              (sk, sv) :: inorder (node.mk l' r (b + 1) i k v)
            rw [inorder_mk, ihI, inorder_mk]
            simp
          · intro j
            show countId j (node.mk (node.mk ll lr lb li lk lv) r b i k v) =
              countId j (node.mk l' r (b + 1) i k v) + _
            simp only [countId_mk, ihC j]
            split_ifs <;> omega
        · -- balance would become 2: rebalance
          rw [if_neg (by simp only [AbsSigned]; split <;> omega :
                ¬AbsSigned (b + 1) = 1),
            if_pos (by simp only [AbsSigned]; split <;> omega :
                AbsSigned (b + 1) > 1)]
          rw [(by omega : b + 1 = 2)]
          have hhh : ((r.height : Int)) = (l'.height : Int) + 2 := by omega
          obtain ⟨RB1, RBf, RBt, RBI, RBC⟩ :=
            removeBalance_left (i := i) (k := k) (v := v) ihB hbr hhh
          refine ⟨RB1, ?_, ?_, ?_, ?_⟩
          · intro h
            simp only [Bool.not_eq_eq_eq_not, Bool.not_true] at h
            rw [RBf h]
            simp only [node.height_mk]
            omega
          · intro h
            simp only [Bool.not_eq_eq_eq_not, Bool.not_false] at h
            rw [RBt h]
            simp only [node.height_mk]
            omega
          · rw [RBI, inorder_mk, ihI]
            simp
          · intro j
            rw [RBC j]
            simp only [countId_mk, ihC j]
            split_ifs <;> omega

/-- Main induction for `Remove`: on a balanced search tree, a successful
`removeNode` preserves balance and order, reports height shrinkage correctly,
erases exactly the matching association from the in-order list, removes
exactly one node id, and the reported removed key is the one that compared
equal (the key stored in the physically removed node after the source's
key/value swap). -/
theorem removeNode_ok {cmp : K → K → Int} (hc : LawfulCmp cmp)
    [Inhabited K] [Inhabited V] (key : K) (t : node K V) :
    ∀ (lo hi : Option K) (t' : node K V) (shrank : Bool) (rid : Nat) (rkey : K),
      balOk t = true → bst cmp t lo hi = true →
      removeNode cmp key t = some (t', shrank, rid, rkey) →
      (balOk t' = true ∧
       (shrank = true → t'.height + 1 = t.height) ∧
       (shrank = false → t'.height = t.height) ∧
       inorder t' = eraseA cmp key (inorder t) ∧
       cmp rkey key = 0 ∧
       (∀ j, countId j t = countId j t' + (if rid = j then 1 else 0))) := by
  induction t with
  | nil =>
    intro lo hi t' shrank rid rkey _ _ hrem
    simp [removeNode] at hrem
  | mk l r b i k v ihl ihr =>
    intro lo hi t' shrank rid rkey hb hs hrem
    rw [balOk_mk] at hb
    obtain ⟨hbl, hbr, hbeq, hb1, hb2⟩ := hb
    rw [bst_mk] at hs
    obtain ⟨hlok, hkhi, hsl, hsr⟩ := hs
    by_cases hcv : cmp k key = 0
    · -- this node holds the association to remove
      have hkk : k = key := (hc.eq_iff k key).mp hcv
      subst hkk
      have hskipl : ∀ p ∈ inorder l, cmp p.1 k ≠ 0 := by
        intro p hp
        have h2 := (bst_bounded hc hsl p hp).2
        simp only [ltHi_some, decide_eq_true_eq] at h2
        omega
      simp only [removeNode, if_pos hcv] at hrem
      cases l with
      | nil =>
        cases r with
        | nil =>
          simp only [Option.some.injEq, Prod.mk.injEq] at hrem
          obtain ⟨h1, h2, h3, h4⟩ := hrem
          subst h1; subst h2; subst h3; subst h4
          simp [inorder, eraseA, hcv]
        | mk rl rr rb ri rk rv =>
          simp only [Option.some.injEq, Prod.mk.injEq] at hrem
          obtain ⟨h1, h2, h3, h4⟩ := hrem
          subst h1; subst h2; subst h3; subst h4
          refine ⟨hbr, ?_, ?_, ?_, hcv, ?_⟩
          · intro _
            simp only [node.height_mk, node.height_nil]
            omega
          · intro h
            simp at h
          · simp only [inorder_mk, inorder_nil, List.nil_append]
            rw [eraseA]
            simp [hcv]
          · intro j
            simp only [countId_mk, countId_nil]
            omega
      | mk ll lr lb li lk lv =>
        cases r with
        | nil =>
          simp only [Option.some.injEq, Prod.mk.injEq] at hrem
          obtain ⟨h1, h2, h3, h4⟩ := hrem
          subst h1; subst h2; subst h3; subst h4
          refine ⟨hbl, ?_, ?_, ?_, hcv, ?_⟩
          · intro _
            simp only [node.height_mk, node.height_nil]
            omega
          · intro h
            simp at h
          · conv_rhs => rw [inorder_mk]
            rw [inorder_nil,
              eraseA_append_skip (inorder (node.mk ll lr lb li lk lv))
                ((k, v) :: []) hskipl]
            rw [eraseA]
            simp [hcv]
          · intro j
            simp only [countId_mk, countId_nil]
            omega
        | mk rl rr rb ri rk rv =>
          -- two children: swap with the in-order heir
          obtain ⟨ihB, ihS, ihNS, ihI, ihC⟩ :=
            removeLeftmost_ok (node.mk rl rr rb ri rk rv) (by simp) hbr
          rcases hR : removeLeftmost (node.mk rl rr rb ri rk rv) with
            ⟨r', rshr, hid, hk, hv⟩
          rw [hR] at ihB ihS ihNS ihI ihC
          simp only at ihB ihS ihNS ihI ihC
          rw [hR] at hrem
          simp only [node.balance_mk, direction.inverseBalance_right,
            node.setBalance_mk] at hrem
          have hbeq' : b = ((node.mk rl rr rb ri rk rv).height : Int) -
              ((node.mk ll lr lb li lk lv).height : Int) := hbeq
          have herase : eraseA cmp k (inorder (node.mk (node.mk ll lr lb li lk lv)
              (node.mk rl rr rb ri rk rv) b i k v)) =
              inorder (node.mk ll lr lb li lk lv) ++ (hk, hv) :: inorder r' := by
            rw [inorder_mk,
              eraseA_append_skip (inorder (node.mk ll lr lb li lk lv)) _ hskipl]
            rw [eraseA]
            simp only [if_pos hcv]
            rw [ihI]
          cases rshr with
          | false =>
            obtain ihNS' := ihNS rfl
            simp only [Bool.false_eq_true, if_false,
              if_neg (Bool.false_ne_true)] at hrem
            simp only [Option.some.injEq, Prod.mk.injEq] at hrem
            obtain ⟨h1, h2, h3, h4⟩ := hrem
            subst h1; subst h2; subst h3; subst h4
            refine ⟨?_, ?_, ?_, ?_, hcv, ?_⟩
            · rw [balOk_mk]
              rw [← ihNS'] at hbeq'
              exact ⟨hbl, ihB, hbeq', hb1, hb2⟩
            · intro h
              simp at h
            · intro _
              simp only [node.height_mk, ihNS']
            · rw [herase]
              simp
            · intro j
              simp only [countId_mk, ihC j]
              split_ifs <;> omega
          | true =>
            obtain ihS' := ihS rfl
            simp only [node.height_mk] at ihS' hbeq'
            rw [if_pos (rfl : (true : Bool) = true)] at hrem
            rcases (by omega : b = 0 ∨ b = 1 ∨ b = -1) with hb' | hb' | hb'
            · -- balance becomes -1: retracing stops, height unchanged
              rw [if_pos (by simp only [AbsSigned]; split <;> omega :
                    AbsSigned (b + -1) = 1)] at hrem
              simp only [Option.some.injEq, Prod.mk.injEq] at hrem
              obtain ⟨h1, h2, h3, h4⟩ := hrem
              subst h1; subst h2; subst h3; subst h4
              refine ⟨?_, ?_, ?_, ?_, hcv, ?_⟩
              · rw [balOk_mk]
                refine ⟨hbl, ihB, ?_, ?_, ?_⟩ <;>
                  (first | omega | (simp only [node.height_mk]; omega))
              · intro h
                simp at h
              · intro _
                simp only [node.height_mk]
                omega
              · rw [herase]
                simp
              · intro j
                simp only [countId_mk, ihC j]
                split_ifs <;> omega
            · -- balance becomes 0: height shrank, keep retracing
              rw [if_neg (by simp only [AbsSigned]; split <;> omega :
                    ¬AbsSigned (b + -1) = 1),
                if_neg (by simp only [AbsSigned]; split <;> omega :
                    ¬AbsSigned (b + -1) > 1)] at hrem
              simp only [Option.some.injEq, Prod.mk.injEq] at hrem
              obtain ⟨h1, h2, h3, h4⟩ := hrem
              subst h1; subst h2; subst h3; subst h4
              refine ⟨?_, ?_, ?_, ?_, hcv, ?_⟩
              · rw [balOk_mk]
                refine ⟨hbl, ihB, ?_, ?_, ?_⟩ <;>
                  (first | omega | (simp only [node.height_mk]; omega))
              · intro _
                simp only [node.height_mk]
                omega
              · intro h
                simp at h
              · rw [herase]
                simp
              · intro j
                simp only [countId_mk, ihC j]
                split_ifs <;> omega
            · -- balance would become -2: rebalance
              rw [if_neg (by simp only [AbsSigned]; split <;> omega :
                    ¬AbsSigned (b + -1) = 1),
                if_pos (by simp only [AbsSigned]; split <;> omega :
                    AbsSigned (b + -1) > 1),
                (by omega : b + -1 = -2)] at hrem
              have hhh : (((node.mk ll lr lb li lk lv).height : Int)) =
                  (r'.height : Int) + 2 := by
                simp only [node.height_mk] at *
                omega
              obtain ⟨RB1, RBf, RBt, RBI, RBC⟩ :=
                removeBalance_right (i := i) (k := hk) (v := hv) hbl ihB hhh
              simp only [Option.some.injEq, Prod.mk.injEq] at hrem
              obtain ⟨h1, h2, h3, h4⟩ := hrem
              subst h1; subst h3; subst h4
              refine ⟨RB1, ?_, ?_, ?_, hcv, ?_⟩
              · intro h
                rw [← h2] at h
                simp only [Bool.not_eq_eq_eq_not, Bool.not_true] at h
                rw [RBf h]
                simp only [node.height_mk] at *
                omega
              · intro h
                rw [← h2] at h
                simp only [Bool.not_eq_eq_eq_not, Bool.not_false] at h
                rw [RBt h]
                simp only [node.height_mk] at *
                omega
              · rw [herase, RBI]
              · intro j
                rw [RBC j]
                simp only [countId_mk, ihC j]
                split_ifs <;> omega
    · by_cases hlt : cmp k key < 0
      · -- descend right
        have hskipl : ∀ p ∈ inorder l, cmp p.1 key ≠ 0 := by
          intro p hp
          have h2 := (bst_bounded hc hsl p hp).2
          simp only [ltHi_some, decide_eq_true_eq] at h2
          have := hc.lt_trans _ _ _ h2 hlt
          omega
        have herase : eraseA cmp key (inorder (node.mk l r b i k v)) =
            inorder l ++ (k, v) :: eraseA cmp key (inorder r) := by
          rw [inorder_mk, eraseA_append_skip (inorder l) _ hskipl, eraseA,
            if_neg hcv]
        simp only [removeNode, if_neg hcv, directionOfBool, hlt, decide_True,
          if_true] at hrem
        rcases hRN : removeNode cmp key r with _ | ⟨sub', sshr, srid, srkey⟩
        · rw [hRN] at hrem
          simp at hrem
        · rw [hRN] at hrem
          obtain ⟨ihB, ihS, ihNS, ihI, ihM, ihC⟩ :=
            ihr (some k) hi sub' sshr srid srkey hbr hsr hRN
          simp only [node.setLink_mk_right, node.balance_mk,
            direction.inverseBalance_right, node.setBalance_mk] at hrem
          cases sshr with
          | false =>
            obtain ihNS' := ihNS rfl
            simp only [Bool.false_eq_true, if_false,
              if_neg (Bool.false_ne_true)] at hrem
            simp only [Option.some.injEq, Prod.mk.injEq] at hrem
            obtain ⟨h1, h2, h3, h4⟩ := hrem
            subst h1; subst h2; subst h3; subst h4
            refine ⟨?_, ?_, ?_, ?_, ihM, ?_⟩
            · rw [balOk_mk]
              exact ⟨hbl, ihB, by omega, hb1, hb2⟩
            · intro h
              simp at h
            · intro _
              simp only [node.height_mk]
              omega
            · rw [herase, inorder_mk, ihI]
            · intro j
              simp only [countId_mk, ihC j]
              split_ifs <;> omega
          | true =>
            obtain ihS' := ihS rfl
            rw [if_pos (rfl : (true : Bool) = true)] at hrem
            rcases (by omega : b = 0 ∨ b = 1 ∨ b = -1) with hb' | hb' | hb'
            · -- balance becomes -1: retracing stops, height unchanged
              rw [if_pos (by simp only [AbsSigned]; split <;> omega :
                    AbsSigned (b + -1) = 1)] at hrem
              simp only [Option.some.injEq, Prod.mk.injEq] at hrem
              obtain ⟨h1, h2, h3, h4⟩ := hrem
              subst h1; subst h2; subst h3; subst h4
              refine ⟨?_, ?_, ?_, ?_, ihM, ?_⟩
              · rw [balOk_mk]
                refine ⟨hbl, ihB, by omega, by omega, by omega⟩
              · intro h
                simp at h
              · intro _
                simp only [node.height_mk]
                omega
              · rw [herase, inorder_mk, ihI]
              · intro j
                simp only [countId_mk, ihC j]
                split_ifs <;> omega
            · -- balance becomes 0: height shrank, keep retracing
              rw [if_neg (by simp only [AbsSigned]; split <;> omega :
                    ¬AbsSigned (b + -1) = 1),
                if_neg (by simp only [AbsSigned]; split <;> omega :
                    ¬AbsSigned (b + -1) > 1)] at hrem
              simp only [Option.some.injEq, Prod.mk.injEq] at hrem
              obtain ⟨h1, h2, h3, h4⟩ := hrem
              subst h1; subst h2; subst h3; subst h4
              refine ⟨?_, ?_, ?_, ?_, ihM, ?_⟩
              · rw [balOk_mk]
                refine ⟨hbl, ihB, by omega, by omega, by omega⟩
              · intro _
                simp only [node.height_mk]
                omega
              · intro h
                simp at h
              · rw [herase, inorder_mk, ihI]
              · intro j
                simp only [countId_mk, ihC j]
                split_ifs <;> omega
            · -- balance would become -2: rebalance
              rw [if_neg (by simp only [AbsSigned]; split <;> omega :
                    ¬AbsSigned (b + -1) = 1),
                if_pos (by simp only [AbsSigned]; split <;> omega :
                    AbsSigned (b + -1) > 1),
                (by omega : b + -1 = -2)] at hrem
              have hhh : ((l.height : Int)) = (sub'.height : Int) + 2 := by
                omega
              obtain ⟨RB1, RBf, RBt, RBI, RBC⟩ :=
                removeBalance_right (i := i) (k := k) (v := v) hbl ihB hhh
              simp only [Option.some.injEq, Prod.mk.injEq] at hrem
              obtain ⟨h1, h2, h3, h4⟩ := hrem
              subst h1; subst h3; subst h4
              refine ⟨RB1, ?_, ?_, ?_, ihM, ?_⟩
              · intro h
                rw [← h2] at h
                simp only [Bool.not_eq_eq_eq_not, Bool.not_true] at h
                rw [RBf h]
                simp only [node.height_mk]
                omega
              · intro h
                rw [← h2] at h
                simp only [Bool.not_eq_eq_eq_not, Bool.not_false] at h
                rw [RBt h]
                simp only [node.height_mk]
                omega
              · rw [herase, RBI, ihI]
              · intro j
                rw [RBC j]
                simp only [countId_mk, ihC j]
                split_ifs <;> omega
      · -- descend left
        have hgt : 0 < cmp k key := by
          rcases lt_trichotomy (cmp k key) 0 with h | h | h
          · exact absurd h hlt
          · exact absurd h hcv
          · exact h
        have hkey_lt : cmp key k < 0 := (hc.gt_iff_lt k key).mp hgt
        have hskipr : ∀ p ∈ (k, v) :: inorder r, cmp key p.1 < 0 := by
          intro p hp
          rcases List.mem_cons.mp hp with hp | hp
          · subst hp
            exact hkey_lt
          · have h2 := (bst_bounded hc hsr p hp).1
            simp only [loLt_some, decide_eq_true_eq] at h2
            exact hc.lt_trans _ _ _ hkey_lt h2
        have hner : ∀ p ∈ (k, v) :: inorder r, cmp p.1 key ≠ 0 := by
          intro p hp
          have h2 := hskipr p hp
          have h3 := hc.neg p.1 key
          omega
        have herase : eraseA cmp key (inorder (node.mk l r b i k v)) =
            eraseA cmp key (inorder l) ++ (k, v) :: inorder r := by
          rw [inorder_mk]
          exact eraseA_append_of_ne_right (inorder l) _ hner
        simp only [removeNode, if_neg hcv, directionOfBool, hlt, decide_False,
          Bool.false_eq_true, if_false] at hrem
        rcases hRN : removeNode cmp key l with _ | ⟨sub', sshr, srid, srkey⟩
        · rw [hRN] at hrem
          simp at hrem
        · rw [hRN] at hrem
          obtain ⟨ihB, ihS, ihNS, ihI, ihM, ihC⟩ :=
            ihl lo (some k) sub' sshr srid srkey hbl hsl hRN
          simp only [node.setLink_mk_left, node.balance_mk,
            direction.inverseBalance_left, node.setBalance_mk] at hrem
          cases sshr with
          | false =>
            obtain ihNS' := ihNS rfl
            simp only [Bool.false_eq_true, if_false,
              if_neg (Bool.false_ne_true)] at hrem
            simp only [Option.some.injEq, Prod.mk.injEq] at hrem
            obtain ⟨h1, h2, h3, h4⟩ := hrem
            subst h1; subst h2; subst h3; subst h4
            refine ⟨?_, ?_, ?_, ?_, ihM, ?_⟩
            · rw [balOk_mk]
              exact ⟨ihB, hbr, by omega, hb1, hb2⟩
            · intro h
              simp at h
            · intro _
              simp only [node.height_mk]
              omega
            · rw [herase, inorder_mk, ihI]
            · intro j
              simp only [countId_mk, ihC j]
              split_ifs <;> omega
          | true =>
            obtain ihS' := ihS rfl
            rw [if_pos (rfl : (true : Bool) = true)] at hrem
            rcases (by omega : b = 0 ∨ b = -1 ∨ b = 1) with hb' | hb' | hb'
            · -- balance becomes 1: retracing stops, height unchanged
              rw [if_pos (by simp only [AbsSigned]; split <;> omega :
                    AbsSigned (b + 1) = 1)] at hrem
              simp only [Option.some.injEq, Prod.mk.injEq] at hrem
              obtain ⟨h1, h2, h3, h4⟩ := hrem
              subst h1; subst h2; subst h3; subst h4
              refine ⟨?_, ?_, ?_, ?_, ihM, ?_⟩
              · rw [balOk_mk]
                refine ⟨ihB, hbr, by omega, by omega, by omega⟩
              · intro h
                simp at h
              · intro _
                simp only [node.height_mk]
                omega
              · rw [herase, inorder_mk, ihI]
              · intro j
                simp only [countId_mk, ihC j]
                split_ifs <;> omega
            · -- balance becomes 0: height shrank, keep retracing
              rw [if_neg (by simp only [AbsSigned]; split <;> omega :
                    ¬AbsSigned (b + 1) = 1),
                if_neg (by simp only [AbsSigned]; split <;> omega :
                    ¬AbsSigned (b + 1) > 1)] at hrem
              simp only [Option.some.injEq, Prod.mk.injEq] at hrem
              obtain ⟨h1, h2, h3, h4⟩ := hrem
              subst h1; subst h2; subst h3; subst h4
              refine ⟨?_, ?_, ?_, ?_, ihM, ?_⟩
              · rw [balOk_mk]
                refine ⟨ihB, hbr, by omega, by omega, by omega⟩
              · intro _
                simp only [node.height_mk]
                omega
              · intro h
                simp at h
              · rw [herase, inorder_mk, ihI]
              · intro j
                simp only [countId_mk, ihC j]
                split_ifs <;> omega
            · -- balance would become 2: rebalance
              rw [if_neg (by simp only [AbsSigned]; split <;> omega :
                    ¬AbsSigned (b + 1) = 1),
                if_pos (by simp only [AbsSigned]; split <;> omega :
                    AbsSigned (b + 1) > 1),
                (by omega : b + 1 = 2)] at hrem
              have hhh : ((r.height : Int)) = (sub'.height : Int) + 2 := by
                omega
              obtain ⟨RB1, RBf, RBt, RBI, RBC⟩ :=
                removeBalance_left (i := i) (k := k) (v := v) ihB hbr hhh
              simp only [Option.some.injEq, Prod.mk.injEq] at hrem
              obtain ⟨h1, h2, h3, h4⟩ := hrem
              subst h1; subst h3; subst h4
              refine ⟨RB1, ?_, ?_, ?_, ihM, ?_⟩
              · intro h
                rw [← h2] at h
                simp only [Bool.not_eq_eq_eq_not, Bool.not_true] at h
                rw [RBf h]
                simp only [node.height_mk]
                omega
              · intro h
                rw [← h2] at h
                simp only [Bool.not_eq_eq_eq_not, Bool.not_false] at h
                rw [RBt h]
                simp only [node.height_mk]
                omega
              · rw [herase, RBI, ihI]
              · intro j
                rw [RBC j]
                simp only [countId_mk, ihC j]
                split_ifs <;> omega

-- * Tree-level invariant and operation sequences *

/-- The tree invariant maintained by the public operations: correct balance
factors in {-1,0,1} and strict search order. -/
def TreeInv (cmp : K → K → Int) (t : node K V) : Prop :=
  balOk t = true ∧ bst cmp t none none = true

theorem boundedA_none (cmp : K → K → Int) (l : List (K × V)) :
    boundedA cmp none none l := fun _ _ => ⟨rfl, rfl⟩

theorem addOp_root (cmp : K → K → Int) (sys : TreeSys K V) (key : K)
    (value : V) :
    (addOp cmp sys key value).root =
      (addNode cmp sys.nextId key value sys.root).1 := by
  rcases sys with ⟨root, len, nid, iters⟩
  cases root with
  | nil => rfl
  | mk l r b i k v =>
    simp only [addOp]
    split <;> rfl

theorem removeOp_root [Inhabited K] [Inhabited V] (cmp : K → K → Int)
    (sys : TreeSys K V) (key : K) :
    (removeOp cmp sys key).root =
      (match removeNode cmp key sys.root with
       | none => sys.root
       | some res => res.1) := by
  unfold removeOp
  rcases h : removeNode cmp key sys.root with _ | ⟨t', shrank, rid, rkey⟩ <;>
    simp [h]

theorem TreeInv_addNode {cmp : K → K → Int} (hc : LawfulCmp cmp)
    {t : node K V} (nid : Nat) (key : K) (val : V)
    (h : TreeInv cmp t) : TreeInv cmp (addNode cmp nid key val t).1 := by
  obtain ⟨hb, hs⟩ := h
  obtain ⟨A1, _, _, A4, _, _, _⟩ :=
    addNode_ok hc nid key val t none none hb hs rfl rfl
  refine ⟨A1, ?_⟩
  rw [bst_iff_inorder hc, A4]
  exact ⟨ordA_insertA hc _ (bst_ord hc hs), boundedA_none _ _⟩

theorem TreeInv_addOp {cmp : K → K → Int} (hc : LawfulCmp cmp)
    {sys : TreeSys K V} (key : K) (value : V)
    (h : TreeInv cmp sys.root) : TreeInv cmp (addOp cmp sys key value).root := by
  rw [addOp_root]
  exact TreeInv_addNode hc sys.nextId key value h

theorem TreeInv_removeOp [Inhabited K] [Inhabited V] {cmp : K → K → Int}
    (hc : LawfulCmp cmp) {sys : TreeSys K V} (key : K)
    (h : TreeInv cmp sys.root) : TreeInv cmp (removeOp cmp sys key).root := by
  obtain ⟨hb, hs⟩ := h
  rw [removeOp_root]
  rcases hrem : removeNode cmp key sys.root with _ | ⟨t', shrank, rid, rkey⟩
  · exact ⟨hb, hs⟩
  · obtain ⟨R1, _, _, R4, _, _⟩ := removeNode_ok hc key sys.root none none
      t' shrank rid rkey hb hs hrem
    refine ⟨R1, ?_⟩
    rw [bst_iff_inorder hc, R4]
    exact ⟨ordA_eraseA (bst_ord hc hs), boundedA_none _ _⟩

/-- On a tree satisfying the invariant, the recursive validation pass reports
balanced and sorted, returning the depth extended by the subtree height. -/
theorem validateNode_ok {cmp : K → K → Int} (hc : LawfulCmp cmp) :
    ∀ (t : node K V) (lo hi : Option K) (d : Int),
      balOk t = true → bst cmp t lo hi = true →
      validateNode cmp t d = (true, true, d + (t.height : Int))
  | .nil, lo, hi, d, _, _ => by simp [validateNode]
  | .mk l r b i k v, lo, hi, d, hb, hs => by
    rw [balOk_mk] at hb
    obtain ⟨hbl, hbr, hbeq, hb1, hb2⟩ := hb
    rw [bst_mk] at hs
    obtain ⟨hlok, hkhi, hsl, hsr⟩ := hs
    have ihl := validateNode_ok hc l lo (some k) (d + 1) hbl hsl
    have ihr := validateNode_ok hc r (some k) hi (d + 1) hbr hsr
    have hvL : childViolation cmp direction.left k l = false := by
      cases l with
      | nil => rfl
      | mk ll lr lb li lk lv =>
        rw [bst_mk] at hsl
        have h2 := hsl.2.1
        simp only [ltHi_some, decide_eq_true_eq] at h2
        simp [childViolation, directionOfBool, h2]
    have hvR : childViolation cmp direction.right k r = false := by
      cases r with
      | nil => rfl
      | mk rl rr rb ri rk rv =>
        rw [bst_mk] at hsr
        have h2 := hsr.1
        simp only [loLt_some, decide_eq_true_eq] at h2
        have h3 : ¬cmp rk k < 0 := by
          have := hc.neg k rk
          omega
        simp [childViolation, directionOfBool, h3]
    simp only [validateNode, ihl, ihr, hvL, hvR]
    simp only [Prod.mk.injEq]
    refine ⟨?_, by simp, ?_⟩
    · simp only [Bool.true_and, Bool.and_eq_true, Bool.not_eq_true',
        decide_eq_false_iff_not, gt_iff_lt, not_lt, AbsSigned]
      split <;> omega
    · simp only [MaxInteger, gt_iff_lt, node.height_mk]
      split <;> omega

/-- On a tree satisfying the invariant, `Validate` reports balanced and
sorted. -/
theorem validate_ok {cmp : K → K → Int} (hc : LawfulCmp cmp) {t : node K V}
    (h : TreeInv cmp t) : validate cmp t = (true, true) := by
  obtain ⟨hb, hs⟩ := h
  cases t with
  | nil => rfl
  | mk l r b i k v =>
    unfold validate
    rw [validateNode_ok hc (node.mk l r b i k v) none none 0 hb hs]

/-- One `Add`/`Remove` operation of an operation sequence. -/
inductive TOp (K V : Type) where
  | add (key : K) (value : V)
  | remove (key : K)

/-- Apply one operation to the system state. -/
def applyTOp [Inhabited K] [Inhabited V] (cmp : K → K → Int)
    (sys : TreeSys K V) : TOp K V → TreeSys K V
  | .add key value => addOp cmp sys key value
  | .remove key => removeOp cmp sys key

/-- Run a sequence of `Add`/`Remove` operations from a state. -/
def runTOps [Inhabited K] [Inhabited V] (cmp : K → K → Int)
    (sys : TreeSys K V) (ops : List (TOp K V)) : TreeSys K V :=
  ops.foldl (applyTOp cmp) sys

theorem TreeInv_applyTOp [Inhabited K] [Inhabited V] {cmp : K → K → Int}
    (hc : LawfulCmp cmp) {sys : TreeSys K V} (op : TOp K V)
    (h : TreeInv cmp sys.root) : TreeInv cmp (applyTOp cmp sys op).root := by
  cases op with
  | add key value => exact TreeInv_addOp hc key value h
  | remove key => exact TreeInv_removeOp hc key h

theorem TreeInv_runTOps [Inhabited K] [Inhabited V] {cmp : K → K → Int}
    (hc : LawfulCmp cmp) :
    ∀ (ops : List (TOp K V)) (sys : TreeSys K V), TreeInv cmp sys.root →
      TreeInv cmp (runTOps cmp sys ops).root
  | [], sys, h => h
  | op :: rest, sys, h =>
    TreeInv_runTOps hc rest (applyTOp cmp sys op) (TreeInv_applyTOp hc op h)

theorem TreeInv_newTree (cmp : K → K → Int) :
    TreeInv cmp ((newTree : TreeSys K V).root) := ⟨rfl, rfl⟩

-- * Find layer: find as lookup on the sorted association list *

/-- On a search tree, `Tree.Find` computes the association-list lookup on the
in-order list. -/
theorem findNode_eq_lookupA {cmp : K → K → Int} (hc : LawfulCmp cmp) :
    ∀ (t : node K V) (lo hi : Option K), bst cmp t lo hi = true →
      ∀ key, findNode cmp key t = lookupA cmp key (inorder t)
  | .nil, lo, hi, _, key => rfl
  | .mk l r b i k v, lo, hi, hs, key => by
    rw [bst_mk] at hs
    obtain ⟨hlok, hkhi, hsl, hsr⟩ := hs
    have ihl := findNode_eq_lookupA hc l lo (some k) hsl key
    have ihr := findNode_eq_lookupA hc r (some k) hi hsr key
    have hlkey : ∀ p ∈ inorder l, cmp p.1 k < 0 := by
      intro p hp
      have h2 := (bst_bounded hc hsl p hp).2
      simpa using h2
    have hrkey : ∀ p ∈ inorder r, cmp k p.1 < 0 := by
      intro p hp
      have h2 := (bst_bounded hc hsr p hp).1
      simpa using h2
    by_cases hcv : cmp k key = 0
    · have hkk : k = key := (hc.eq_iff k key).mp hcv
      subst hkk
      have hnone : lookupA cmp k (inorder l) = none := by
        apply lookupA_eq_none
        intro p hp
        have := hlkey p hp
        omega
      simp only [findNode, if_pos hcv, inorder_mk, lookupA_append, hnone,
        lookupA, if_pos hcv]
    · by_cases hlt : cmp k key < 0
      · have hnone : lookupA cmp key (inorder l) = none := by
          apply lookupA_eq_none
          intro p hp
          have h2 := hlkey p hp
          have h3 := hc.lt_trans _ _ _ h2 hlt
          omega
        simp only [findNode, if_neg hcv, directionOfBool, hlt, decide_True,
          if_true, inorder_mk, lookupA_append, hnone, lookupA, if_neg hcv, ihr]
      · have hgt : 0 < cmp k key := by
          rcases lt_trichotomy (cmp k key) 0 with h | h | h
          · exact absurd h hlt
          · exact absurd h hcv
          · exact h
        have hkey_lt : cmp key k < 0 := (hc.gt_iff_lt k key).mp hgt
        have hnone : lookupA cmp key ((k, v) :: inorder r) = none := by
          apply lookupA_eq_none
          intro p hp
          rcases List.mem_cons.mp hp with hp | hp
          · subst hp
            show ¬cmp k key = 0
            omega
          · have h2 := hrkey p hp
            have h3 := hc.lt_trans _ _ _ hkey_lt h2
            have h4 := hc.neg p.1 key
            omega
        simp only [findNode, if_neg hcv, directionOfBool, hlt, decide_False,
          Bool.false_eq_true, if_false, inorder_mk, lookupA_append, ihl]
        cases hA : lookupA cmp key (inorder l) with
        | none => simp [hnone]
        | some w => simp

/-- Lookup after sorted insertion. -/
theorem lookupA_insertA {cmp : K → K → Int} (hc : LawfulCmp cmp) {key k' : K}
    {val : V} :
    ∀ (A : List (K × V)), ordA cmp A →
      lookupA cmp k' (insertA cmp key val A) =
        (if cmp key k' = 0 then some val else lookupA cmp k' A)
  | [], _ => by simp [insertA, lookupA]
  | (a, w) :: rest, h => by
    simp only [ordA, List.pairwise_cons] at h
    simp only [insertA]
    split <;> rename_i h₁
    · simp only [lookupA]
    · split <;> rename_i h₂
      · have hka : key = a := (hc.eq_iff key a).mp h₂
        subst hka
        simp only [lookupA]
        split <;> rfl

      · simp only [lookupA]
        split <;> rename_i h₃
        · have hne : ¬cmp key k' = 0 := by
            intro h4
            have ha : a = k' := (hc.eq_iff a k').mp h₃
            have hk : key = k' := (hc.eq_iff key k').mp h4
            subst ha
            subst hk
            have := hc.refl key
            omega
          rw [if_neg hne]
        · rw [lookupA_insertA hc rest h.2]

/-- Lookup after sorted erasure. -/
theorem lookupA_eraseA {cmp : K → K → Int} (hc : LawfulCmp cmp) {key k' : K} :
    ∀ (A : List (K × V)), ordA cmp A →
      lookupA cmp k' (eraseA cmp key A) =
        (if cmp key k' = 0 then none else lookupA cmp k' A)
  | [], _ => by simp [eraseA, lookupA]
  | (a, w) :: rest, h => by
    simp only [ordA, List.pairwise_cons] at h
    simp only [eraseA]
    split <;> rename_i h₁
    · have hak : a = key := (hc.eq_iff a key).mp h₁
      subst hak
      split <;> rename_i h₂
      · apply lookupA_eq_none
        intro p hp
        have h3 := h.1 p hp
        have h4 : a = k' := (hc.eq_iff a k').mp h₂
        subst h4
        intro h5
        have h6 := (hc.eq_iff p.1 a).mp h5
        subst h6
        omega
      · simp only [lookupA]
        rw [if_neg (by
          intro h5
          have h6 := (hc.eq_iff a k').mp h5
          subst h6
          exact h₂ (hc.refl a))]
    · simp only [lookupA]
      split <;> rename_i h₂
      · have hak : a = k' := (hc.eq_iff a k').mp h₂
        subst hak
        rw [if_neg (by
          intro h5
          have h6 := (hc.eq_iff key a).mp h5
          subst h6
          exact h₁ (hc.refl key))]
      · rw [lookupA_eraseA hc rest h.2]

/-- Find after `Add`, on a state satisfying the invariant. -/
theorem findNode_addOp {cmp : K → K → Int} (hc : LawfulCmp cmp)
    {sys : TreeSys K V} (h : TreeInv cmp sys.root) (key k' : K) (val : V) :
    findNode cmp k' (addOp cmp sys key val).root =
      (if cmp key k' = 0 then some val else findNode cmp k' sys.root) := by
  obtain ⟨hb, hs⟩ := h
  obtain ⟨_, _, _, A4, _, _, _⟩ :=
    addNode_ok hc sys.nextId key val sys.root none none hb hs rfl rfl
  have hinv' := TreeInv_addNode hc sys.nextId key val ⟨hb, hs⟩
  rw [addOp_root]
  rw [findNode_eq_lookupA hc _ none none hinv'.2 k', A4,
    lookupA_insertA hc _ (bst_ord hc hs),
    findNode_eq_lookupA hc _ none none hs k']

/-- Find after `Remove`, on a state satisfying the invariant. -/
theorem findNode_removeOp [Inhabited K] [Inhabited V] {cmp : K → K → Int}
    (hc : LawfulCmp cmp) {sys : TreeSys K V} (h : TreeInv cmp sys.root)
    (key k' : K) :
    findNode cmp k' (removeOp cmp sys key).root =
      (if cmp key k' = 0 then none else findNode cmp k' sys.root) := by
  obtain ⟨hb, hs⟩ := h
  rw [removeOp_root]
  rcases hrem : removeNode cmp key sys.root with _ | ⟨t', shrank, rid, rkey⟩
  · have hfind : findNode cmp key sys.root = none :=
      (removeNode_none_iff key sys.root).mp hrem
    simp only []
    split <;> rename_i h₂
    · have hkk : key = k' := (hc.eq_iff key k').mp h₂
      subst hkk
      exact hfind
    · rfl
  · obtain ⟨_, _, _, R4, _, _⟩ := removeNode_ok hc key sys.root none none
      t' shrank rid rkey hb hs hrem
    have hinv' : TreeInv cmp t' := by
      have := @TreeInv_removeOp K V _ _ cmp hc sys key ⟨hb, hs⟩
      rw [removeOp_root, hrem] at this
      exact this
    simp only []
    rw [findNode_eq_lookupA hc _ none none hinv'.2 k', R4,
      lookupA_eraseA hc _ (bst_ord hc hs),
      findNode_eq_lookupA hc _ none none hs k']

/-- Reference semantics of an operation history at one key, following the
claim's words: the value passed to the most recent `Add` for the key, erased
again by a later `Remove` of the key. -/
def lastAdded (cmp : K → K → Int) (k : K) (ops : List (TOp K V)) : Option V :=
  ops.foldl (fun acc op => match op with
    | .add key v => if cmp key k = 0 then some v else acc
    | .remove key => if cmp key k = 0 then none else acc) none

/-- Erase keys and values, keeping links, balance factors and ids: the
"tree structure" in the sense of the claim that `Add` on an existing key does
not alter structure. -/
def node.stripKV : node K V → node Unit Unit
  | .nil => .nil
  | .mk l r b i _ _ => .mk l.stripKV r.stripKV b i () ()

theorem stripKV_overwriteNode {cmp : K → K → Int} {key : K} {val : V} :
    ∀ (t : node K V),
      (overwriteNode cmp key val t).stripKV = t.stripKV
  | .nil => rfl
  | .mk l r b i k v => by
    simp only [overwriteNode]
    split
    · rfl
    · split <;> simp only [node.stripKV, stripKV_overwriteNode]

theorem findNode_runTOps [Inhabited K] [Inhabited V] {cmp : K → K → Int}
    (hc : LawfulCmp cmp) :
    ∀ (ops : List (TOp K V)) (sys : TreeSys K V), TreeInv cmp sys.root →
      ∀ k, findNode cmp k (runTOps cmp sys ops).root =
        ops.foldl (fun acc op => match op with
          | .add key v => if cmp key k = 0 then some v else acc
          | .remove key => if cmp key k = 0 then none else acc)
          (findNode cmp k sys.root)
  | [], sys, _, k => rfl
  | op :: rest, sys, hinv, k => by
    have hstep : findNode cmp k (applyTOp cmp sys op).root =
        (match op with
          | .add key v =>
            if cmp key k = 0 then some v else findNode cmp k sys.root
          | .remove key =>
            if cmp key k = 0 then none else findNode cmp k sys.root) := by
      cases op with
      | add key v => exact findNode_addOp hc hinv key k v
      | remove key => exact findNode_removeOp hc hinv key k
    have ih := findNode_runTOps hc rest (applyTOp cmp sys op)
      (TreeInv_applyTOp hc op hinv) k
    simp only [runTOps, List.foldl_cons] at *
    rw [ih, hstep]

/-- On a state where the key is present, the source's `Add` takes the update
branch: the result only overwrites that association in place. -/
theorem addOp_existing {cmp : K → K → Int} (hc : LawfulCmp cmp)
    {sys : TreeSys K V} {key : K} {v : V} (hinv : TreeInv cmp sys.root)
    (hfound : findNode cmp key sys.root = some v) (v2 : V) :
    addOp cmp sys key v2 =
      { sys with root := overwriteNode cmp key v2 sys.root } := by
  obtain ⟨hb, hs⟩ := hinv
  obtain ⟨_, _, _, _, _, A6, A7⟩ :=
    addNode_ok hc sys.nextId key v2 sys.root none none hb hs rfl rfl
  have hins : (addNode cmp sys.nextId key v2 sys.root).2.2 = false := by
    cases hcase : (addNode cmp sys.nextId key v2 sys.root).2.2 with
    | false => rfl
    | true =>
      have h2 := A7.mp hcase
      rw [hfound] at h2
      simp at h2
  obtain ⟨hov, _⟩ := A6 hins
  rcases sys with ⟨root, len, nid, iters⟩
  cases root with
  | nil => simp [findNode] at hfound
  | mk l r b i k v' =>
    simp only [addOp]
    rw [if_neg (by
      simp only at hins
      rw [hins]
      simp)]
    simp only at hov
    rw [hov]

/-- C1: For every finite sequence of `Add` and `Remove` operations applied to
a tree created with a total-order comparator, after every single operation
`Validate()` returns balanced=true and sorted=true: at every node the left
and right subtree heights differ by at most 1, and every child key obeys the
comparator order relative to its parent. (Every prefix of a sequence is
itself a sequence, so quantifying over all sequences states the property
after every single operation.) -/
theorem C1_validate_after_every_operation {K V : Type} [Inhabited K]
    [Inhabited V] {cmp : K → K → Int} (hc : LawfulCmp cmp)
    (ops : List (TOp K V)) :
    validate cmp (runTOps cmp newTree ops).root = (true, true) :=
  validate_ok hc (TreeInv_runTOps hc ops newTree (TreeInv_newTree cmp))

theorem C1_witness :
    validate CompareOrdered (runTOps CompareOrdered
      (newTree (K := Int) (V := Int))
      [TOp.add 5 50, TOp.add 2 20, TOp.add 8 80, TOp.add 1 10, TOp.add 3 30,
       TOp.remove 5, TOp.add 9 90, TOp.remove 1, TOp.remove 2,
       TOp.add 7 70]).root = (true, true) :=
  C1_validate_after_every_operation lawful_CompareOrdered _

/-- C7: For every key that has no association in the tree (including the
empty tree), `Remove` is a no-op: the whole state is unchanged, `Length()` is
unchanged, and `Find` still reports found=false. -/
theorem C7_remove_absent_noop {K V : Type} [Inhabited K] [Inhabited V]
    {cmp : K → K → Int} (sys : TreeSys K V) (key : K)
    (h : findNode cmp key sys.root = none) :
    removeOp cmp sys key = sys ∧
    lengthOp (removeOp cmp sys key) = lengthOp sys ∧
    findNode cmp key (removeOp cmp sys key).root = none := by
  have h0 : removeNode cmp key sys.root = none :=
    (removeNode_none_iff key sys.root).mpr h
  have h1 : removeOp cmp sys key = sys := by
    unfold removeOp
    rw [h0]
  exact ⟨h1, by rw [h1], by rw [h1]; exact h⟩

theorem C7_witness :
    (findNode CompareOrdered 2 (runTOps CompareOrdered
        (newTree (K := Int) (V := Int)) [TOp.add 1 10, TOp.add 3 30]).root =
          none) ∧
    removeOp CompareOrdered (runTOps CompareOrdered
        (newTree (K := Int) (V := Int)) [TOp.add 1 10, TOp.add 3 30]) 2 =
      runTOps CompareOrdered (newTree (K := Int) (V := Int))
        [TOp.add 1 10, TOp.add 3 30] ∧
    (newTree (K := Int) (V := Int)).root = node.nil ∧
    removeOp CompareOrdered (newTree (K := Int) (V := Int)) 7 =
      newTree (K := Int) (V := Int) :=
  ⟨by decide,
   (C7_remove_absent_noop _ 2 (by decide)).1,
   rfl,
   (C7_remove_absent_noop _ 7 (by decide)).1⟩

/-- C4: For every key present in the tree, `Find` returns the value of the
most recent `Add` for that key (first conjunct: over all histories, `Find`
computes exactly the reference "most recent surviving Add" semantics); and
`Add` of an already-present key overwrites the association in place: the
state changes only by the in-place overwrite, links, balance factors and ids
are untouched, `Length()` is unchanged, and `Find` then returns the new
value. -/
theorem C4_find_most_recent_add {K V : Type} [Inhabited K] [Inhabited V]
    {cmp : K → K → Int} (hc : LawfulCmp cmp) :
    (∀ (ops : List (TOp K V)) (k : K),
       findNode cmp k (runTOps cmp newTree ops).root = lastAdded cmp k ops) ∧
    (∀ (sys : TreeSys K V) (key : K) (v : V), TreeInv cmp sys.root →
       findNode cmp key sys.root = some v → ∀ v2,
       addOp cmp sys key v2 =
         { sys with root := overwriteNode cmp key v2 sys.root } ∧
       node.stripKV (overwriteNode cmp key v2 sys.root) =
         node.stripKV sys.root ∧
       (addOp cmp sys key v2).length = sys.length ∧
       findNode cmp key (addOp cmp sys key v2).root = some v2) := by
  constructor
  · intro ops k
    exact findNode_runTOps hc ops newTree (TreeInv_newTree cmp) k
  · intro sys key v hinv hfound v2
    refine ⟨addOp_existing hc hinv hfound v2, stripKV_overwriteNode _, ?_, ?_⟩
    · rw [addOp_existing hc hinv hfound v2]
    · rw [findNode_addOp hc hinv key key v2, if_pos (hc.refl key)]

theorem C4_witness :
    (findNode CompareOrdered 3 (runTOps CompareOrdered
        (newTree (K := Int) (V := Int))
        [TOp.add 3 30, TOp.add 1 10, TOp.add 3 31, TOp.remove 1]).root =
      lastAdded CompareOrdered 3
        [TOp.add 3 30, TOp.add 1 10, TOp.add 3 31, TOp.remove 1]) ∧
    (addOp CompareOrdered (runTOps CompareOrdered
        (newTree (K := Int) (V := Int)) [TOp.add 1 10, TOp.add 2 20]) 2 99).length =
      (runTOps CompareOrdered (newTree (K := Int) (V := Int))
        [TOp.add 1 10, TOp.add 2 20]).length :=
  ⟨(C4_find_most_recent_add lawful_CompareOrdered).1 _ 3,
   ((C4_find_most_recent_add lawful_CompareOrdered).2 _ 2 20
      ⟨by decide, by decide⟩ (by decide) 99).2.2.1⟩

-- * Iteration scenarios *

/-- `n` consecutive `Next` calls on the iterator with handle `h`, collecting
each call's (key, value, found) result in call order. -/
def runNexts [Inhabited K] [Inhabited V] (cmp : K → K → Int) :
    TreeSys K V → Nat → Nat → TreeSys K V × List (K × V × Bool)
  | sys, _, 0 => (sys, [])
  | sys, h, n + 1 =>
    let res := iterNextOp cmp sys h
    let rest := runNexts cmp res.1 h n
    (rest.1, res.2 :: rest.2)

/-- The (key, found) projections of a list of `Next` results. -/
def keyFound : List (K × V × Bool) → List (K × Bool) :=
  List.map (fun r => (r.1, r.2.2))

/-- The tree `{1, 3, 5, 7, 9, 11}` of the iteration scenarios, each key
mapped to ten times itself. -/
def tree135 : TreeSys Int Int :=
  runTOps CompareOrdered newTree
    [TOp.add 1 10, TOp.add 3 30, TOp.add 5 50, TOp.add 7 70, TOp.add 9 90,
     TOp.add 11 110]

/-- C5: On a tree holding exactly the keys {1,3,5,7,9,11}, an ascending
cursor (`NewIterator`) advanced to exhaustion with no interleaved mutation
yields exactly the keys [1,3,5,7,9,11] and then not-found; a descending
cursor (`NewReverseIterator`) yields exactly [11,9,7,5,3,1] and then
not-found. -/
theorem C5_iteration_orders :
    (inorder tree135.root).map Prod.fst = [1, 3, 5, 7, 9, 11] ∧
    keyFound (runNexts CompareOrdered (newIteratorOp tree135).1
        (newIteratorOp tree135).2 7).2 =
      [(1, true), (3, true), (5, true), (7, true), (9, true), (11, true),
       (0, false)] ∧
    keyFound (runNexts CompareOrdered (newReverseIteratorOp tree135).1
        (newReverseIteratorOp tree135).2 7).2 =
      [(11, true), (9, true), (7, true), (5, true), (3, true), (1, true),
       (0, false)] :=
  ⟨rfl, rfl, rfl⟩

/-- State of the C3 scenario after creating an ascending cursor on the tree
`{1,3,5,7,9,11}` and consuming key 1 with one `Next` call. -/
def c3Consumed : TreeSys Int Int :=
  (iterNextOp CompareOrdered (newIteratorOp tree135).1
    (newIteratorOp tree135).2).1

/-- State of the C3 scenario after then inserting keys 2 and 10. -/
def c3Mutated : TreeSys Int Int :=
  addOp CompareOrdered (addOp CompareOrdered c3Consumed 2 20) 10 100

/-- C3: With an ascending cursor on the tree {1,3,5,7,9,11} that has consumed
key 1 (one `Next` call), inserting keys 2 and 10 leaves the cursor marked
dirty (the insertions only set its update flag; its path is rebuilt from the
retained current key on its own next access), and the subsequent `Next` calls
yield exactly [3,5,7,9,10,11] and then not-found: key 10, inserted ahead of
the cursor, appears; keys 1 and 2, at or behind the consumed position, do
not. -/
theorem C3_dirty_cursor_rebuild :
    (iterNextOp CompareOrdered (newIteratorOp tree135).1
        (newIteratorOp tree135).2).2 = (1, 10, true) ∧
    (c3Mutated.iters[(newIteratorOp tree135).2]?).map Iter.update =
      some true ∧
    (c3Mutated.iters[(newIteratorOp tree135).2]?).map Iter.curr =
      (c3Consumed.iters[(newIteratorOp tree135).2]?).map Iter.curr ∧
    keyFound (runNexts CompareOrdered c3Mutated
        (newIteratorOp tree135).2 7).2 =
      [(3, true), (5, true), (7, true), (9, true), (10, true), (11, true),
       (0, false)] :=
  ⟨rfl, rfl, rfl, rfl⟩

-- * Clear *

/-- The destruction-by-rotation loop of `Tree.Clear` releases exactly the
associations of the tree, and in fact in ascending (inorder) order: a right
rotation at the root is inorder-preserving, and a root with no left child is
the inorder-least node. -/
theorem clearLoop_eq_inorder : ∀ (t : node K V), clearLoop t = inorder t
  | .nil => by simp only [clearLoop, inorder]
  | .mk .nil r _ _ k v => by
    simp only [clearLoop, clearLoop_eq_inorder r, inorder, List.nil_append]
  | .mk (.mk ll lr lb li lk lv) r b i k v => by
    simp only [clearLoop,
      clearLoop_eq_inorder (.mk ll (.mk lr r b i k v) lb li lk lv), inorder,
      List.append_assoc, List.cons_append]
termination_by t => (t.size, t.leftSpine)
decreasing_by
  · simp [node.size]
    apply Prod.Lex.left
    omega
  · simp only [node.size, node.leftSpine]
    have h : node.size ll + (node.size lr + node.size r + 1) + 1 =
        node.size ll + node.size lr + 1 + node.size r + 1 := by omega
    rw [h]
    apply Prod.Lex.right
    omega

/-- The tree `{1..9}` of the Clear scenario, each key mapped to itself. -/
def c6tree : TreeSys Int Int :=
  runTOps CompareOrdered newTree
    [TOp.add 1 1, TOp.add 2 2, TOp.add 3 3, TOp.add 4 4, TOp.add 5 5,
     TOp.add 6 6, TOp.add 7 7, TOp.add 8 8, TOp.add 9 9]

/-- The Clear scenario's state with one open ascending cursor. -/
def c6sys : TreeSys Int Int :=
  (newIteratorOp c6tree).1

/-- C6: `Clear(release)` on the 9-association tree {1..9} with an open cursor
invokes the release callback exactly once per stored association — the
released list is exactly the 9 associations, each key once (the general
conjunct: on every tree, the released list is exactly the tree's inorder
association list) — and afterwards `Length()` is 0, the tree is empty, every
previously open cursor is closed, and its subsequent `Next` calls return
not-found. -/
theorem C6_clear_releases_once {K V : Type} :
    (∀ (sys : TreeSys K V),
       (clearOp sys).2 = inorder sys.root ∧
       (clearOp sys).1.root = node.nil ∧
       lengthOp (clearOp sys).1 = 0 ∧
       ∀ it ∈ (clearOp sys).1.iters, it.linked = false) ∧
    ((inorder c6sys.root).map Prod.fst =
       [1, 2, 3, 4, 5, 6, 7, 8, 9] ∧
     (clearOp c6sys).2 =
       [(1, 1), (2, 2), (3, 3), (4, 4), (5, 5), (6, 6), (7, 7), (8, 8),
        (9, 9)] ∧
     c6sys.iters.map Iter.linked = [true] ∧
     keyFound (runNexts CompareOrdered (clearOp c6sys).1 0 2).2 =
       [(0, false), (0, false)]) := by
  constructor
  · intro sys
    refine ⟨clearLoop_eq_inorder sys.root, rfl, rfl, ?_⟩
    intro it hit
    simp only [clearOp] at hit
    rcases List.mem_map.mp hit with ⟨it0, _, rfl⟩
    by_cases h : it0.linked
    · simp [h, Iter.close]
    · simp only [h, if_false]
      simpa using h
  · exact ⟨rfl, (clearLoop_eq_inorder c6sys.root).trans rfl, rfl, rfl⟩

-- * FindEqualOrLesser / FindEqualOrGreater *

/-- Spec-modelled reference for `FindEqualOrLesser`: on the sorted inorder
association list, the last entry whose key compares less-or-equal to the
probe. -/
def findLeA (cmp : K → K → Int) (key : K) (l : List (K × V)) : Option (K × V) :=
  (l.filter (fun p => decide (cmp p.1 key ≤ 0))).getLast?

/-- Spec-modelled reference for `FindEqualOrGreater`. -/
def findGeA (cmp : K → K → Int) (key : K) (l : List (K × V)) : Option (K × V) :=
  (l.filter (fun p => decide (0 ≤ cmp p.1 key))).head?

theorem getLast?_cons_or {A : Type} (x : A) : ∀ (l : List A),
    (x :: l).getLast? = l.getLast?.or (some x)
  | [] => rfl
  | y :: ys => by
    rw [List.getLast?_cons_cons, getLast?_cons_or y ys]
    cases ys.getLast? <;> rfl

theorem findLeNode_eq_findLeA {cmp : K → K → Int} (hc : LawfulCmp cmp) (key : K) :
    ∀ (t : node K V) (lo hi : Option K) (acc : Option (K × V)),
      bst cmp t lo hi = true →
      findLeNode cmp key t acc = (findLeA cmp key (inorder t)).or acc
  | .nil, lo, hi, acc, _ => by simp [findLeNode, findLeA, inorder, Option.or]
  | .mk l r b i k v, lo, hi, acc, hb => by
    simp only [bst, Bool.and_eq_true] at hb
    obtain ⟨⟨⟨hlok, hkhi⟩, hbl⟩, hbr⟩ := hb
    have hLlt : ∀ p ∈ inorder l, cmp p.1 k < 0 := fun p hp => by
      have := (bst_bounded hc hbl p hp).2
      simpa using this
    have hRgt : ∀ p ∈ inorder r, cmp k p.1 < 0 := fun p hp => by
      have := (bst_bounded hc hbr p hp).1
      simpa using this
    by_cases h0 : cmp k key = 0
    · have hk : k = key := (hc.eq_iff k key).mp h0
      subst hk
      simp only [findLeNode, if_pos h0]
      rw [findLeA, inorder, List.filter_append]
      have hfl : (inorder l).filter (fun p => decide (cmp p.1 k ≤ 0)) = inorder l :=
        List.filter_eq_self.mpr (fun p hp => by
          have := hLlt p hp
          simp
          omega)
      have hfr : (inorder r).filter (fun p => decide (cmp p.1 k ≤ 0)) = [] :=
        List.filter_eq_nil_iff.mpr (fun p hp => by
          have h1 := hRgt p hp
          have h2 := hc.neg k p.1
          simp
          omega)
      rw [List.filter_cons_of_pos (by simp [hc.refl k]), hfl, hfr,
        List.getLast?_append_cons]
      rfl
    · by_cases hlt : cmp k key < 0
      · have ih := findLeNode_eq_findLeA hc key r (some k) hi (some (k, v)) hbr
        simp only [findLeNode, if_neg h0, hlt, decide_True, if_true,
          directionOfBool, if_pos rfl]
        rw [ih]
        rw [findLeA, findLeA, inorder, List.filter_append]
        have hfl : (inorder l).filter (fun p => decide (cmp p.1 key ≤ 0)) = inorder l :=
          List.filter_eq_self.mpr (fun p hp => by
            have h1 := hLlt p hp
            have h2 := hc.lt_trans p.1 k key h1 hlt
            simp
            omega)
        rw [List.filter_cons_of_pos (by simp; omega), hfl,
          List.getLast?_append_cons, getLast?_cons_or]
        cases ((inorder r).filter (fun p => decide (cmp p.1 key ≤ 0))).getLast? <;> rfl
      · have hgt : 0 < cmp k key := by omega
        have ih := findLeNode_eq_findLeA hc key l lo (some k) acc hbl
        simp only [findLeNode, if_neg h0, hlt, decide_False, if_false,
          directionOfBool]
        rw [ih]
        rw [findLeA, findLeA, inorder, List.filter_append]
        have hkey_k : cmp key k < 0 := by
          have := hc.neg k key
          omega
        have hfr : (inorder r).filter (fun p => decide (cmp p.1 key ≤ 0)) = [] :=
          List.filter_eq_nil_iff.mpr (fun p hp => by
            have h1 := hRgt p hp
            have h2 := hc.lt_trans key k p.1 hkey_k h1
            have h3 := hc.neg key p.1
            simp
            omega)
        rw [List.filter_cons_of_neg (by simp; omega), hfr, List.append_nil]
        rfl

theorem findGeNode_eq_findGeA {cmp : K → K → Int} (hc : LawfulCmp cmp) (key : K) :
    ∀ (t : node K V) (lo hi : Option K) (acc : Option (K × V)),
      bst cmp t lo hi = true →
      findGeNode cmp key t acc = (findGeA cmp key (inorder t)).or acc
  | .nil, lo, hi, acc, _ => by simp [findGeNode, findGeA, inorder, Option.or]
  | .mk l r b i k v, lo, hi, acc, hb => by
    simp only [bst, Bool.and_eq_true] at hb
    obtain ⟨⟨⟨hlok, hkhi⟩, hbl⟩, hbr⟩ := hb
    have hLlt : ∀ p ∈ inorder l, cmp p.1 k < 0 := fun p hp => by
      have := (bst_bounded hc hbl p hp).2
      simpa using this
    have hRgt : ∀ p ∈ inorder r, cmp k p.1 < 0 := fun p hp => by
      have := (bst_bounded hc hbr p hp).1
      simpa using this
    by_cases h0 : cmp k key = 0
    · have hk : k = key := (hc.eq_iff k key).mp h0
      subst hk
      simp only [findGeNode, if_pos h0]
      rw [findGeA, inorder, List.filter_append]
      have hfl : (inorder l).filter (fun p => decide (0 ≤ cmp p.1 k)) = [] :=
        List.filter_eq_nil_iff.mpr (fun p hp => by
          have := hLlt p hp
          simp
          omega)
      rw [List.filter_cons_of_pos (by simp [hc.refl k]), hfl, List.nil_append]
      rfl
    · by_cases hlt : cmp k key < 0
      · have ih := findGeNode_eq_findGeA hc key r (some k) hi acc hbr
        simp only [findGeNode, if_neg h0, hlt, decide_True, if_true,
          directionOfBool, gt_iff_lt, if_pos rfl]
        have hnotgt : ¬ 0 < cmp k key := by omega
        rw [if_neg hnotgt, ih]
        rw [findGeA, findGeA, inorder, List.filter_append]
        have hfl : (inorder l).filter (fun p => decide (0 ≤ cmp p.1 key)) = [] :=
          List.filter_eq_nil_iff.mpr (fun p hp => by
            have h1 := hLlt p hp
            have h2 := hc.lt_trans p.1 k key h1 hlt
            simp
            omega)
        rw [List.filter_cons_of_neg (by simp; omega), hfl, List.nil_append]
      · have hgt : 0 < cmp k key := by omega
        have ih := findGeNode_eq_findGeA hc key l lo (some k) (some (k, v)) hbl
        simp only [findGeNode, if_neg h0, hlt, decide_False, if_false,
          directionOfBool, gt_iff_lt]
        rw [if_pos hgt, ih]
        rw [findGeA, findGeA, inorder, List.filter_append]
        have hkey_k : cmp key k < 0 := by
          have := hc.neg k key
          omega
        have hfr : (inorder r).filter (fun p => decide (0 ≤ cmp p.1 key)) = inorder r :=
          List.filter_eq_self.mpr (fun p hp => by
            have h1 := hRgt p hp
            have h2 := hc.lt_trans key k p.1 hkey_k h1
            have h3 := hc.neg key p.1
            simp
            omega)
        rw [List.filter_cons_of_pos (by simp; omega), hfr, List.head?_append]
        cases ((inorder l).filter (fun p => decide (0 ≤ cmp p.1 key))).head? <;> rfl

/-- The tree `{2, 5, 6, 7, 10}` of the boundary-case scenario, each key
mapped to itself. -/
def c8tree : TreeSys Int Int :=
  runTOps CompareOrdered newTree
    [TOp.add 2 2, TOp.add 5 5, TOp.add 6 6, TOp.add 7 7, TOp.add 10 10]

/-- C8: On the tree {2,5,6,7,10} (each key mapped to itself),
`FindEqualOrLesser(1)` and `FindEqualOrGreater(11)` return not-found,
`FindEqualOrLesser(9)` returns (7, 7, true) and `FindEqualOrGreater(3)`
returns (5, 5, true); and in general, on every search tree,
`FindEqualOrLesser` returns the association matching the key or the one with
the greatest lesser key, `FindEqualOrGreater` the matching or least greater
one, and not-found exactly when no association lies on the required side
(stated against the sorted inorder association list: the last entry with key
less-or-equal, respectively the first entry with key greater-or-equal). -/
theorem C8_find_equal_or_lesser_greater :
    (∀ (K V : Type) (cmp : K → K → Int), LawfulCmp cmp →
       ∀ (key : K) (t : node K V), bst cmp t none none = true →
         findLeNode cmp key t none = findLeA cmp key (inorder t) ∧
         findGeNode cmp key t none = findGeA cmp key (inorder t)) ∧
    ((inorder c8tree.root).map Prod.fst = [2, 5, 6, 7, 10] ∧
     findLeNode CompareOrdered 1 c8tree.root none = none ∧
     findGeNode CompareOrdered 11 c8tree.root none = none ∧
     findLeNode CompareOrdered 9 c8tree.root none = some (7, 7) ∧
     findGeNode CompareOrdered 3 c8tree.root none = some (5, 5)) := by
  constructor
  · intro K V cmp hc key t hb
    constructor
    · rw [findLeNode_eq_findLeA hc key t none none none hb]
      cases findLeA cmp key (inorder t) <;> rfl
    · rw [findGeNode_eq_findGeA hc key t none none none hb]
      cases findGeA cmp key (inorder t) <;> rfl
  · exact ⟨rfl, rfl, rfl, rfl, rfl⟩

-- * Closed cursors *

theorem set_of_getElem_eq {A : Type} : ∀ (l : List A) (i : Nat) (a : A),
    l[i]? = some a → l.set i a = l
  | [], i, a, h => by simp at h
  | x :: xs, 0, a, h => by
    simp only [List.getElem?_cons_zero, Option.some.injEq] at h
    simp [List.set, h]
  | x :: xs, i + 1, a, h => by
    simp only [List.getElem?_cons_succ] at h
    simp [List.set, set_of_getElem_eq xs i a h]

theorem iterNextIter_unlinked [Inhabited K] [Inhabited V] (cmp : K → K → Int)
    (root : node K V) (it : Iter) (h : it.linked = false) :
    iterNextIter cmp root it = (it, (default, default, false)) := by
  rw [iterNextIter, if_pos (by rw [h]; rfl)]

theorem iterNextOp_unlinked [Inhabited K] [Inhabited V] (cmp : K → K → Int)
    (sys : TreeSys K V) (h : Nat) (it : Iter) (hit : sys.iters[h]? = some it)
    (hl : it.linked = false) :
    iterNextOp cmp sys h = (sys, (default, default, false)) := by
  rw [iterNextOp, hit]
  simp only [iterNextIter_unlinked cmp sys.root it hl]
  rw [set_of_getElem_eq sys.iters h it hit]

theorem runNexts_unlinked [Inhabited K] [Inhabited V] (cmp : K → K → Int)
    (sys : TreeSys K V) (h : Nat) (it : Iter) (hit : sys.iters[h]? = some it)
    (hl : it.linked = false) :
    ∀ n, runNexts cmp sys h n =
      (sys, List.replicate n (default, default, false))
  | 0 => rfl
  | n + 1 => by
    rw [runNexts, iterNextOp_unlinked cmp sys h it hit hl,
      runNexts_unlinked cmp sys h it hit hl n]
    rfl

/-- C9: A closed cursor — one no longer registered (`linked = false`), the
state left by explicit `Close`, by advancing past either edge of the key
range, by `Clear` on the owning tree, or by removal of the node the cursor
was parked on with no further node in its direction — has every subsequent
`Next` call return the zero values of K and V with found=false, forever, and
leaves the whole tree state unchanged; `Close` on an already-closed cursor is
a harmless no-op (`Close` is idempotent), and after `Close` the cursor is
unregistered. -/
theorem C9_closed_cursor {K V : Type} [Inhabited K] [Inhabited V] :
    (∀ (cmp : K → K → Int) (sys : TreeSys K V) (h : Nat) (it : Iter),
       sys.iters[h]? = some it → it.linked = false →
       ∀ n, runNexts cmp sys h n =
         (sys, List.replicate n (default, default, false))) ∧
    (∀ (sys : TreeSys K V) (h : Nat),
       iterCloseOp (iterCloseOp sys h) h = iterCloseOp sys h) ∧
    (∀ (sys : TreeSys K V) (h : Nat) (it : Iter), sys.iters[h]? = some it →
       ((iterCloseOp sys h).iters[h]?).map Iter.linked = some false) := by
  refine ⟨fun cmp sys h it hit hl n => runNexts_unlinked cmp sys h it hit hl n,
    ?_, ?_⟩
  · intro sys h
    rcases hit : sys.iters[h]? with _ | it
    · have hout : iterCloseOp sys h = sys := by rw [iterCloseOp, hit]
      rw [hout, iterCloseOp, hit]
    · have hlt : h < sys.iters.length := by
        rcases List.getElem?_eq_some.mp hit with ⟨hw, _⟩
        exact hw
      have hcl : iterCloseOp sys h =
          { sys with iters := sys.iters.set h it.close } := by
        rw [iterCloseOp, hit]
      have hget : (sys.iters.set h it.close)[h]? = some it.close :=
        List.getElem?_set_eq hlt
      rw [hcl, iterCloseOp]
      simp only [hget, List.set_set]
      rfl
  · intro sys h it hit
    have hlt : h < sys.iters.length := by
      rcases List.getElem?_eq_some.mp hit with ⟨hw, _⟩
      exact hw
    have hget : (sys.iters.set h it.close)[h]? = some it.close :=
      List.getElem?_set_eq hlt
    rw [iterCloseOp, hit]
    simp only [hget, Option.map_some]
    rfl

-- * Remove and live cursors *

/-- Spec-modelled: on the sorted inorder association list, the first entry
with key strictly greater than `key` — the "next association" of an ascending
cursor whose node held `key`. -/
def nextGtA (cmp : K → K → Int) (key : K) (l : List (K × V)) : Option (K × V) :=
  (l.filter (fun p => decide (0 < cmp p.1 key))).head?

/-- Spec-modelled: the last entry with key strictly less than `key` — the
"next association" of a descending cursor whose node held `key`. -/
def prevLtA (cmp : K → K → Int) (key : K) (l : List (K × V)) : Option (K × V) :=
  (l.filter (fun p => decide (cmp p.1 key < 0))).getLast?

/-- The allocation id of the node the standard search for `key` lands on. -/
def findIdNode (cmp : K → K → Int) (key : K) : node K V → Option Nat
  | .nil => none
  | .mk l r _ i k _ =>
    if cmp k key = 0 then some i
    else
      match directionOfBool (decide (cmp k key < 0)) with
      | .left => findIdNode cmp key l
      | .right => findIdNode cmp key r

theorem mem_of_head_eq {A : Type} {l : List A} {a : A} (h : l.head? = some a) :
    a ∈ l := by
  cases l with
  | nil => simp at h
  | cons x xs =>
    simp only [List.head?_cons, Option.some.injEq] at h
    exact h ▸ List.mem_cons_self x xs

theorem mem_of_getLast_eq {A : Type} {l : List A} {a : A}
    (h : l.getLast? = some a) : a ∈ l :=
  List.mem_of_mem_getLast? (by rw [h]; rfl)

theorem buildPathNextDescend_right {cmp : K → K → Int} (hc : LawfulCmp cmp)
    (key : K) :
    ∀ (t : node K V) (lo hi : Option K) (path : List Nat)
      (best : Option (Nat × List Nat)),
      bst cmp t lo hi = true →
      (∀ p ∈ inorder t, cmp p.1 key ≠ 0) →
      (∀ q, nextGtA cmp key (inorder t) = some q →
        (buildPathNextDescend cmp .right key t path best).map Prod.fst =
          findIdNode cmp q.1 t) ∧
      (nextGtA cmp key (inorder t) = none →
        (buildPathNextDescend cmp .right key t path best).map Prod.fst =
          best.map Prod.fst)
  | .nil, lo, hi, path, best, _, _ => by
    constructor
    · intro q hq
      simp [nextGtA, inorder] at hq
    · intro _
      rfl
  | .mk l r b i k v, lo, hi, path, best, hb, habs => by
    rw [bst_mk] at hb
    obtain ⟨hlok, hkhi, hsl, hsr⟩ := hb
    have hLlt : ∀ p ∈ inorder l, cmp p.1 k < 0 := fun p hp => by
      have := (bst_bounded hc hsl p hp).2
      simpa using this
    have hRgt : ∀ p ∈ inorder r, cmp k p.1 < 0 := fun p hp => by
      have := (bst_bounded hc hsr p hp).1
      simpa using this
    have habsl : ∀ p ∈ inorder l, cmp p.1 key ≠ 0 := fun p hp =>
      habs p (by simp [inorder, hp])
    have habsr : ∀ p ∈ inorder r, cmp p.1 key ≠ 0 := fun p hp =>
      habs p (by simp [inorder, hp])
    have hknot : cmp k key ≠ 0 := habs (k, v) (by simp [inorder])
    by_cases hlt : cmp k key < 0
    · -- node key below the probe: step right (the iterator direction),
      -- best match unchanged
      have ihr := buildPathNextDescend_right hc key r (some k) hi (i :: path)
        best hsr habsr
      have hstep :
          buildPathNextDescend cmp .right key (.mk l r b i k v) path best =
            buildPathNextDescend cmp .right key r (i :: path) best := by
        simp only [buildPathNextDescend, hlt, decide_True, directionOfBool,
          if_true]
        rfl
      have hfl : (inorder l).filter (fun p => decide (0 < cmp p.1 key)) = [] :=
        List.filter_eq_nil_iff.mpr (fun p hp => by
          have h1 := hLlt p hp
          have h2 := hc.lt_trans p.1 k key h1 hlt
          simp
          omega)
      have hglue : nextGtA cmp key (inorder (node.mk l r b i k v)) =
          nextGtA cmp key (inorder r) := by
        rw [nextGtA, nextGtA, inorder, List.filter_append, hfl,
          List.filter_cons_of_neg (by simp; omega), List.nil_append]
      constructor
      · intro q hq
        rw [hglue] at hq
        have hmem := mem_of_head_eq hq
        have hqr : q ∈ inorder r := List.mem_of_mem_filter hmem
        have hqgt : 0 < cmp q.1 key := by
          have := List.of_mem_filter hmem
          simpa using this
        have hkq : cmp k q.1 < 0 := by
          have h1 : cmp key q.1 < 0 := by
            have := hc.neg q.1 key
            omega
          exact hc.lt_trans k key q.1 hlt h1
        rw [hstep, ihr.1 q hq]
        rw [findIdNode, if_neg (by omega)]
        simp only [hkq, decide_True, directionOfBool, if_true]
      · intro hnone
        rw [hglue] at hnone
        rw [hstep]
        exact ihr.2 hnone
    · -- node key above the probe: this node is a candidate, step left
      have hgt : 0 < cmp k key := by omega
      have ihl := buildPathNextDescend_right hc key l lo (some k) (i :: path)
        (some (i, path)) hsl habsl
      have hstep :
          buildPathNextDescend cmp .right key (.mk l r b i k v) path best =
            buildPathNextDescend cmp .right key l (i :: path)
              (some (i, path)) := by
        simp only [buildPathNextDescend, hlt, decide_False, directionOfBool,
          if_false]
        rfl
      have hglue : nextGtA cmp key (inorder (node.mk l r b i k v)) =
          (nextGtA cmp key (inorder l)).or (some (k, v)) := by
        rw [nextGtA, nextGtA, inorder, List.filter_append,
          List.filter_cons_of_pos (by simp; omega), List.head?_append,
          List.head?_cons]
      constructor
      · intro q hq
        rw [hglue] at hq
        rcases hql : nextGtA cmp key (inorder l) with _ | q'
        · rw [hql] at hq
          have hqv : q = (k, v) := by
            simpa [Option.or] using hq.symm
          subst hqv
          rw [hstep, ihl.2 hql]
          rw [findIdNode, if_pos (hc.refl k)]
          rfl
        · rw [hql] at hq
          have hqq : q = q' := by
            simpa [Option.or] using hq.symm
          subst hqq
          have hmem := mem_of_head_eq hql
          have hqmem : q ∈ inorder l := List.mem_of_mem_filter hmem
          have hqk : cmp q.1 k < 0 := hLlt q hqmem
          rw [hstep, ihl.1 q hql]
          rw [findIdNode, if_neg (by
            have := hc.neg q.1 k
            omega)]
          simp only [directionOfBool]
          rw [if_neg (by
            have := hc.neg q.1 k
            simp
            omega)]
      · intro hnone
        rw [hglue] at hnone
        exfalso
        cases hl : nextGtA cmp key (inorder l) <;> rw [hl] at hnone <;>
          simp [Option.or] at hnone

theorem buildPathNextDescend_left {cmp : K → K → Int} (hc : LawfulCmp cmp)
    (key : K) :
    ∀ (t : node K V) (lo hi : Option K) (path : List Nat)
      (best : Option (Nat × List Nat)),
      bst cmp t lo hi = true →
      (∀ p ∈ inorder t, cmp p.1 key ≠ 0) →
      (∀ q, prevLtA cmp key (inorder t) = some q →
        (buildPathNextDescend cmp .left key t path best).map Prod.fst =
          findIdNode cmp q.1 t) ∧
      (prevLtA cmp key (inorder t) = none →
        (buildPathNextDescend cmp .left key t path best).map Prod.fst =
          best.map Prod.fst)
  | .nil, lo, hi, path, best, _, _ => by
    constructor
    · intro q hq
      simp [prevLtA, inorder] at hq
    · intro _
      rfl
  | .mk l r b i k v, lo, hi, path, best, hb, habs => by
    rw [bst_mk] at hb
    obtain ⟨hlok, hkhi, hsl, hsr⟩ := hb
    have hLlt : ∀ p ∈ inorder l, cmp p.1 k < 0 := fun p hp => by
      have := (bst_bounded hc hsl p hp).2
      simpa using this
    have hRgt : ∀ p ∈ inorder r, cmp k p.1 < 0 := fun p hp => by
      have := (bst_bounded hc hsr p hp).1
      simpa using this
    have habsl : ∀ p ∈ inorder l, cmp p.1 key ≠ 0 := fun p hp =>
      habs p (by simp [inorder, hp])
    have habsr : ∀ p ∈ inorder r, cmp p.1 key ≠ 0 := fun p hp =>
      habs p (by simp [inorder, hp])
    have hknot : cmp k key ≠ 0 := habs (k, v) (by simp [inorder])
    by_cases hlt : cmp k key < 0
    · -- node key below the probe: this node is a candidate, step right
      have ihr := buildPathNextDescend_left hc key r (some k) hi (i :: path)
        (some (i, path)) hsr habsr
      have hstep :
          buildPathNextDescend cmp .left key (.mk l r b i k v) path best =
            buildPathNextDescend cmp .left key r (i :: path)
              (some (i, path)) := by
        simp only [buildPathNextDescend, hlt, decide_True, directionOfBool,
          if_true]
        rfl
      have hfl : (inorder l).filter (fun p => decide (cmp p.1 key < 0)) =
          inorder l :=
        List.filter_eq_self.mpr (fun p hp => by
          have h1 := hLlt p hp
          have h2 := hc.lt_trans p.1 k key h1 hlt
          simp
          omega)
      have hglue : prevLtA cmp key (inorder (node.mk l r b i k v)) =
          (prevLtA cmp key (inorder r)).or (some (k, v)) := by
        rw [prevLtA, prevLtA, inorder, List.filter_append, hfl,
          List.filter_cons_of_pos (by simp; omega),
          List.getLast?_append_cons, getLast?_cons_or]
      constructor
      · intro q hq
        rw [hglue] at hq
        rcases hqr : prevLtA cmp key (inorder r) with _ | q'
        · rw [hqr] at hq
          have hqv : q = (k, v) := by
            simpa [Option.or] using hq.symm
          subst hqv
          rw [hstep, ihr.2 hqr]
          rw [findIdNode, if_pos (hc.refl k)]
          rfl
        · rw [hqr] at hq
          have hqq : q = q' := by
            simpa [Option.or] using hq.symm
          subst hqq
          have hmem := mem_of_getLast_eq hqr
          have hqmem : q ∈ inorder r := List.mem_of_mem_filter hmem
          have hkq : cmp k q.1 < 0 := hRgt q hqmem
          rw [hstep, ihr.1 q hqr]
          rw [findIdNode, if_neg (by omega)]
          simp only [hkq, decide_True, directionOfBool, if_true]
      · intro hnone
        rw [hglue] at hnone
        exfalso
        cases hl : prevLtA cmp key (inorder r) <;> rw [hl] at hnone <;>
          simp [Option.or] at hnone
    · -- node key above the probe: step left (the iterator direction),
      -- best match unchanged
      have hgt : 0 < cmp k key := by omega
      have ihl := buildPathNextDescend_left hc key l lo (some k) (i :: path)
        best hsl habsl
      have hstep :
          buildPathNextDescend cmp .left key (.mk l r b i k v) path best =
            buildPathNextDescend cmp .left key l (i :: path) best := by
        simp only [buildPathNextDescend, hlt, decide_False, directionOfBool,
          if_false]
        rfl
      have hfr : (inorder r).filter (fun p => decide (cmp p.1 key < 0)) =
          [] :=
        List.filter_eq_nil_iff.mpr (fun p hp => by
          have h1 := hRgt p hp
          have h2 : cmp key k < 0 := by
            have := hc.neg k key
            omega
          have h3 := hc.lt_trans key k p.1 h2 h1
          have h4 := hc.neg key p.1
          simp
          omega)
      have hglue : prevLtA cmp key (inorder (node.mk l r b i k v)) =
          prevLtA cmp key (inorder l) := by
        rw [prevLtA, prevLtA, inorder, List.filter_append,
          List.filter_cons_of_neg (by simp; omega), hfr, List.append_nil]
      constructor
      · intro q hq
        rw [hglue] at hq
        have hmem := mem_of_getLast_eq hq
        have hqmem : q ∈ inorder l := List.mem_of_mem_filter hmem
        have hqk : cmp q.1 k < 0 := hLlt q hqmem
        rw [hstep, ihl.1 q hq]
        rw [findIdNode, if_neg (by
          have := hc.neg q.1 k
          omega)]
        simp only [directionOfBool]
        rw [if_neg (by
          have := hc.neg q.1 k
          simp
          omega)]
      · intro hnone
        rw [hglue] at hnone
        rw [hstep]
        exact ihl.2 hnone


theorem findIdNode_present {cmp : K → K → Int} (hc : LawfulCmp cmp) :
    ∀ (t : node K V) (lo hi : Option K), bst cmp t lo hi = true →
      ∀ p ∈ inorder t, ∃ i, findIdNode cmp p.1 t = some i
  | .nil, _, _, _, p, hp => by simp [inorder] at hp
  | .mk l r b j k v, lo, hi, hb, p, hp => by
    rw [bst_mk] at hb
    obtain ⟨hlok, hkhi, hsl, hsr⟩ := hb
    have hLlt : ∀ p ∈ inorder l, cmp p.1 k < 0 := fun p hp => by
      have := (bst_bounded hc hsl p hp).2
      simpa using this
    have hRgt : ∀ p ∈ inorder r, cmp k p.1 < 0 := fun p hp => by
      have := (bst_bounded hc hsr p hp).1
      simpa using this
    rw [inorder] at hp
    rcases List.mem_append.mp hp with hL | hCR
    · have h1 := hLlt p hL
      have h2 : 0 < cmp k p.1 := by
        have := hc.neg p.1 k
        omega
      obtain ⟨i, hi⟩ := findIdNode_present hc l lo (some k) hsl p hL
      refine ⟨i, ?_⟩
      rw [findIdNode, if_neg (by omega)]
      simp only [directionOfBool]
      rw [if_neg (by simp; omega)]
      exact hi
    · rcases List.mem_cons.mp hCR with hC | hR
      · subst hC
        exact ⟨j, by rw [findIdNode, if_pos (hc.refl k)]⟩
      · have h1 := hRgt p hR
        obtain ⟨i, hi⟩ := findIdNode_present hc r (some k) hi hsr p hR
        refine ⟨i, ?_⟩
        rw [findIdNode, if_neg (by omega)]
        simp only [h1, decide_True, directionOfBool, if_true]
        exact hi

theorem eraseA_no_match {cmp : K → K → Int} (hc : LawfulCmp cmp) (key : K) :
    ∀ (l : List (K × V)), ordA cmp l →
      ∀ p ∈ eraseA cmp key l, cmp p.1 key ≠ 0
  | [], _, p, hp => by simp [eraseA] at hp
  | (k, v) :: rest, hord, p, hp => by
    rcases List.pairwise_cons.mp hord with ⟨hhead, htail⟩
    rw [eraseA] at hp
    by_cases h0 : cmp k key = 0
    · rw [if_pos h0] at hp
      have hk : k = key := (hc.eq_iff k key).mp h0
      subst hk
      have h1 : cmp k p.1 < 0 := hhead p hp
      have h2 := hc.neg k p.1
      omega
    · rw [if_neg h0] at hp
      rcases List.mem_cons.mp hp with hp | hp
      · subst hp
        exact h0
      · exact eraseA_no_match hc key rest htail p hp


/-- The key stored at the root of a subtree. -/
def node.key? : node K V → Option K
  | .nil => none
  | .mk _ _ _ _ k _ => some k

/-- The key of the node a cursor is standing on, read through its stored
node id. -/
def currKeyOf (sys : TreeSys K V) (h : Nat) : Option K :=
  ((sys.iters[h]?).bind Iter.curr).bind
    (fun i => (sys.root.findById i).bind node.key?)

theorem removeOp_iter_cases [Inhabited K] [Inhabited V] {cmp : K → K → Int}
    (hc : LawfulCmp cmp) {sys : TreeSys K V} {key : K} {root' : node K V}
    {sh : Bool} {rid : Nat} {rkey : K}
    (hinv : TreeInv cmp sys.root)
    (hrem : removeNode cmp key sys.root = some (root', sh, rid, rkey)) :
    (removeOp cmp sys key).root = root' ∧
    ∀ (h : Nat) (it : Iter), sys.iters[h]? = some it →
      ∃ it', (removeOp cmp sys key).iters[h]? = some it' ∧
        (it.linked = false → it' = it) ∧
        (it.linked = true → it.curr ≠ some rid →
          it' = { it with update := true }) ∧
        (it.linked = true → it.curr = some rid →
          (∀ q, (if it.dir = direction.right
                 then nextGtA cmp rkey (inorder root')
                 else prevLtA cmp rkey (inorder root')) = some q →
             it'.curr = findIdNode cmp q.1 root' ∧ it'.linked = true ∧
             it'.update = false ∧ it'.dir = it.dir) ∧
          ((if it.dir = direction.right
            then nextGtA cmp rkey (inorder root')
            else prevLtA cmp rkey (inorder root')) = none →
             it' = { it.close with update := false })) := by
  obtain ⟨hbal, hbst⟩ := hinv
  have hroot : (removeOp cmp sys key).root = root' := by
    rw [removeOp_root, hrem]
  obtain ⟨R1, R2, R3, R4, R5, R6⟩ := removeNode_ok hc key sys.root none none
    root' sh rid rkey hbal hbst hrem
  have hbst' : bst cmp root' none none = true := by
    have h2 := TreeInv_removeOp hc key ⟨hbal, hbst⟩
    rw [hroot] at h2
    exact h2.2
  have hrk : rkey = key := (hc.eq_iff rkey key).mp R5
  subst hrk
  have habs : ∀ p ∈ inorder root', cmp p.1 rkey ≠ 0 := by
    rw [R4]
    exact eraseA_no_match hc rkey (inorder sys.root) (bst_ord hc hbst)
  have hiters : (removeOp cmp sys rkey).iters = sys.iters.map (fun it =>
      if !it.linked then it
      else if it.curr = some rid then
        let res := buildPathNext cmp rkey root' { it with update := false }
        if res.2 then res.1 else res.1.close
      else { it with update := true }) := by
    unfold removeOp
    rw [hrem]
  refine ⟨hroot, ?_⟩
  intro h it hit
  obtain ⟨c, pth, d, u, ln⟩ := it
  have hfit : (removeOp cmp sys rkey).iters[h]? = some (
      if !ln then (⟨c, pth, d, u, ln⟩ : Iter)
      else if c = some rid then
        let res := buildPathNext cmp rkey root' (⟨c, pth, d, false, ln⟩ : Iter)
        if res.2 then res.1 else res.1.close
      else (⟨c, pth, d, true, ln⟩ : Iter)) := by
    rw [hiters, List.getElem?_map, hit]
    rfl
  refine ⟨_, hfit, ?_, ?_, ?_⟩
  · intro hl
    simp only at hl
    subst hl
    rfl
  · intro hl hne
    simp only at hl hne
    subst hl
    simp only [Bool.not_true, Bool.false_eq_true, if_false]
    rw [if_neg hne]
  · intro hl hcurr
    simp only at hl hcurr
    subst hl
    subst hcurr
    simp only [Bool.not_true, Bool.false_eq_true, if_false, if_pos rfl]
    cases d with
    | right =>
      rw [if_pos rfl]
      constructor
      · intro q hq
        have hqmem : q ∈ inorder root' :=
          List.mem_of_mem_filter (mem_of_head_eq hq)
        obtain ⟨iq, hiq⟩ := findIdNode_present hc root' none none hbst' q hqmem
        have hch := (buildPathNextDescend_right hc rkey root' none none []
          none hbst' habs).1 q hq
        rw [hiq] at hch
        rcases hD : buildPathNextDescend cmp direction.right rkey root' []
            none with _ | ⟨i0, p0⟩
        · rw [hD] at hch
          simp at hch
        · rw [hD] at hch
          have hi0 : i0 = iq := by simpa using hch
          subst hi0
          have hres : buildPathNext cmp rkey root'
              ⟨some rid, pth, direction.right, false, true⟩ =
              (⟨some i0, p0, direction.right, false, true⟩, true) := by
            unfold buildPathNext
            rw [hD]
          rw [hres]
          exact ⟨by simp [hiq], rfl, rfl, rfl⟩
      · intro hq
        have hch := (buildPathNextDescend_right hc rkey root' none none []
          none hbst' habs).2 hq
        rcases hD : buildPathNextDescend cmp direction.right rkey root' []
            none with _ | ⟨i0, p0⟩
        · have hres : buildPathNext cmp rkey root'
              ⟨some rid, pth, direction.right, false, true⟩ =
              (⟨none, [], direction.right, false, true⟩, false) := by
            unfold buildPathNext
            rw [hD]
          rw [hres]
          rfl
        · rw [hD] at hch
          simp at hch
    | left =>
      rw [if_neg (by intro hcon; exact absurd hcon (by simp))]
      constructor
      · intro q hq
        have hqmem : q ∈ inorder root' :=
          List.mem_of_mem_filter (mem_of_getLast_eq hq)
        obtain ⟨iq, hiq⟩ := findIdNode_present hc root' none none hbst' q hqmem
        have hch := (buildPathNextDescend_left hc rkey root' none none []
          none hbst' habs).1 q hq
        rw [hiq] at hch
        rcases hD : buildPathNextDescend cmp direction.left rkey root' []
            none with _ | ⟨i0, p0⟩
        · rw [hD] at hch
          simp at hch
        · rw [hD] at hch
          have hi0 : i0 = iq := by simpa using hch
          subst hi0
          have hres : buildPathNext cmp rkey root'
              ⟨some rid, pth, direction.left, false, true⟩ =
              (⟨some i0, p0, direction.left, false, true⟩, true) := by
            unfold buildPathNext
            rw [hD]
          rw [hres]
          exact ⟨by simp [hiq], rfl, rfl, rfl⟩
      · intro hq
        have hch := (buildPathNextDescend_left hc rkey root' none none []
          none hbst' habs).2 hq
        rcases hD : buildPathNextDescend cmp direction.left rkey root' []
            none with _ | ⟨i0, p0⟩
        · have hres : buildPathNext cmp rkey root'
              ⟨some rid, pth, direction.left, false, true⟩ =
              (⟨none, [], direction.left, false, true⟩, false) := by
            unfold buildPathNext
            rw [hD]
          rw [hres]
          rfl
        · rw [hD] at hch
          simp at hch


/-- The tree `{1, 3, 5}` of the removal scenario, each key mapped to
itself. -/
def c2tree : TreeSys Int Int :=
  runTOps CompareOrdered newTree [TOp.add 1 1, TOp.add 3 3, TOp.add 5 5]

/-- Removal-scenario state: an ascending cursor parked (not yet consumed) on
key 1. -/
def c2s0 : TreeSys Int Int :=
  (newIteratorOp c2tree).1

/-- Removal-scenario states after removing 1, then 3, then 5. -/
def c2s1 : TreeSys Int Int :=
  removeOp CompareOrdered c2s0 1

def c2s2 : TreeSys Int Int :=
  removeOp CompareOrdered c2s1 3

def c2s3 : TreeSys Int Int :=
  removeOp CompareOrdered c2s2 5

/-- C2: For every `Remove` of a present key: every registered cursor is
marked dirty, except a cursor whose current position is exactly the
(physically) removed node, which instead has its path eagerly rebuilt so
that it stands on the next association in its own traversal direction —
ascending: the node holding the least key greater than the removed key;
descending: the greatest key less than it (stated against the sorted inorder
list of the new root: the first entry greater, resp. the last entry lesser,
and the cursor's current node id is the one the search for that entry's key
lands on) — or, when no such association exists in that direction, the
cursor is closed immediately (unregistered with its node references
cleared, so its subsequent `Next` returns not-found). In particular,
removing keys 1, 3, 5 in that order from the tree {1,3,5} with an ascending
cursor parked on key 1 moves the cursor to 3, then to 5, then leaves it
closed, and its subsequent `Next` calls report not-found. -/
theorem C2_remove_cursor_handling :
    (∀ (K V : Type) (iK : Inhabited K) (iV : Inhabited V)
       (cmp : K → K → Int), LawfulCmp cmp →
       ∀ (sys : TreeSys K V) (key : K) (root' : node K V) (sh : Bool)
         (rid : Nat) (rkey : K),
       TreeInv cmp sys.root →
       removeNode cmp key sys.root = some (root', sh, rid, rkey) →
       (removeOp cmp sys key).root = root' ∧
       ∀ (h : Nat) (it : Iter), sys.iters[h]? = some it →
         ∃ it', (removeOp cmp sys key).iters[h]? = some it' ∧
           (it.linked = false → it' = it) ∧
           (it.linked = true → it.curr ≠ some rid →
             it' = { it with update := true }) ∧
           (it.linked = true → it.curr = some rid →
             (∀ q, (if it.dir = direction.right
                    then nextGtA cmp rkey (inorder root')
                    else prevLtA cmp rkey (inorder root')) = some q →
                it'.curr = findIdNode cmp q.1 root' ∧ it'.linked = true ∧
                it'.update = false ∧ it'.dir = it.dir) ∧
             ((if it.dir = direction.right
               then nextGtA cmp rkey (inorder root')
               else prevLtA cmp rkey (inorder root')) = none →
                it' = { it.close with update := false }))) ∧
    (currKeyOf c2s0 0 = some 1 ∧
     currKeyOf c2s1 0 = some 3 ∧
     currKeyOf c2s2 0 = some 5 ∧
     (c2s3.iters[0]?).map Iter.linked = some false ∧
     keyFound (runNexts CompareOrdered c2s3 0 2).2 =
       [(0, false), (0, false)]) := by
  constructor
  · intro K V iK iV cmp hc sys key root' sh rid rkey hinv hrem
    exact removeOp_iter_cases hc hinv hrem
  · exact ⟨rfl, rfl, rfl, rfl, rfl⟩

-- * System invariant: registered cursors stand on present nodes *

theorem findById_isSome_iff_countId :
    ∀ (t : node K V) (i : Nat),
      (t.findById i).isSome = true ↔ 1 ≤ countId i t
  | .nil, i => by simp [node.findById, countId]
  | .mk l r b j k v, i => by
    rw [node.findById, countId_mk]
    by_cases hj : j = i
    · subst hj
      simp
    · rw [if_neg hj, if_neg (by omega)]
      rcases hL : l.findById i with _ | n
      · have h1 := findById_isSome_iff_countId l i
        have h2 := findById_isSome_iff_countId r i
        rw [hL] at h1
        simp only [Option.isSome_none, Bool.false_eq_true, false_iff] at h1
        rw [h2]
        omega
      · have h1 := findById_isSome_iff_countId l i
        rw [hL] at h1
        simp only [Option.isSome_some, true_iff] at h1
        simp only [Option.isSome_some, true_iff]
        omega

theorem findById_child_left {l r : node K V} {b : Int} {j : Nat} {k : K}
    {v : V} {i : Nat} (h : (l.findById i).isSome = true) :
    ((node.mk l r b j k v).findById i).isSome = true := by
  rw [findById_isSome_iff_countId] at h ⊢
  rw [countId_mk]
  omega

theorem findById_child_right {l r : node K V} {b : Int} {j : Nat} {k : K}
    {v : V} {i : Nat} (h : (r.findById i).isSome = true) :
    ((node.mk l r b j k v).findById i).isSome = true := by
  rw [findById_isSome_iff_countId] at h ⊢
  rw [countId_mk]
  omega

theorem findById_self {l r : node K V} {b : Int} {j : Nat} {k : K} {v : V} :
    ((node.mk l r b j k v).findById j).isSome = true := by
  rw [node.findById, if_pos rfl]
  rfl

/-- A node found by id is a subtree: ids present in it are present in the
whole tree. -/
theorem findById_trans :
    ∀ (t : node K V) (i : Nat) (n : node K V), t.findById i = some n →
      ∀ (j : Nat), (n.findById j).isSome = true →
        (t.findById j).isSome = true
  | .nil, i, n, h => by simp [node.findById] at h
  | .mk l r b i0 k v, i, n, h => by
    rw [node.findById] at h
    intro j hj
    by_cases hi : i0 = i
    · rw [if_pos hi] at h
      cases h
      exact hj
    · rw [if_neg hi] at h
      rcases hL : l.findById i with _ | n'
      · rw [hL] at h
        exact findById_child_right (findById_trans r i n h j hj)
      · rw [hL] at h
        cases h
        exact findById_child_left (findById_trans l i _ hL j hj)

theorem buildPathDescend_present :
    ∀ (dir : direction) (t : node K V) (path : List Nat) (i : Nat),
      (buildPathDescend dir t path).1 = some i →
      (t.findById i).isSome = true
  | dir, .nil, path, i, h => by
    cases dir <;> simp [buildPathDescend] at h
  | .left, .mk .nil r b j k v, path, i, h => by
    simp only [buildPathDescend, Option.some.injEq] at h
    subst h
    exact findById_self
  | .left, .mk (.mk ll lr lb li lk lv) r b j k v, path, i, h => by
    simp only [buildPathDescend] at h
    exact findById_child_left
      (buildPathDescend_present direction.left (.mk ll lr lb li lk lv)
        (j :: path) i h)
  | .right, .mk l .nil b j k v, path, i, h => by
    simp only [buildPathDescend, Option.some.injEq] at h
    subst h
    exact findById_self
  | .right, .mk l (.mk rl rr rb ri rk rv) b j k v, path, i, h => by
    simp only [buildPathDescend] at h
    exact findById_child_right
      (buildPathDescend_present direction.right (.mk rl rr rb ri rk rv)
        (j :: path) i h)

theorem buildPathCurrDescend_present {cmp : K → K → Int} {key : K} :
    ∀ (t : node K V) (path : List Nat) (i : Nat),
      (buildPathCurrDescend cmp key t path).1 = some i →
      (t.findById i).isSome = true
  | .nil, path, i, h => by simp [buildPathCurrDescend] at h
  | .mk l r b j k v, path, i, h => by
    rw [buildPathCurrDescend] at h
    by_cases h0 : cmp k key = 0
    · rw [if_pos h0] at h
      simp only [Option.some.injEq] at h
      subst h
      exact findById_self
    · rw [if_neg h0] at h
      rcases hd : directionOfBool (decide (cmp k key < 0)) with _ | _
      · rw [hd] at h
        exact findById_child_left (buildPathCurrDescend_present l (j :: path) i h)
      · rw [hd] at h
        exact findById_child_right (buildPathCurrDescend_present r (j :: path) i h)

theorem buildPathNextDescend_present {cmp : K → K → Int} {idir : direction}
    {key : K} :
    ∀ (t : node K V) (path : List Nat) (best : Option (Nat × List Nat))
      (i : Nat) (p : List Nat),
      buildPathNextDescend cmp idir key t path best = some (i, p) →
      (t.findById i).isSome = true ∨ best = some (i, p)
  | .nil, path, best, i, p, h => by
    rw [buildPathNextDescend] at h
    exact Or.inr h
  | .mk l r b j k v, path, best, i, p, h => by
    rw [buildPathNextDescend] at h
    rcases hd : directionOfBool (decide (cmp k key < 0)) with _ | _ <;>
      rw [hd] at h
    · rcases buildPathNextDescend_present l (j :: path) _ i p h with hin | hbest
      · exact Or.inl (findById_child_left hin)
      · by_cases hne : direction.left ≠ idir
        · rw [if_pos hne] at hbest
          simp only [Option.some.injEq, Prod.mk.injEq] at hbest
          exact Or.inl (hbest.1 ▸ findById_self)
        · rw [if_neg hne] at hbest
          exact Or.inr hbest
    · rcases buildPathNextDescend_present r (j :: path) _ i p h with hin | hbest
      · exact Or.inl (findById_child_right hin)
      · by_cases hne : direction.right ≠ idir
        · rw [if_pos hne] at hbest
          simp only [Option.some.injEq, Prod.mk.injEq] at hbest
          exact Or.inl (hbest.1 ▸ findById_self)
        · rw [if_neg hne] at hbest
          exact Or.inr hbest

theorem advancePop_present {root : node K V} {dir : direction} :
    ∀ (path : List Nat) (last : Nat) (i : Nat),
      (advancePop root dir path last).1 = some i →
      (root.findById i).isSome = true
  | [], last, i, h => by simp [advancePop] at h
  | p :: rest, last, i, h => by
    rw [advancePop] at h
    rcases hF : root.findById p with _ | n
    · simp only [hF] at h
      simp at h
    · simp only [hF] at h
      by_cases hne : (n.link dir).idOf ≠ some last
      · rw [if_pos hne] at h
        simp only [Option.some.injEq] at h
        subst h
        rw [hF]
        rfl
      · rw [if_neg hne] at h
        exact advancePop_present rest p i h

theorem findIdNode_present_id {cmp : K → K → Int} {key : K} :
    ∀ (t : node K V) (i : Nat), findIdNode cmp key t = some i →
      (t.findById i).isSome = true
  | .nil, i, h => by simp [findIdNode] at h
  | .mk l r b j k v, i, h => by
    rw [findIdNode] at h
    by_cases h0 : cmp k key = 0
    · rw [if_pos h0] at h
      simp only [Option.some.injEq] at h
      subst h
      exact findById_self
    · rw [if_neg h0] at h
      rcases hd : directionOfBool (decide (cmp k key < 0)) with _ | _ <;>
        rw [hd] at h
      · exact findById_child_left (findIdNode_present_id l i h)
      · exact findById_child_right (findIdNode_present_id r i h)

theorem buildPathDescend_isSome :
    ∀ (dir : direction) (t : node K V) (path : List Nat), t.isNil = false →
      (buildPathDescend dir t path).1.isSome = true
  | dir, .nil, path, h => by simp [node.isNil] at h
  | .left, .mk .nil r b j k v, path, _ => by simp [buildPathDescend]
  | .left, .mk (.mk ll lr lb li lk lv) r b j k v, path, _ => by
    simp only [buildPathDescend]
    exact buildPathDescend_isSome .left (.mk ll lr lb li lk lv) (j :: path) rfl
  | .right, .mk l .nil b j k v, path, _ => by simp [buildPathDescend]
  | .right, .mk l (.mk rl rr rb ri rk rv) b j k v, path, _ => by
    simp only [buildPathDescend]
    exact buildPathDescend_isSome .right (.mk rl rr rb ri rk rv) (j :: path) rfl

/-- Registered-cursor invariant: a registered cursor stands on a node that is
present in the tree. -/
def IterInv (root : node K V) (it : Iter) : Prop :=
  it.linked = true → ∃ i, it.curr = some i ∧ (root.findById i).isSome = true

/-- System invariant: the tree invariant together with the registered-cursor
invariant for every iterator ever handed out. -/
def SysInv (cmp : K → K → Int) (sys : TreeSys K V) : Prop :=
  TreeInv cmp sys.root ∧ ∀ it ∈ sys.iters, IterInv sys.root it

theorem buildPathCurr_linked {cmp : K → K → Int} {root : node K V}
    {it : Iter} : (buildPathCurr cmp root it).linked = it.linked := by
  rw [buildPathCurr]
  split <;> rfl

theorem IterInv_advance {root : node K V} {it : Iter}
    (hres : (advance root it).2 = true) :
    IterInv root (advance root it).1 := by
  rw [advance] at hres ⊢
  rcases hM : it.curr.bind root.findById with _ | n
  · rw [hM] at hres
    exact Bool.noConfusion hres
  · rw [hM] at hres
    cases n with
    | nil => exact Bool.noConfusion hres
    | mk l r b i k v =>
      have hres1 : (advanceStep root it i
          ((node.mk l r b i k v).link it.dir)).2 = true := hres
      show IterInv root (advanceStep root it i
        ((node.mk l r b i k v).link it.dir)).1
      rcases hL : (node.mk l r b i k v).link it.dir
        with _ | ⟨cl, cr, cb, ci, ck, cv⟩
      · rw [hL] at hres1
        have hres2 : (advancePop root it.dir it.path i).1.isSome = true :=
          hres1
        show IterInv root
          { it with curr := (advancePop root it.dir it.path i).1,
                    path := (advancePop root it.dir it.path i).2 }
        intro _
        rcases hP : (advancePop root it.dir it.path i).1 with _ | p
        · rw [hP] at hres2
          exact Bool.noConfusion hres2
        · exact ⟨p, rfl, advancePop_present it.path i p hP⟩
      · rw [hL] at hres1
        have hres2 : (buildPathDescend it.dir.other
            (node.mk cl cr cb ci ck cv) (i :: it.path)).1.isSome = true :=
          hres1
        show IterInv root
          { it with
              curr := (buildPathDescend it.dir.other
                (node.mk cl cr cb ci ck cv) (i :: it.path)).1,
              path := (buildPathDescend it.dir.other
                (node.mk cl cr cb ci ck cv) (i :: it.path)).2 }
        intro _
        rcases hD : (buildPathDescend it.dir.other
            (node.mk cl cr cb ci ck cv) (i :: it.path)).1 with _ | p
        · rw [hD] at hres2
          exact Bool.noConfusion hres2
        · refine ⟨p, rfl, ?_⟩
          have hpres : ((node.mk cl cr cb ci ck cv).findById p).isSome =
              true :=
            buildPathDescend_present it.dir.other _ (i :: it.path) p hD
          obtain ⟨i0, hi0, hF⟩ : ∃ i0, it.curr = some i0 ∧
              root.findById i0 = some (node.mk l r b i k v) := by
            rcases hcu : it.curr with _ | i0
            · rw [hcu] at hM
              simp at hM
            · rw [hcu] at hM
              exact ⟨i0, rfl, by simpa using hM⟩
          have hin : ((node.mk l r b i k v).findById p).isSome = true := by
            cases hdir : it.dir with
            | left =>
              rw [hdir] at hL
              have hLeq : l = node.mk cl cr cb ci ck cv := hL
              rw [hLeq]
              exact findById_child_left hpres
            | right =>
              rw [hdir] at hL
              have hReq : r = node.mk cl cr cb ci ck cv := hL
              rw [hReq]
              exact findById_child_right hpres
          exact findById_trans root i0 _ hF p hin

theorem IterInv_iterNextResolve [Inhabited K] [Inhabited V]
    (root : node K V) (it2 : Iter) :
    IterInv root (iterNextResolve root it2 (it2.curr.bind root.findById)).1 := by
  rcases hM : it2.curr.bind root.findById with _ | n
  · show IterInv root it2.close
    intro hcon
    simp [Iter.close] at hcon
  · cases n with
    | nil =>
      show IterInv root it2.close
      intro hcon
      simp [Iter.close] at hcon
    | mk l r b i k v =>
      show IterInv root (if (advance root it2).2 = true
        then (advance root it2).1 else (advance root it2).1.close)
      by_cases hres : (advance root it2).2 = true
      · rw [if_pos hres]
        exact IterInv_advance hres
      · rw [if_neg hres]
        intro hcon
        simp [Iter.close] at hcon

theorem IterInv_iterNextIter [Inhabited K] [Inhabited V]
    (cmp : K → K → Int) (root : node K V) (it : Iter) :
    IterInv root (iterNextIter cmp root it).1 := by
  rw [iterNextIter]
  by_cases hl : it.linked = true
  · rw [if_neg (by simp [hl])]
    exact IterInv_iterNextResolve root _
  · have hlf : it.linked = false := by
      revert hl
      cases it.linked <;> simp
    rw [if_pos (by rw [hlf]; rfl)]
    intro hcon
    rw [hlf] at hcon
    cases hcon


theorem addOp_iters (cmp : K → K → Int) (sys : TreeSys K V) (key : K)
    (value : V) :
    (addOp cmp sys key value).iters = sys.iters ∨
    (addOp cmp sys key value).iters = sys.iters.map (fun it =>
      if it.linked then { it with update := true } else it) := by
  rcases sys with ⟨root, len, nid, iters⟩
  cases root with
  | nil => exact Or.inl rfl
  | mk l r b j k v =>
    simp only [addOp]
    split
    · exact Or.inr rfl
    · exact Or.inl rfl

theorem addOp_countId_le {cmp : K → K → Int} (hc : LawfulCmp cmp)
    {sys : TreeSys K V} (hT : TreeInv cmp sys.root) (key : K) (value : V)
    (j : Nat) :
    countId j sys.root ≤ countId j (addOp cmp sys key value).root := by
  rw [addOp_root]
  obtain ⟨hb, hs⟩ := hT
  obtain ⟨_, _, _, _, A5, _, _⟩ :=
    addNode_ok hc sys.nextId key value sys.root none none hb hs rfl rfl
  rw [A5 j]
  omega

theorem SysInv_addOp [Inhabited K] [Inhabited V] {cmp : K → K → Int}
    (hc : LawfulCmp cmp) {sys : TreeSys K V} (key : K) (value : V)
    (h : SysInv cmp sys) : SysInv cmp (addOp cmp sys key value) := by
  obtain ⟨hT, hI⟩ := h
  refine ⟨TreeInv_addOp hc key value hT, ?_⟩
  have hmono : ∀ i, (sys.root.findById i).isSome = true →
      ((addOp cmp sys key value).root.findById i).isSome = true := by
    intro i hi
    rw [findById_isSome_iff_countId] at hi ⊢
    have h2 := addOp_countId_le hc hT key value i
    omega
  intro it' hit'
  rcases addOp_iters cmp sys key value with hE | hE
  · rw [hE] at hit'
    intro hl
    obtain ⟨i, hi, hp⟩ := hI it' hit' hl
    exact ⟨i, hi, hmono i hp⟩
  · rw [hE] at hit'
    rcases List.mem_map.mp hit' with ⟨it, hit, rfl⟩
    intro hl
    by_cases hlk : it.linked
    · rw [if_pos hlk] at hl ⊢
      obtain ⟨i, hi, hp⟩ := hI it hit hlk
      exact ⟨i, hi, hmono i hp⟩
    · rw [if_neg hlk] at hl
      exact absurd hl hlk

theorem SysInv_removeOp [Inhabited K] [Inhabited V] {cmp : K → K → Int}
    (hc : LawfulCmp cmp) {sys : TreeSys K V} (key : K)
    (h : SysInv cmp sys) : SysInv cmp (removeOp cmp sys key) := by
  obtain ⟨hT, hI⟩ := h
  refine ⟨TreeInv_removeOp hc key hT, ?_⟩
  rcases hrem : removeNode cmp key sys.root with _ | ⟨root', sh, rid, rkey⟩
  · have hsame : removeOp cmp sys key = sys := by
      unfold removeOp
      rw [hrem]
    rw [hsame]
    exact hI
  · obtain ⟨hbal, hbst⟩ := hT
    obtain ⟨R1, R2, R3, R4, R5, R6⟩ := removeNode_ok hc key sys.root none
      none root' sh rid rkey hbal hbst hrem
    obtain ⟨hroot, hiter⟩ := removeOp_iter_cases hc ⟨hbal, hbst⟩ hrem
    have hbst' : bst cmp root' none none = true := by
      have h2 := TreeInv_removeOp hc key ⟨hbal, hbst⟩
      rw [hroot] at h2
      exact h2.2
    intro it' hit'
    obtain ⟨hidx, hget⟩ := List.mem_iff_getElem?.mp hit'
    have hgetmap : ((removeOp cmp sys key).iters)[hidx]? = some it' := hget
    have hsrc : ∃ it, sys.iters[hidx]? = some it := by
      have hiters : (removeOp cmp sys key).iters = sys.iters.map (fun it =>
          if !it.linked then it
          else if it.curr = some rid then
            let res := buildPathNext cmp rkey root' { it with update := false }
            if res.2 then res.1 else res.1.close
          else { it with update := true }) := by
        unfold removeOp
        rw [hrem]
      rw [hiters, List.getElem?_map] at hgetmap
      rcases hs : sys.iters[hidx]? with _ | it
      · rw [hs] at hgetmap
        simp at hgetmap
      · exact ⟨it, rfl⟩
    obtain ⟨it, hit⟩ := hsrc
    obtain ⟨it'', hget'', P1, P2, P3⟩ := hiter hidx it hit
    have hsame : it'' = it' := by
      rw [hget''] at hgetmap
      simpa using hgetmap
    subst hsame
    rw [hroot]
    by_cases hlk : it.linked = true
    · by_cases hcu : it.curr = some rid
      · obtain ⟨P3a, P3b⟩ := P3 hlk hcu
        rcases hN : (if it.dir = direction.right
            then nextGtA cmp rkey (inorder root')
            else prevLtA cmp rkey (inorder root')) with _ | q
        · rw [P3b hN]
          intro hcon
          simp [Iter.close] at hcon
        · obtain ⟨hcurr, hlk', hupd, hdir⟩ := P3a q hN
          intro _
          have hqmem : q ∈ inorder root' := by
            rcases hd : it.dir with _ | _ <;> rw [hd] at hN
            · rw [if_neg (by simp)] at hN
              exact List.mem_of_mem_filter (mem_of_getLast_eq hN)
            · rw [if_pos rfl] at hN
              exact List.mem_of_mem_filter (mem_of_head_eq hN)
          obtain ⟨iq, hiq⟩ := findIdNode_present hc root' none none hbst' q
            hqmem
          refine ⟨iq, ?_, findIdNode_present_id root' iq hiq⟩
          rw [hcurr, hiq]
      · rw [P2 hlk hcu]
        intro _
        obtain ⟨i, hi, hp⟩ := hI it (List.mem_iff_getElem?.mpr ⟨hidx, hit⟩) hlk
        have hne : i ≠ rid := by
          intro hcon
          rw [hcon] at hi
          exact hcu hi
        refine ⟨i, hi, ?_⟩
        rw [findById_isSome_iff_countId] at hp ⊢
        have h6 := R6 i
        rw [if_neg (by omega)] at h6
        omega
    · have hlf : it.linked = false := by
        revert hlk
        cases it.linked <;> simp
      rw [P1 hlf]
      intro hcon
      rw [hlf] at hcon
      cases hcon

theorem SysInv_clearOp {cmp : K → K → Int} {sys : TreeSys K V}
    (h : SysInv cmp sys) : SysInv cmp (clearOp sys).1 := by
  refine ⟨⟨rfl, rfl⟩, ?_⟩
  intro it' hit'
  rcases List.mem_map.mp hit' with ⟨it, hit, rfl⟩
  intro hl
  by_cases hlk : it.linked
  · rw [if_pos hlk] at hl
    simp [Iter.close] at hl
  · rw [if_neg hlk] at hl
    exact absurd hl hlk

theorem IterInv_startIter (root : node K V) (dir : direction) :
    IterInv root
      (if (buildPathStart root ⟨none, [], dir, false, false⟩).2 = true
       then { (buildPathStart root ⟨none, [], dir, false, false⟩).1 with
                linked := true }
       else (buildPathStart root ⟨none, [], dir, false, false⟩).1) := by
  cases root with
  | nil =>
    rw [if_neg (by simp [buildPathStart])]
    intro hcon
    simp [buildPathStart] at hcon
  | mk l r b j k v =>
    have h2 : (buildPathStart (node.mk l r b j k v)
        ⟨none, [], dir, false, false⟩).2 = true := rfl
    rw [if_pos h2]
    intro _
    obtain ⟨i, hi⟩ := Option.isSome_iff_exists.mp
      (buildPathDescend_isSome dir.other (.mk l r b j k v) [] rfl)
    exact ⟨i, hi, buildPathDescend_present dir.other _ [] i hi⟩

theorem SysInv_newIterOp {cmp : K → K → Int} {sys : TreeSys K V}
    (dir : direction) (h : SysInv cmp sys) :
    SysInv cmp (newIterOp sys dir).1 := by
  obtain ⟨hT, hI⟩ := h
  refine ⟨hT, ?_⟩
  have hit1 : (newIterOp sys dir).1.iters = sys.iters ++
      [(if (buildPathStart sys.root ⟨none, [], dir, false, false⟩).2 = true
        then { (buildPathStart sys.root ⟨none, [], dir, false, false⟩).1 with
                 linked := true }
        else (buildPathStart sys.root ⟨none, [], dir, false, false⟩).1)] :=
    rfl
  intro it' hit'
  rw [hit1] at hit'
  rcases List.mem_append.mp hit' with hold | hnew
  · exact hI it' hold
  · have heq : it' = _ := List.mem_singleton.mp hnew
    rw [heq]
    exact IterInv_startIter sys.root dir

theorem SysInv_iterNextOp [Inhabited K] [Inhabited V] {cmp : K → K → Int}
    (h : Nat) {sys : TreeSys K V} (hS : SysInv cmp sys) :
    SysInv cmp (iterNextOp cmp sys h).1 := by
  obtain ⟨hT, hI⟩ := hS
  rcases hit : sys.iters[h]? with _ | it
  · have heq : (iterNextOp cmp sys h).1 = sys := by
      unfold iterNextOp
      rw [hit]
    rw [heq]
    exact ⟨hT, hI⟩
  · have heq : (iterNextOp cmp sys h).1 =
        { sys with iters :=
            sys.iters.set h (iterNextIter cmp sys.root it).1 } := by
      unfold iterNextOp
      rw [hit]
    rw [heq]
    refine ⟨hT, ?_⟩
    intro it' hit'
    rcases List.mem_or_eq_of_mem_set hit' with hold | heq'
    · exact hI it' hold
    · rw [heq']
      exact IterInv_iterNextIter cmp sys.root it

theorem SysInv_iterCloseOp {cmp : K → K → Int} (h : Nat)
    {sys : TreeSys K V} (hS : SysInv cmp sys) :
    SysInv cmp (iterCloseOp sys h) := by
  obtain ⟨hT, hI⟩ := hS
  rcases hit : sys.iters[h]? with _ | it
  · have heq : iterCloseOp sys h = sys := by
      unfold iterCloseOp
      rw [hit]
    rw [heq]
    exact ⟨hT, hI⟩
  · have heq : iterCloseOp sys h =
        { sys with iters := sys.iters.set h it.close } := by
      unfold iterCloseOp
      rw [hit]
    rw [heq]
    refine ⟨hT, ?_⟩
    intro it' hit'
    rcases List.mem_or_eq_of_mem_set hit' with hold | heq'
    · exact hI it' hold
    · rw [heq']
      intro hcon
      simp [Iter.close] at hcon

/-- The public operations of the tree system (the ones the claim ranges
over): Add, Remove, Clear, NewIterator, NewReverseIterator, and Next and
Close on an iterator handle. -/
inductive SOp (K V : Type) where
  | add (key : K) (value : V)
  | remove (key : K)
  | clear
  | newIter
  | newRevIter
  | next (h : Nat)
  | close (h : Nat)

/-- Apply one public operation to the system state. -/
def applySOp [Inhabited K] [Inhabited V] (cmp : K → K → Int)
    (sys : TreeSys K V) : SOp K V → TreeSys K V
  | .add key value => addOp cmp sys key value
  | .remove key => removeOp cmp sys key
  | .clear => (clearOp sys).1
  | .newIter => (newIteratorOp sys).1
  | .newRevIter => (newReverseIteratorOp sys).1
  | .next h => (iterNextOp cmp sys h).1
  | .close h => iterCloseOp sys h

/-- Run a sequence of public operations. -/
def runSOps [Inhabited K] [Inhabited V] (cmp : K → K → Int)
    (sys : TreeSys K V) (ops : List (SOp K V)) : TreeSys K V :=
  ops.foldl (applySOp cmp) sys

theorem SysInv_applySOp [Inhabited K] [Inhabited V] {cmp : K → K → Int}
    (hc : LawfulCmp cmp) (op : SOp K V) {sys : TreeSys K V}
    (h : SysInv cmp sys) : SysInv cmp (applySOp cmp sys op) := by
  cases op with
  | add key value => exact SysInv_addOp hc key value h
  | remove key => exact SysInv_removeOp hc key h
  | clear => exact SysInv_clearOp h
  | newIter => exact SysInv_newIterOp direction.right h
  | newRevIter => exact SysInv_newIterOp direction.left h
  | next hh => exact SysInv_iterNextOp hh h
  | close hh => exact SysInv_iterCloseOp hh h

theorem SysInv_runSOps [Inhabited K] [Inhabited V] {cmp : K → K → Int}
    (hc : LawfulCmp cmp) :
    ∀ (ops : List (SOp K V)) (sys : TreeSys K V), SysInv cmp sys →
      SysInv cmp (runSOps cmp sys ops)
  | [], sys, h => h
  | op :: rest, sys, h =>
    SysInv_runSOps hc rest (applySOp cmp sys op) (SysInv_applySOp hc op h)

theorem SysInv_newTree (cmp : K → K → Int) :
    SysInv cmp (newTree : TreeSys K V) := by
  refine ⟨⟨rfl, rfl⟩, ?_⟩
  intro it hit
  simp [newTree] at hit

/-- C10: After every sequence of public operations starting from a fresh
tree, if the tree is empty (the root is nil) then the cursor registry is
empty: no cursor is registered (`linked = false` for every iterator ever
handed out). This holds because a new cursor registers only when a starting
node exists, `Remove` closes a cursor parked on the last node in its
direction, and `Clear` closes all registered cursors — captured by the
invariant `SysInv`, preserved by every public operation: every registered
cursor stands on a node present in the tree. It is this invariant that makes
`Add`'s empty-tree fast path, which inserts the root without marking any
cursor dirty, unable to leave a stale registered cursor. -/
theorem C10_empty_tree_empty_registry {K V : Type} [Inhabited K]
    [Inhabited V] {cmp : K → K → Int} (hc : LawfulCmp cmp)
    (ops : List (SOp K V))
    (hroot : (runSOps cmp newTree ops).root = node.nil) :
    (runSOps cmp newTree ops).iters.all (fun it => !it.linked) = true := by
  have hS := SysInv_runSOps hc ops newTree (SysInv_newTree cmp)
  rw [List.all_eq_true]
  intro it hit
  cases hlk : it.linked with
  | false => rfl
  | true =>
    obtain ⟨i, _, hp⟩ := hS.2 it hit hlk
    rw [hroot] at hp
    simp [node.findById] at hp

/-- Operation sequence of the C10 witness: add one key, open a cursor on it,
then remove the key (the cursor is closed by the removal, emptying the
registry together with the tree). -/
def c10ops : List (SOp Int Int) :=
  [SOp.add 1 1, SOp.newIter, SOp.remove 1]

theorem C10_witness :
    ((runSOps CompareOrdered newTree c10ops).root = node.nil) ∧
    (runSOps CompareOrdered newTree c10ops).iters.all
      (fun it => !it.linked) = true :=
  ⟨rfl, C10_empty_tree_empty_registry lawful_CompareOrdered c10ops rfl⟩

end GodsAvl
